import Mathlib

/-!
# Dfam seed alignments (`src/src/DfamSeedAlignment.js`)

A shallow embedding of the JavaScript object `DfamSeedAlignment`: the Stockholm
parser `parseStockholm`, the two consensus callers `toConsensus` and
`generateConsensusFromAlignment2`, the summariser `toAlignmentSummary` and the
A2M encoder `toA2M`.

Conventions of the embedding.

* A JavaScript string is a list of characters (`Str`).  The source only ever
  inspects strings one code unit at a time (`substring(j, j + 1)`) or through
  regular expressions whose classes are ASCII, so the two views agree on all
  text of the Basic Multilingual Plane.
* `s.substring(j, j + 1)` is `charAt s j`, a string of one character, or the
  empty string that JavaScript returns beyond the end of `s`.
* A JavaScript number that the source computes from integers is an `Int`
  (or a `Nat` for counters); `NaN`, which arises when `undefined` enters the
  arithmetic, is `none` in `Option Int`.
* A thrown value is a `JsError`; functions that can throw return `Except`.
* Every regular expression of the source is embedded as a matcher written
  by hand; the doc comment of the matcher quotes the expression.
-/

namespace Dfam

/-- A JavaScript string, as the list of its characters. -/
abbrev Str := List Char

/-- Values thrown by the source: the two literal messages, and the `TypeError`
that the engine raises on a property access on `null` or `undefined`. -/
inductive JsError where
  /-- The string thrown by `parseStockholm`:
  `Stockholm Alignment: Missing RF line!  Not a consensus based multiple alignment`. -/
  | missingRF
  /-- A `TypeError` raised by the engine. -/
  | typeError
  /-- The string thrown by `toA2M` (`stockholmToA2M: Error converting to A2M format ...`),
  with the two counts and the offending line it names. -/
  | a2mInconsistent (was now : Int) (line : Str)
  deriving DecidableEq, Repr

/-- Equality of outcomes is decidable. -/
instance instDecidableEqExcept {ε α : Type} [DecidableEq ε] [DecidableEq α] :
    DecidableEq (Except ε α)
  | .ok a, .ok b => if h : a = b then isTrue (by rw [h]) else isFalse (fun e => h (by cases e; rfl))
  | .error a, .error b =>
    if h : a = b then isTrue (by rw [h]) else isFalse (fun e => h (by cases e; rfl))
  | .ok _, .error _ => isFalse (fun e => by cases e)
  | .error _, .ok _ => isFalse (fun e => by cases e)

/-- One element of `alignments`.  `parseStockholm` pushes `{seqid, alignment}`;
`toA2M` also reads the optional properties `start`, `end` (here `stop`) and
`orient`; `none` is `undefined`. -/
structure Row where
  seqid : Str
  alignment : Str
  start : Option Nat := none
  stop : Option Nat := none
  orient : Option Str := none
  deriving DecidableEq, Repr

/-- The object built by `function DfamSeedAlignment()`; `version` is the
property that `parseStockholm` adds on a `# STOCKHOLM` line. -/
structure SeedAlignment where
  headers : List (Str × Str) := []
  alignments : List Row := []
  version : Option Str := none
  deriving DecidableEq, Repr

/-- The object returned by `new DfamSeedAlignment()`. -/
def fresh : SeedAlignment := {}

/-- Reading `headers[tag]` on the plain object `headers`. -/
def getHeader : List (Str × Str) → Str → Option Str
  | [], _ => none
  | (k, v) :: h, tag => if k = tag then some v else getHeader h tag

/-- Writing the own property `tag` of a plain object: overwrite in place, or
add at the end. -/
def setKey : List (Str × Str) → Str → Str → List (Str × Str)
  | [], tag, value => [(tag, value)]
  | (k, v) :: h, tag, value =>
    if k = tag then (k, value) :: h else (k, v) :: setKey h tag value

/-- The assignment `headers[tag] = value`.  Assigning a string to `__proto__` of a
plain object has no effect. -/
def setHeader (h : List (Str × Str)) (tag value : Str) : List (Str × Str) :=
  if tag = "__proto__".toList then h else setKey h tag value

/-- The class `\s` of a JavaScript regular expression. -/
def isJsSpace (c : Char) : Bool :=
  c = '\t' || c = '\n' || c.toNat = 11 || c.toNat = 12 || c = '\r' || c = ' ' ||
  c.toNat = 0xa0 || c.toNat = 0x1680 || (0x2000 ≤ c.toNat && c.toNat ≤ 0x200a) ||
  c.toNat = 0x2028 || c.toNat = 0x2029 || c.toNat = 0x202f || c.toNat = 0x205f ||
  c.toNat = 0x3000 || c.toNat = 0xfeff

/-- The class `\d`. -/
def isDigit (c : Char) : Bool := '0' ≤ c && c ≤ '9'

/-- The class `[ACGTUMRWSYKVHDBNacgtumrwsykvhdbn\.]` of the sequence line. -/
def isAlnChar (c : Char) : Bool :=
  c ∈ "ACGTUMRWSYKVHDBNacgtumrwsykvhdbn.".toList

/-- The call `s.substring(a, b)` for non-negative integers: the arguments are swapped
when `a > b` and clamped to the length. -/
def substring (s : Str) (a b : Nat) : Str := (s.take (max a b)).drop (min a b)

/-- The call `s.substring(j, j + 1)`: the one-character string at `j`, or the empty
string when `j` is beyond the end. -/
def charAt (s : Str) (j : Nat) : Str := substring s j (j + 1)

/-- A literal at the head of the subject: the rest after it. -/
def dropLit (lit s : Str) : Option Str :=
  if lit.isPrefixOf s then some (s.drop lit.length) else none

/-- The expression `\s+` at the head of the subject: the rest after the (maximal) run. -/
def spaces1 (s : Str) : Option Str :=
  match s with
  | [] => none
  | c :: _ => if isJsSpace c then some (s.dropWhile isJsSpace) else none

/-- The expression `(\S+)` at the head of the subject, when what follows in the expression
cannot start with a non-space character (or nothing follows): the maximal
run of non-space characters, and the rest. -/
def token (s : Str) : Option (Str × Str) :=
  match s.takeWhile (fun c => !isJsSpace c) with
  | [] => none
  | t => some (t, s.dropWhile (fun c => !isJsSpace c))

/-- The call `textData.split(/\r\n|\n/)`, with the line being collected in `cur`. -/
def splitLinesAux : Str → Str → List Str
  | [], cur => [cur.reverse]
  | '\r' :: '\n' :: rest, cur => cur.reverse :: splitLinesAux rest []
  | '\n' :: rest, cur => cur.reverse :: splitLinesAux rest []
  | c :: rest, cur => splitLinesAux rest (c :: cur)

/-- The call `textData.split(/\r\n|\n/)`. -/
def splitLines (text : Str) : List Str := splitLinesAux text []

/-- The test `/^\s*$/` (blank line). -/
def isBlank (line : Str) : Bool := line.all isJsSpace

/-- The match `/^#\s+STOCKHOLM\s+([\.\d]+)/`: group 1. -/
def matchVersion (line : Str) : Option Str := do
  let r ← dropLit "#".toList line
  let r ← spaces1 r
  let r ← dropLit "STOCKHOLM".toList r
  let r ← spaces1 r
  match r.takeWhile (fun c => c = '.' || isDigit c) with
  | [] => none
  | v => some v

/-- The match `/^#=GF\s+(\S+)\s+(\S+)/`: groups 1 and 2. -/
def matchGF (line : Str) : Option (Str × Str) := do
  let r ← dropLit "#=GF".toList line
  let r ← spaces1 r
  let (tag, r) ← token r
  let r ← spaces1 r
  let (value, _) ← token r
  pure (tag, value)

/-- The match `/^#=GC\s+RF\s+(\S+)/`: group 1. -/
def matchGCRF (line : Str) : Option Str := do
  let r ← dropLit "#=GC".toList line
  let r ← spaces1 r
  let r ← dropLit "RF".toList r
  let r ← spaces1 r
  let (value, _) ← token r
  pure value

/-- The match `/^\s*(\S+)\s+([ACGTUMRWSYKVHDBNacgtumrwsykvhdbn\.]+)\s*$/`:
groups 1 and 2. -/
def matchSeqLine (line : Str) : Option (Str × Str) := do
  let (id, r) ← token (line.dropWhile isJsSpace)
  let r ← spaces1 r
  match r.takeWhile isAlnChar with
  | [] => none
  | aln => if (r.dropWhile isAlnChar).all isJsSpace then some (id, aln) else none

/-- The test `/^\/\/\s*$/` (end of the seed alignment). -/
def isEndMarker (line : Str) : Bool :=
  match line with
  | '/' :: '/' :: rest => rest.all isJsSpace
  | _ => false

/-- The `for` loop of `parseStockholm` over the remaining lines; `break` on the
end marker.  An unknown line is logged and skipped. -/
def parseLines : List Str → SeedAlignment → SeedAlignment
  | [], o => o
  | line :: rest, o =>
    if isBlank line then parseLines rest o
    else match matchVersion line with
    | some v => parseLines rest { o with version := some v }
    | none =>
    match matchGF line with
    | some (tag, value) => parseLines rest { o with headers := setHeader o.headers tag value }
    | none =>
    match matchGCRF line with
    | some value =>
      parseLines rest { o with headers := setHeader o.headers "RF".toList value }
    | none =>
    match matchSeqLine line with
    | some (id, aln) =>
      parseLines rest { o with alignments := o.alignments ++ [{ seqid := id, alignment := aln }] }
    | none =>
    if isEndMarker line then o
    else parseLines rest o

/-- The method `DfamSeedAlignment.prototype.parseStockholm` on the object `self`.  The
argument `none` is `null`/`undefined`, for which the source returns
`undefined` (`none`) at once. -/
def parseStockholm (self : SeedAlignment) (textData : Option Str) :
    Except JsError (Option SeedAlignment) :=
  match textData with
  | none => .ok none
  | some text =>
    let stockholmObj := parseLines (splitLines text) self
    if getHeader stockholmObj.headers "RF".toList = none then .error .missingRF
    else .ok (some stockholmObj)

/-- The value carried by a line that is a `#=GF RF <value>` line or a
`#=GC RF <value>` line (in the sense of the two expressions of `parseStockholm`),
`none` for any other line. -/
def rfValue (line : Str) : Option Str :=
  match matchGF line with
  | some (tag, value) => if tag = "RF".toList then some value else matchGCRF line
  | none => matchGCRF line

/-- The lines of a text before its first end-marker line. -/
def linesBeforeEnd (text : Str) : List Str :=
  (splitLines text).takeWhile (fun line => !isEndMarker line)

/-! ## Column tallies -/

/-- The plain object `colData[j]`: counts keyed by a string (a one-character
string wherever the source writes one), in insertion order. -/
abbrev Tally := List (Str × Nat)

/-- Reading `colData[j][aBase]` (`none` is `undefined`). -/
def Tally.get : Tally → Str → Option Nat
  | [], _ => none
  | (k, n) :: t, key => if k = key then some n else Tally.get t key

/-- The statements `if (t[aBase] == null) t[aBase] = 0; t[aBase]++`. -/
def Tally.incr : Tally → Str → Tally
  | [], key => [(key, 1)]
  | (k, n) :: t, key => if k = key then (k, n + 1) :: t else (k, n) :: Tally.incr t key

/-- The array `Object.keys(t)`: the integer-like keys in ascending order (among the keys
the source can create only the one-digit strings are such), then the other keys
in insertion order. -/
def objectKeys (t : Tally) : List Str :=
  ("0123456789".toList.map (fun d => [d])).filter (fun k => (t.get k).isSome) ++
  (t.map Prod.fst).filter (fun k => !(k.length = 1 && k.all isDigit))

/-- The sparse array `colData`: `none` is a hole (`undefined`). -/
abbrev ColData := Nat → Option Tally

/-- The empty array of `var colData = []`. -/
def ColData.empty : ColData := fun _ => none

/-- The statements `if (colData[j] == null) colData[j] = {}`. -/
def ColData.touch (cd : ColData) (j : Nat) : ColData :=
  fun k => if k = j then some ((cd j).getD []) else cd k

/-- The statement `colData[j][aBase]++` (after the two `== null` initialisations). -/
def ColData.incr (cd : ColData) (j : Nat) (aBase : Str) : ColData :=
  fun k => if k = j then some (((cd j).getD []).incr aBase) else cd k

/-- The match `alignment.match(/^(\.*)[^\.]/)`: the length of group 1, or `none` for `null`
(no character other than `.`). -/
def startMatch (alignment : Str) : Option Nat :=
  match alignment.dropWhile (fun c => c = '.') with
  | [] => none
  | _ :: _ => some (alignment.takeWhile (fun c => c = '.')).length

/-- The match `alignment.match(/.*[^\.](\.*)$/)`: the length of group 1, or `none` for `null`.
The expression is not anchored at the start, so it matches as soon as some
character is not `.`; `[^\.]` is then the last such character and group 1 the
run of `.` that ends the string. -/
def endMatch (alignment : Str) : Option Nat :=
  match alignment.reverse.dropWhile (fun c => c = '.') with
  | [] => none
  | _ :: _ => some (alignment.reverse.takeWhile (fun c => c = '.')).length

/-- The columns `alignStart, ..., alignEnd` of a `for (j = alignStart; j <= alignEnd; j++)`. -/
def span (alignStart alignEnd : Nat) : List Nat :=
  List.range' alignStart (alignEnd + 1 - alignStart)

/-! ## `generateConsensusFromAlignment2` -/

/-- The constant `CGParam`. -/
def CGParam : Int := 12
/-- The constant `TAParam`. -/
def TAParam : Int := -5
/-- The constant `CGTransParam`. -/
def CGTransParam : Int := 2

/-- The lineup matrix. -/
def matrix : List (List Int) :=
  [[9, 0, -8, -15, -16, -17, -13, -3, -11, -4, -2, -7, -3, -6],
   [2, 1, 1, -15, -15, -16, -7, -6, -6, -7, -2, -7, -3, -6],
   [-4, 3, 10, -14, -14, -15, -2, -9, -2, -9, -2, -7, -3, -6],
   [-15, -14, -14, 10, 3, -4, -9, -2, -2, -9, -2, -7, -3, -6],
   [-16, -15, -15, 1, 1, 2, -6, -7, -6, -7, -2, -7, -3, -6],
   [-17, -16, -15, -8, 0, 9, -3, -13, -11, -4, -2, -7, -3, -6],
   [-11, -6, -2, -11, -7, -3, -2, -11, -6, -7, -2, -7, -3, -6],
   [-3, -7, -11, -2, -6, -11, -11, -2, -6, -7, -2, -7, -3, -6],
   [-9, -5, -2, -2, -5, -9, -5, -5, -2, -9, -2, -7, -3, -6],
   [-4, -8, -11, -11, -8, -4, -8, -8, -11, -4, -2, -7, -3, -6],
   [-2, -2, -2, -2, -2, -2, -2, -2, -2, -2, -1, -7, -3, -6],
   [-7, -7, -7, -7, -7, -7, -7, -7, -7, -7, -7, -7, -3, -6],
   [-3, -3, -3, -3, -3, -3, -3, -3, -3, -3, -3, -3, -3, -6],
   [-6, -6, -6, -6, -6, -6, -6, -6, -6, -6, -6, -6, -6, 3]]

/-- The array `alphabet_r`, as one-character strings. -/
def alphabet_r : List Str :=
  "ARGCYTKMSWNXZ.".toList.map (fun c => [c])

/-- The object `alphabet_h`: the index of a symbol in `alphabet_r`, `none`
(`undefined`) for any other key. -/
def alphabet_h (key : Str) : Option Nat :=
  if key ∈ alphabet_r then some (alphabet_r.indexOf key) else none

/-- The entry `matrix[j][k]` for a row index `j` in range and a column index `k` that may
be `undefined`: `none` is `undefined`. -/
def matrixAt (j : Nat) (k : Option Nat) : Option Int :=
  k.bind (fun k => (matrix.getD j []).get? k)

/-- One step `score = score + (colData[i][obs] * matrix[j][alphabet_h[obs]])`;
`none` is `NaN`. -/
def scoreStep (t : Tally) (j : Nat) (score : Option Int) (obs : Str) : Option Int :=
  match score, t.get obs, matrixAt j (alphabet_h obs) with
  | some s, some n, some m => some (s + (n : Int) * m)
  | _, _, _ => none

/-- The score of candidate `alphabet_r[j]` against the tally of a column: the
`forEach` over `Object.keys(colData[i])`, from `score = 0`. -/
def candidateScore (t : Tally) (j : Nat) : Option Int :=
  (objectKeys t).foldl (scoreStep t j) (some 0)

/-- The test `/[ACGTacgt]/.test(cons)`. -/
def isACGT (cons : Str) : Bool :=
  cons.any (fun c => c ∈ "ACGTacgt".toList)

/-- The body of the loop over candidates `j`, on the pair `(maxScore, highBase)`;
`highBase = none` is `undefined`.  Both comparisons are false on `NaN`. -/
def pickStep (t : Tally) (st : Int × Option Str) (j : Nat) : Int × Option Str :=
  let cons := alphabet_r.getD j []
  match candidateScore t j with
  | none => st
  | some score =>
    if score = st.1 ∧ isACGT cons then (st.1, some cons)
    else if score > st.1 then (score, some cons)
    else st

/-- The loop over the 14 candidates for one column with data: `maxScore` starts
at `-1000000000`; `highBase` (a function-scoped `var`) keeps the value left by
the previous column. -/
def pickColumn (t : Tally) (highBase : Option Str) : Int × Option Str :=
  (List.range alphabet_r.length).foldl (pickStep t) (-1000000000, highBase)

/-- The concatenation `consensus + highBase`: `undefined` is appended as the text `undefined`. -/
def appendBase (consensus : Str) (highBase : Option Str) : Str :=
  consensus ++ highBase.getD "undefined".toList

/-- The body of the loop over the columns `i`, on `(consensus, highBase)`. -/
def columnStep (cd : ColData) (st : Str × Option Str) (i : Nat) : Str × Option Str :=
  match cd i with
  | none => st
  | some t =>
    let highBase := (pickColumn t st.2).2
    (appendBase st.1 highBase, highBase)

/-- The tally loop body for one row of `generateConsensusFromAlignment2`:
`startMatch.length` and `endMatch.length` throw on `null`. -/
def tallyRow (cd : ColData) (row : Row) : Except JsError ColData :=
  match startMatch row.alignment, endMatch row.alignment with
  | some alignStart, some dots =>
    let alignEnd := row.alignment.length - dots - 1
    .ok ((span alignStart alignEnd).foldl (fun cd j => cd.incr j (charAt row.alignment j)) cd)
  | _, _ => .error .typeError

/-- The tally loop over all rows. -/
def tallyRows : List Row → ColData → Except JsError ColData
  | [], cd => .ok cd
  | row :: rest, cd =>
    match tallyRow cd row with
    | .ok cd1 => tallyRows rest cd1
    | .error e => .error e

/-- The consensus before the dinucleotide pass: the loop
`for (i = 0; i < aligns[0].alignment.length; i++)`.  `aligns[0].alignment` throws
when there is no row. -/
def scoreColumns (aligns : List Row) (cd : ColData) : Except JsError Str :=
  match aligns with
  | [] => .error .typeError
  | row0 :: _ => .ok ((List.range row0.alignment.length).foldl (columnStep cd) ([], none)).1

/-- The call `diRE.exec(consensus)` for `diRE = /([^\.])(\.*)/g` with the given `lastIndex`:
`none` when no character other than `.` is left, else the index `lftIdx` of the
character matched by group 1 and the new `lastIndex` (`rgtIdx`). -/
def diExec (consensus : Str) (lastIndex : Nat) : Option (Nat × Nat) :=
  let lftIdx := lastIndex + ((consensus.drop lastIndex).takeWhile (fun c => c = '.')).length
  if lftIdx < consensus.length then
    some (lftIdx, lftIdx + 1 + ((consensus.drop (lftIdx + 1)).takeWhile (fun c => c = '.')).length)
  else none

/-- The sum `x + y` on numbers that may be `NaN`. -/
def jsAdd (x y : Option Int) : Option Int :=
  match x, y with
  | some a, some b => some (a + b)
  | _, _ => none

/-- The body of the loop over rows in the dinucleotide pass, on
`(CGScore, dnScore)`.  `matrix[alphabet_h[consLeft]]` is `undefined` when
`consLeft` is not a matrix symbol, and indexing it throws. -/
def pairStep (consLeft consRight : Str) (lftIdx rgtIdx : Nat)
    (st : Option Int × Option Int) (row : Row) : Except JsError (Option Int × Option Int) :=
  let hitLeft := charAt row.alignment lftIdx
  let hitRight := charAt row.alignment rgtIdx
  if hitLeft = ['.'] ∨ hitRight = ['.'] then .ok st
  else
    match alphabet_h consLeft, alphabet_h consRight with
    | some cl, some cr =>
      let hitDiNucl := hitLeft ++ hitRight
      let dnScore := jsAdd (jsAdd st.2 (matrixAt cl (alphabet_h hitLeft)))
        (matrixAt cr (alphabet_h hitRight))
      let CGScore :=
        if hitDiNucl = "CA".toList ∨ hitDiNucl = "TG".toList then jsAdd st.1 (some CGParam)
        else if hitDiNucl = "TA".toList then jsAdd st.1 (some TAParam)
        else if hitDiNucl = "TC".toList ∨ hitDiNucl = "TT".toList then
          jsAdd (jsAdd st.1 (some CGTransParam)) (matrixAt 2 (alphabet_h hitRight))
        else if hitDiNucl = "AA".toList ∨ hitDiNucl = "GA".toList then
          jsAdd (jsAdd st.1 (some CGTransParam)) (matrixAt 3 (alphabet_h hitLeft))
        else
          jsAdd (jsAdd st.1 (matrixAt 3 (alphabet_h hitLeft))) (matrixAt 2 (alphabet_h hitRight))
      .ok (CGScore, dnScore)
    | _, _ => .error .typeError

/-- The loop over rows in the dinucleotide pass. -/
def pairScores (consLeft consRight : Str) (lftIdx rgtIdx : Nat) :
    List Row → Option Int × Option Int → Except JsError (Option Int × Option Int)
  | [], st => .ok st
  | row :: rest, st =>
    match pairStep consLeft consRight lftIdx rgtIdx st row with
    | .ok st1 => pairScores consLeft consRight lftIdx rgtIdx rest st1
    | .error e => .error e

/-- The test `CGScore > dnScore` (false when either is `NaN`). -/
def jsGt (x y : Option Int) : Bool :=
  match x, y with
  | some a, some b => decide (a > b)
  | _, _ => false

/-- The two assignments that overwrite the pair with `C` and `G`. -/
def overwriteCG (consensus : Str) (lftIdx rgtIdx : Nat) : Str :=
  let c1 := substring consensus 0 lftIdx ++ ['C'] ++ substring consensus (lftIdx + 1) consensus.length
  substring c1 0 rgtIdx ++ ['G'] ++ substring c1 (rgtIdx + 1) c1.length

/-- The `while ((matches = diRE.exec(consensus)) != null)` loop.  Every
iteration moves `lastIndex` forward, so `consensus.length + 1` iterations are
enough; `fuel` bounds them, and `none` is returned only when it runs out. -/
def cpgLoop (aligns : List Row) : Nat → Str → Nat → Option (Except JsError Str)
  | 0, _, _ => none
  | fuel + 1, consensus, lastIndex =>
    match diExec consensus lastIndex with
    | none => some (.ok consensus)
    | some (lftIdx, rgtIdx) =>
      let consLeft := charAt consensus lftIdx
      let consRight := charAt consensus rgtIdx
      if consRight ≠ [] then
        match pairScores consLeft consRight lftIdx rgtIdx aligns (some 0, some 0) with
        | .error e => some (.error e)
        | .ok (CGScore, dnScore) =>
          if jsGt CGScore dnScore then
            cpgLoop aligns fuel (overwriteCG consensus lftIdx rgtIdx) rgtIdx
          else cpgLoop aligns fuel consensus rgtIdx
      else cpgLoop aligns fuel consensus rgtIdx

/-- The dinucleotide pass on the consensus of the column loop. -/
def cpgPass (aligns : List Row) (consensus : Str) : Except JsError Str :=
  (cpgLoop aligns (consensus.length + 1) consensus 0).getD (.ok consensus)

/-- The consensus of the column loop, before the dinucleotide pass. -/
def columnConsensus (self : SeedAlignment) : Except JsError Str :=
  match tallyRows self.alignments ColData.empty with
  | .error e => .error e
  | .ok cd => scoreColumns self.alignments cd

/-- The method `DfamSeedAlignment.prototype.generateConsensusFromAlignment2`. -/
def generateConsensusFromAlignment2 (self : SeedAlignment) : Except JsError Str :=
  match columnConsensus self with
  | .error e => .error e
  | .ok consensus => cpgPass self.alignments consensus

/-! ## `toConsensus` -/

/-- The body of the inner loop of `toConsensus` over the columns `j` of a row. -/
def majorityTallyStep (alignment : Str) (cd : ColData) (j : Nat) : ColData :=
  let aBase := charAt alignment j
  let cd := cd.touch j
  if aBase ≠ ['.'] then cd.incr j aBase else cd

/-- The two nested loops of `toConsensus` that fill `colData`. -/
def majorityTally (aligns : List Row) : ColData :=
  aligns.foldl
    (fun cd row => (List.range row.alignment.length).foldl (majorityTallyStep row.alignment) cd)
    ColData.empty

/-- The callback of the `forEach` over `Object.keys(colData[j])`, on
`(highCount, highBase)`. -/
def majorityPick (t : Tally) (st : Nat × Str) (aBase : Str) : Nat × Str :=
  match t.get aBase with
  | some n => if n > st.1 then (n, aBase) else st
  | none => st

/-- The body of the loop of `toConsensus` over the positions `j` of `RF`;
`Object.keys(colData[j])` throws on a hole. -/
def majorityStep (rfData : Str) (cd : ColData) (consensus : Str) (j : Nat) :
    Except JsError Str :=
  if charAt rfData j = ['x'] then
    match cd j with
    | none => .error .typeError
    | some t => .ok (consensus ++ ((objectKeys t).foldl (majorityPick t) (0, [])).2)
  else .ok consensus

/-- The loop of `toConsensus` over the positions of `RF`. -/
def majorityLoop (rfData : Str) (cd : ColData) : List Nat → Str → Except JsError Str
  | [], consensus => .ok consensus
  | j :: rest, consensus =>
    match majorityStep rfData cd consensus j with
    | .ok c => majorityLoop rfData cd rest c
    | .error e => .error e

/-- The method `DfamSeedAlignment.prototype.toConsensus`; `rfData.length` throws when the
header `RF` is absent. -/
def toConsensus (self : SeedAlignment) : Except JsError Str :=
  match getHeader self.headers "RF".toList with
  | none => .error .typeError
  | some rfData =>
    majorityLoop rfData (majorityTally self.alignments) (List.range rfData.length) []

/-! ## `toAlignmentSummary` -/

/-- A value that is either a number or a string: `seqStart` and `seqEnd` hold
the number `0` or a captured group. -/
inductive JsVal where
  | num (n : Nat)
  | str (s : Str)
  deriving DecidableEq, Repr

/-- The array `record` pushed for one row:
`[seqID, conStart, aligned, scores, orient, '0.0', seqStart, seqEnd]`. -/
structure SummaryRecord where
  seqID : Str
  conStart : Nat
  aligned : Nat
  scores : List Int
  orient : Str
  divergence : Str
  seqStart : JsVal
  seqEnd : JsVal
  deriving DecidableEq, Repr

/-- The object `summaryData`. -/
structure SummaryData where
  qualityBlockLen : Nat
  length : Nat
  alignments : List SummaryRecord
  num_alignments : Nat
  deriving DecidableEq, Repr

/-- The comparison `a <= b` of two strings: by code units, a proper initial
segment being smaller. -/
def jsStrLe : Str → Str → Bool
  | [], _ => true
  | _ :: _, [] => false
  | x :: xs, y :: ys => if x < y then true else if y < x then false else jsStrLe xs ys

/-- The part of a string after its last `sep`, and the part before that `sep`;
`none` when `sep` does not occur. -/
def splitLast (sep : Char) (s : Str) : Option (Str × Str) :=
  match s.reverse.dropWhile (fun c => c ≠ sep) with
  | [] => none
  | _ :: before => some (before.reverse, (s.reverse.takeWhile (fun c => c ≠ sep)).reverse)

/-- The part of a string before its first `sep`, and the part after that `sep`;
`none` when `sep` does not occur. -/
def splitFirst (sep : Char) (s : Str) : Option (Str × Str) :=
  match s.dropWhile (fun c => c ≠ sep) with
  | [] => none
  | _ :: after => some (s.takeWhile (fun c => c ≠ sep), after)

/-- A non-empty string of decimal digits (`\d+` against a whole string). -/
def isDigits (s : Str) : Bool := s ≠ [] && s.all isDigit

/-- Group 3 of `idNomenclatureRE` on the part `p` of the identifier before the
last `:`, that is the match of `^(?:([^:\s]+):)?(?:([^:\s]+):)?(\S+)$` on `p`:
the two optional groups are tried greedily and given up, the second first,
when `(\S+)` would be left empty. -/
def idGroup3 (p : Str) : Str :=
  match splitFirst ':' p with
  | some (a, p1) =>
    if a = [] then p
    else
      match splitFirst ':' p1 with
      | some (b, p2) => if b ≠ [] ∧ p2 ≠ [] then p2 else if p1 ≠ [] then p1 else p
      | none => if p1 ≠ [] then p1 else p
  | none => p

/-- The match of
`idNomenclatureRE = /^(?:([^:\s]+):)?(?:([^:\s]+):)?(\S+):(\d+)-(\d+)$/`:
groups 3, 4 and 5.  The `:` before group 4 is the last `:` of the string, since
only digits and one `-` follow it. -/
def matchIdNomenclature (seqid : Str) : Option (Str × Str × Str) :=
  match splitLast ':' seqid with
  | none => none
  | some (p, tail) =>
    match splitFirst '-' tail with
    | none => none
    | some (s, e) =>
      if isDigits s ∧ isDigits e ∧ p ≠ [] ∧ p.all (fun c => !isJsSpace c) then
        some (idGroup3 p, s, e)
      else none

/-- The match of `^(\S+)_(\d+)_(\d+)$`: groups 1, 2 and 3. -/
def matchLegacyCore (s : Str) : Option (Str × Str × Str) :=
  match splitLast '_' s with
  | none => none
  | some (q, e) =>
    match splitLast '_' q with
    | none => none
    | some (p, st) =>
      if isDigits st ∧ isDigits e ∧ p ≠ [] ∧ p.all (fun c => !isJsSpace c) then some (p, st, e)
      else none

/-- The match of `legacyNomenclatureRE = /^(\S+)_(\d+)_(\d+)(?:_(R))?$/`: groups 1, 2,
3, and whether group 4 took part.  A string that ends in `_R` can only match
with group 4, any other only without. -/
def matchLegacyNomenclature (seqid : Str) : Option (Str × Str × Str × Bool) :=
  if "R_".toList.isPrefixOf seqid.reverse then
    (matchLegacyCore (seqid.reverse.drop 2).reverse).map (fun m => (m.1, m.2.1, m.2.2, true))
  else (matchLegacyCore seqid).map (fun m => (m.1, m.2.1, m.2.2, false))

/-- The identifier decoding of `toAlignmentSummary`:
`(seqID, seqStart, seqEnd, orient)`. -/
def decodeId (seqid : Str) : Str × JsVal × JsVal × Str :=
  match matchIdNomenclature seqid with
  | some (m3, m4, m5) =>
    if jsStrLe m4 m5 then (m3, .str m4, .str m5, ['F']) else (m3, .str m5, .str m4, ['R'])
  | none =>
    match matchLegacyNomenclature seqid with
    | some (m1, m2, m3, r) => (m1, .str m2, .str m3, if r then ['R'] else ['F'])
    | none => (seqid, .num 0, .num 0, [])

/-- The local variables of the column scan of one row (`muts` is the source's
`mut`). -/
structure ScanState where
  ins : Nat := 0
  del : Nat := 0
  aligned : Nat := 0
  muts : Nat := 0
  scores : List Int := []
  conStart : Nat := 0
  consPos : Nat := 0
  deriving DecidableEq, Repr

/-- The score of a window: `windowSize - (mut + del)`, one less when `ins` is not
zero, and at least 1. -/
def windowScore (windowSize : Int) (st : ScanState) : Int :=
  let score := windowSize - ((st.muts : Int) + st.del)
  let score := if st.ins ≠ 0 then score - 1 else score
  if score < 1 then 1 else score

/-- The body of the loop `for (j = 0; j <= alignEnd; j++)` of `toAlignmentSummary`. -/
def scanStep (consensus alignment : Str) (alignStart : Nat) (windowSize : Nat)
    (st : ScanState) (j : Nat) : ScanState :=
  let cBase := charAt consensus j
  let st := if cBase ≠ ['.'] then { st with consPos := st.consPos + 1 } else st
  if j < alignStart then st
  else
    let st := if st.conStart = 0 then { st with conStart := st.consPos } else st
    let aBase := charAt alignment j
    if cBase = ['.'] then
      if aBase ≠ ['.'] then { st with ins := st.ins + 1 } else st
    else
      let st := { st with aligned := st.aligned + 1 }
      let st :=
        if aBase = ['.'] then { st with del := st.del + 1 }
        else
          let st := if st.conStart = 0 then { st with conStart := st.aligned } else st
          if cBase ≠ aBase then { st with muts := st.muts + 1 } else st
      if st.aligned % windowSize = 0 then
        { st with scores := st.scores ++ [windowScore windowSize st], ins := 0, del := 0, muts := 0 }
      else st

/-- The body of the loop of `toAlignmentSummary` over the rows: `none` for a row
that is skipped (`continue`), else its record. -/
def summarizeRow (consensus : Str) (row : Row) : Except JsError (Option SummaryRecord) :=
  let windowSize := 10
  if "ref:".toList.isPrefixOf row.seqid then .ok none
  else
    let (seqID, seqStart, seqEnd, orient) := decodeId row.seqid
    match startMatch row.alignment, endMatch row.alignment with
    | some alignStart, some dots =>
      let alignEnd := row.alignment.length - dots - 1
      let st := (List.range (alignEnd + 1)).foldl
        (scanStep consensus row.alignment alignStart windowSize) {}
      let scores :=
        if st.muts ≠ 0 ∨ st.del ≠ 0 ∨ st.ins ≠ 0 then st.scores ++ [windowScore windowSize st]
        else st.scores
      .ok (some { seqID := seqID, conStart := st.conStart, aligned := st.aligned,
                  scores := scores, orient := orient, divergence := "0.0".toList,
                  seqStart := seqStart, seqEnd := seqEnd })
    | _, _ => .error .typeError

/-- The loop of `toAlignmentSummary` over the rows, collecting the records. -/
def summarizeRows (consensus : Str) :
    List Row → List SummaryRecord → Except JsError (List SummaryRecord)
  | [], acc => .ok acc
  | row :: rest, acc =>
    match summarizeRow consensus row with
    | .error e => .error e
    | .ok none => summarizeRows consensus rest acc
    | .ok (some r) => summarizeRows consensus rest (acc ++ [r])

/-- The method `DfamSeedAlignment.prototype.toAlignmentSummary`. -/
def toAlignmentSummary (self : SeedAlignment) : Except JsError SummaryData :=
  match generateConsensusFromAlignment2 self with
  | .error e => .error e
  | .ok consensus =>
    match summarizeRows consensus self.alignments [] with
    | .error e => .error e
    | .ok records =>
      .ok { qualityBlockLen := 10,
            length := (consensus.filter (fun c => c ≠ '.')).length,
            alignments := records,
            num_alignments := records.length }

/-! ## `toA2M` -/

/-- The call `toUpperCase()` on one character.  The embedding maps the ASCII letters only
(JavaScript also maps letters outside ASCII, which the parser never stores). -/
def upperChar (c : Char) : Char := c.toUpper

/-- The call `toLowerCase()` on one character, on ASCII as `upperChar`. -/
def lowerChar (c : Char) : Char := c.toLower

/-- The class `[A-Z\-]` whose complement `toA2M` counts. -/
def isUpperOrDash (c : Char) : Bool := ('A' ≤ c && c ≤ 'Z') || c = '-'

/-- An element of `a2mObj.alignments`. -/
structure A2MRecord where
  seq_id : Str
  seq_start : Nat
  seq_end : Nat
  a2m_seq : Str
  strand : Str
  model_start : Int
  model_end : Int
  deriving DecidableEq, Repr

/-- The local variables of the column pass of one row. -/
structure A2MState where
  a2m_seq : Str
  rfPos : Nat := 0
  modelStart : Int := -1
  modelEnd : Int := -1
  deriving DecidableEq, Repr

/-- The body of the loop `for (j = 0; j < a2m_seq.length; j++)` of `toA2M`. -/
def a2mStep (RF : Str) (st : A2MState) (j : Nat) : A2MState :=
  let base := charAt st.a2m_seq j
  let rf := charAt RF j
  if rf = ['.'] then
    if base ≠ ['.'] then
      { st with a2m_seq := st.a2m_seq.take j ++ base.map lowerChar ++ st.a2m_seq.drop (j + 1) }
    else st
  else
    let st := { st with rfPos := st.rfPos + 1 }
    if base = ['.'] then
      { st with a2m_seq := st.a2m_seq.take j ++ ['-'] ++ st.a2m_seq.drop (j + 1) }
    else
      let st := if st.modelStart < 0 then { st with modelStart := st.rfPos } else st
      { st with modelEnd := st.rfPos }

/-- The column pass of one row.  The bound `a2m_seq.length` is read at every
iteration; each iteration replaces one character by one character, so it is
the length of the row throughout. -/
def a2mColumns (RF : Str) (a2m_seq : Str) : A2MState :=
  (List.range a2m_seq.length).foldl (a2mStep RF) { a2m_seq := a2m_seq }

/-- The string of a row after `toUpperCase()` and the global replacement of `-`
by `.`. -/
def a2mNormalize (alignment : Str) : Str :=
  (alignment.map upperChar).map (fun c => if c = '-' then '.' else c)

/-- The body of the loop of `toA2M` over the rows: the record of a row, or the
throw of the consistency check against `matchColCnt`. -/
def a2mRow (RF : Str) (matchColCnt : Int) (row : Row) : Except JsError A2MRecord :=
  let a2m_seq := a2mNormalize row.alignment
  let seqLen := (a2m_seq.filter (fun c => c ≠ '.')).length
  let st := a2mColumns RF a2m_seq
  let a2m_seq := st.a2m_seq.filter (fun c => c ≠ '.')
  let tmpCnt : Int := (a2m_seq.filter (fun c => !isUpperOrDash c)).length
  if matchColCnt ≥ 0 ∧ matchColCnt ≠ tmpCnt then
    .error (.a2mInconsistent matchColCnt tmpCnt row.alignment)
  else
    .ok { seq_id := row.seqid,
          seq_start := match row.start with
            | some (n + 1) => n + 1
            | _ => 1,
          seq_end := match row.stop with
            | some (n + 1) => n + 1
            | _ => seqLen,
          a2m_seq := a2m_seq,
          strand := match row.orient with
            | some (c :: cs) => c :: cs
            | _ => ['+'],
          model_start := st.modelStart,
          model_end := st.modelEnd }

/-- The loop of `toA2M` over the rows.  `matchColCnt` is passed on unchanged: the
source never assigns it after `var matchColCnt = -1`. -/
def a2mRows (RF : Str) (matchColCnt : Int) :
    List Row → List A2MRecord → Except JsError (List A2MRecord)
  | [], acc => .ok acc
  | row :: rest, acc =>
    match a2mRow RF matchColCnt row with
    | .error e => .error e
    | .ok r => a2mRows RF matchColCnt rest (acc ++ [r])

/-- The mask derived from a consensus: `cons.replace(/[^\.]/g, 'X')`. -/
def maskOfConsensus (cons : Str) : Str := cons.map (fun c => if c ≠ '.' then 'X' else c)

/-- The method `DfamSeedAlignment.prototype.toA2M`: the list `a2mObj.alignments`. -/
def toA2M (self : SeedAlignment) : Except JsError (List A2MRecord) :=
  match getHeader self.headers "RF".toList with
  | some RF => a2mRows RF (-1) self.alignments []
  | none =>
    match generateConsensusFromAlignment2 self with
    | .error e => .error e
    | .ok cons => a2mRows (maskOfConsensus cons) (-1) self.alignments []


/-! ## Vocabulary of the statements -/

/-- The ASCII letters. -/
def asciiLetters : Str := "ABCDEFGHIJKLMNOPQRSTUVWXYZabcdefghijklmnopqrstuvwxyz".toList

/-- A row over ASCII letters, `.` and `-`. -/
def IsA2MRowText (alignment : Str) : Prop :=
  ∀ c ∈ alignment, c ∈ asciiLetters ++ ['.', '-']

/-- Whether a row is over ASCII letters, `.` and `-` can be computed. -/
instance instDecidableIsA2MRowText (alignment : Str) : Decidable (IsA2MRowText alignment) := by
  unfold IsA2MRowText
  infer_instance

/-- The column rule of the A2M encoding as the specification words it, for the mask
character `rf` and the row character `c` of one column: on an insert column the
lowercased base, or nothing for a gap; on a match column `-` for a gap, else the
uppercased base. -/
def a2mCell (rf c : Char) : Str :=
  if rf = '.' then (if c = '.' ∨ c = '-' then [] else [lowerChar c])
  else (if c = '.' ∨ c = '-' then ['-'] else [upperChar c])

/-- The A2M string as the specification words it: the concatenation of `a2mCell`
over the columns, left to right. -/
def a2mColumnwise (RF row : Str) : Str :=
  (List.zip RF row).flatMap (fun p => a2mCell p.1 p.2)

/-- The character that the column pass of `toA2M` leaves at a column whose mask
character is `rf` (`none` beyond the end of the mask) and whose normalised row
character is `base`. -/
def a2mOut (rf : Option Char) (base : Char) : Char :=
  if rf = some '.' then (if base ≠ '.' then lowerChar base else base)
  else (if base = '.' then '-' else base)

/-- The string that the column pass of `toA2M` leaves, column by column. -/
def a2mCells : Str → Str → Str
  | _, [] => []
  | rfs, base :: rest => a2mOut rfs.head? base :: a2mCells rfs.tail rest

/-- The match columns of `RF` (marked `x`) in which at least one row has a
character other than the gap `.`. -/
def occupiedMatchColumns (RF : Str) (aligns : List Row) : List Nat :=
  (List.range RF.length).filter (fun j =>
    decide (charAt RF j = ['x']) && aligns.any (fun row => decide (charAt row.alignment j ≠ ['.'])))

/-- Every count of a tally is positive and every key is a one-character string. -/
def TallyOK (t : Tally) : Prop := ∀ p ∈ t, 1 ≤ p.2 ∧ p.1.length = 1

/-- The effect of one row character on the tally of its column in `toConsensus`. -/
def stepTally (t : Tally) (aBase : Str) : Tally :=
  if aBase ≠ ['.'] then t.incr aBase else t

/-- Whether column `j` lies between the first and the last character other than `.`
of a row (the span that `generateConsensusFromAlignment2` tallies). -/
def covers (row : Row) (j : Nat) : Bool :=
  match startMatch row.alignment, endMatch row.alignment with
  | some alignStart, some dots =>
    decide (alignStart ≤ j) && decide (j ≤ row.alignment.length - dots - 1)
  | _, _ => false

/-- The columns of the first row that lie in the span of at least one row. -/
def coveredColumns (aligns : List Row) : List Nat :=
  match aligns with
  | [] => []
  | row0 :: _ => (List.range row0.alignment.length).filter (fun j => aligns.any (fun row => covers row j))

/-- The sum of the counts of a tally. -/
def Tally.total (t : Tally) : Nat := (t.map Prod.snd).sum

/-- The keys of a tally are distinct symbols of the matrix alphabet. -/
def TallyA (t : Tally) : Prop :=
  (t.map Prod.fst).Nodup ∧ ∀ k ∈ t.map Prod.fst, k ∈ alphabet_r

/-- Every tally of `colData` has distinct keys from the matrix alphabet and counts
that sum to at most `N`. -/
def ColOK (cd : ColData) (N : Nat) : Prop :=
  ∀ j t, cd j = some t → TallyA t ∧ t.total ≤ N

/-- Whether the identifier of a row begins with the literal `ref:` (the test
`/^ref:/` of `toAlignmentSummary`). -/
def isRefRow (row : Row) : Bool := "ref:".toList.isPrefixOf row.seqid

/-- A sample alignment of three rows, the second of which is a `ref:` row. -/
def sampleWithRef : SeedAlignment :=
  { alignments := [{ seqid := "chr1:1-4".toList, alignment := "ACGT".toList },
                   { seqid := "ref:chr1:1-4".toList, alignment := "ACGT".toList },
                   { seqid := "chr2_5_8_R".toList, alignment := ".CGT".toList }] }

/-- The summary of `sampleWithRef`. -/
def sampleWithRefSummary : SummaryData :=
  { qualityBlockLen := 10, length := 4,
    alignments := [{ seqID := "chr1".toList, conStart := 1, aligned := 4, scores := [],
                     orient := ['F'], divergence := "0.0".toList,
                     seqStart := .str "1".toList, seqEnd := .str "4".toList },
                   { seqID := "chr2".toList, conStart := 2, aligned := 3, scores := [],
                     orient := ['R'], divergence := "0.0".toList,
                     seqStart := .str "5".toList, seqEnd := .str "8".toList }],
    num_alignments := 2 }

/-- A sample alignment of three rows of twelve columns: the second row has one
mismatch in the first window and one deletion after it. -/
def sampleWindows : SeedAlignment :=
  { alignments := [{ seqid := "chr1:1-12".toList, alignment := "ACGTACGTACGT".toList },
                   { seqid := "chr2:30-20".toList, alignment := "ACGAACGTAC.T".toList },
                   { seqid := "x".toList, alignment := "..GTACGTACG.".toList }] }

/-- The summary of `sampleWindows` (its consensus is `ACGTACGTACGT`). -/
def sampleWindowsSummary : SummaryData :=
  { qualityBlockLen := 10, length := 12,
    alignments := [{ seqID := "chr1".toList, conStart := 1, aligned := 12, scores := [10],
                     orient := ['F'], divergence := "0.0".toList,
                     seqStart := .str "1".toList, seqEnd := .str "12".toList },
                   { seqID := "chr2".toList, conStart := 1, aligned := 12, scores := [9, 9],
                     orient := ['R'], divergence := "0.0".toList,
                     seqStart := .str "20".toList, seqEnd := .str "30".toList },
                   { seqID := "x".toList, conStart := 3, aligned := 9, scores := [],
                     orient := [], divergence := "0.0".toList,
                     seqStart := .num 0, seqEnd := .num 0 }],
    num_alignments := 3 }

/-- The text made of a list of lines: the lines joined by line breaks. -/
def joinLines : List Str → Str
  | [] => []
  | [l] => l
  | l :: l2 :: ls => l ++ '\n' :: joinLines (l2 :: ls)

/-- The row that a line stands for, in the words of the specification: a line that
has the sequence-line shape and is not a `# STOCKHOLM`, `#=GF tag value` or
`#=GC RF value` line gives the row of its two fields; any other line gives none. -/
def rowOfLine (line : Str) : Option Row :=
  if (matchVersion line).isSome ∨ (matchGF line).isSome ∨ (matchGCRF line).isSome then none
  else (matchSeqLine line).map (fun m => { seqid := m.1, alignment := m.2 })

/-- The kinds of a column of the scan, from the consensus symbol and the row
character: an insertion (consensus gap, row not), a column where both are gaps,
a deletion (row gap, consensus not), and the aligned columns with differing or
with equal characters. -/
inductive ColKind where
  | insertion
  | neutral
  | deletion
  | mismatch
  | matched
  deriving DecidableEq, Repr

/-- The kind of a column with consensus symbol `cBase` and row character `aBase`. -/
def colKind (cBase aBase : Str) : ColKind :=
  if cBase = ['.'] then (if aBase ≠ ['.'] then .insertion else .neutral)
  else if aBase = ['.'] then .deletion
  else if cBase ≠ aBase then .mismatch
  else .matched

/-- Whether a column counts towards the aligned length (the consensus has a symbol). -/
def ColKind.isAligned : ColKind → Bool
  | .deletion => true
  | .mismatch => true
  | .matched => true
  | _ => false

/-- The score of a window as the specification words it:
`max(1, 10 - (mismatches + deletions) - (1 if any insertion))`. -/
def specWindowScore (w : List ColKind) : Int :=
  max 1 (10 - ((w.count .mismatch : Int) + (w.count .deletion : Int)) -
    (if ColKind.insertion ∈ w then 1 else 0))

/-- The windows of a list of columns: a window is closed as soon as it holds ten
aligned columns; `cur` is the window being filled.  The result is the closed
windows and the last, partial one. -/
def splitWindows : List ColKind → List ColKind → List (List ColKind) × List ColKind
  | [], cur => ([], cur)
  | k :: ks, cur =>
    if k.isAligned = true ∧ ((cur ++ [k]).filter ColKind.isAligned).length = 10 then
      ((cur ++ [k]) :: (splitWindows ks []).1, (splitWindows ks []).2)
    else splitWindows ks (cur ++ [k])

/-- The window scores as the specification words them: one score per closed window,
and one for the partial window if it holds a mismatch, a deletion or an insertion. -/
def specScores (ks : List ColKind) : List Int :=
  (splitWindows ks []).1.map specWindowScore ++
    (if ColKind.mismatch ∈ (splitWindows ks []).2 ∨ ColKind.deletion ∈ (splitWindows ks []).2 ∨
        ColKind.insertion ∈ (splitWindows ks []).2
      then [specWindowScore (splitWindows ks []).2] else [])

/-- The effect of one column of kind `k`, inside the span of the row, on the window
tallies `ins`, `del`, `aligned`, `muts` and on `scores` (the other two variables
are left alone). -/
def windowStep (k : ColKind) (st : ScanState) : ScanState :=
  match k with
  | .neutral => st
  | .insertion => { st with ins := st.ins + 1 }
  | .deletion =>
    if (st.aligned + 1) % 10 = 0 then
      { st with aligned := st.aligned + 1, ins := 0, del := 0, muts := 0,
                scores := st.scores ++
                  [windowScore 10 { st with aligned := st.aligned + 1, del := st.del + 1 }] }
    else { st with aligned := st.aligned + 1, del := st.del + 1 }
  | .mismatch =>
    if (st.aligned + 1) % 10 = 0 then
      { st with aligned := st.aligned + 1, ins := 0, del := 0, muts := 0,
                scores := st.scores ++
                  [windowScore 10 { st with aligned := st.aligned + 1, muts := st.muts + 1 }] }
    else { st with aligned := st.aligned + 1, muts := st.muts + 1 }
  | .matched =>
    if (st.aligned + 1) % 10 = 0 then
      { st with aligned := st.aligned + 1, ins := 0, del := 0, muts := 0,
                scores := st.scores ++ [windowScore 10 { st with aligned := st.aligned + 1 }] }
    else { st with aligned := st.aligned + 1 }

/-- Two scan states agree on the window tallies and the scores. -/
def SameWindows (s t : ScanState) : Prop :=
  s.ins = t.ins ∧ s.del = t.del ∧ s.aligned = t.aligned ∧ s.muts = t.muts ∧ s.scores = t.scores

/-- The window tallies of a scan state are those of the columns `cur` of the window
being filled. -/
def WindowRel (st : ScanState) (cur : List ColKind) : Prop :=
  st.ins = cur.count .insertion ∧ st.del = cur.count .deletion ∧
    st.muts = cur.count .mismatch ∧
    st.aligned % 10 = (cur.filter ColKind.isAligned).length

/-- The kinds of the columns `alignStart, ..., alignEnd` of a row against the
consensus. -/
def columnKinds (consensus alignment : Str) (alignStart alignEnd : Nat) : List ColKind :=
  (span alignStart alignEnd).map (fun j => colKind (charAt consensus j) (charAt alignment j))

/-- The variables `rfPos`, `modelStart` and `modelEnd` after the column pass of `toA2M`
over the columns of the normalised row that remain, `rfs` being the mask from the
same column on (a column beyond the end of the mask has `rf = ''`, which is not
`.`). -/
def a2mMarks : Str → Str → Nat × Int × Int → Nat × Int × Int
  | _, [], s => s
  | rfs, base :: rest, (rfPos, ms, me) =>
    if rfs.head? = some '.' then a2mMarks rfs.tail rest (rfPos, ms, me)
    else if base = '.' then a2mMarks rfs.tail rest (rfPos + 1, ms, me)
    else a2mMarks rfs.tail rest
      (rfPos + 1, if ms < 0 then ((rfPos + 1 : Nat) : Int) else ms, ((rfPos + 1 : Nat) : Int))

/-- For each match column of `RF` (a character other than `.`), in order, whether
the row has a base there (a character other than the gaps `.` and `-`). -/
def matchColumnBases (RF row : Str) : List Bool :=
  ((List.zip RF row).filter (fun p => p.1 ≠ '.')).map (fun p => decide (p.2 ≠ '.' ∧ p.2 ≠ '-'))

/-- The ranks, counted from `n`, of the entries of `bs` that hold. -/
def ranksFrom (n : Nat) (bs : List Bool) : List Nat :=
  ((bs.enumFrom n).filter (fun p => p.2)).map (fun p => p.1)

/-- The 1-based ranks, among the match columns of `RF`, of the match columns in
which the row has a base. -/
def baseRanks (RF row : Str) : List Nat := ranksFrom 1 (matchColumnBases RF row)

/-- The rank of the first match column in which the row has a base, or -1. -/
def specModelStart (RF row : Str) : Int :=
  match (baseRanks RF row).head? with
  | some k => (k : Int)
  | none => -1

/-- The rank of the last match column in which the row has a base, or -1. -/
def specModelEnd (RF row : Str) : Int :=
  match (baseRanks RF row).getLast? with
  | some k => (k : Int)
  | none => -1

/-- The variables `rfPos`, `modelStart` and `modelEnd` of a state of the column pass. -/
def A2MState.marks (st : A2MState) : Nat × Int × Int := (st.rfPos, st.modelStart, st.modelEnd)

/-- The row has a base in some match column of `RF`: a column where `RF` is not `.`
and the row is neither `.` nor `-`. -/
def HasMatchBase (RF row : Str) : Prop :=
  ∃ p ∈ List.zip RF row, p.1 ≠ '.' ∧ p.2 ≠ '.' ∧ p.2 ≠ '-'

/-- The mask that `toA2M` uses is `RF`: the stored header, or else the consensus with
every symbol replaced by `X`. -/
def IsA2MMask (self : SeedAlignment) (RF : Str) : Prop :=
  getHeader self.headers "RF".toList = some RF ∨
    (getHeader self.headers "RF".toList = none ∧
      ∃ cons, generateConsensusFromAlignment2 self = .ok cons ∧ RF = maskOfConsensus cons)

/-- A sample alignment with a mask of four match columns and two insert columns. -/
def sampleA2M : SeedAlignment :=
  { headers := [("RF".toList, "xx..xx".toList)],
    alignments := [{ seqid := "s1".toList, alignment := ".Cgt-T".toList },
                   { seqid := "s2".toList, alignment := "..ac..".toList },
                   { seqid := "s3".toList, alignment := "A....-".toList }] }

/-- Column `j` of the rows: the one-character strings `alignment.substring(j, j + 1)`,
in row order. -/
def columnOf (aligns : List Row) (j : Nat) : List Str :=
  aligns.map (fun row => charAt row.alignment j)

/-- The string that `toConsensus` appends for a position `j` marked `x`: `highBase` after
the `forEach` over the keys of `colData[j]`. -/
def majorityBase (aligns : List Row) (j : Nat) : Str :=
  match majorityTally aligns j with
  | some t => ((objectKeys t).foldl (majorityPick t) (0, [])).2
  | none => []

/-- The index of the first occurrence of `a` in a list (its length when `a` does not
occur). -/
def firstIndex (a : Str) : List Str → Nat
  | [] => 0
  | x :: xs => if x = a then 0 else firstIndex a xs + 1

/-- The character `b` occurs in the column, is no gap, occurs at least as often as
every other non-gap character of the column, and occurs first among those that
occur as often. -/
def IsMajorityBase (col : List Str) (b : Str) : Prop :=
  b ∈ col ∧ b ≠ ['.'] ∧
    ∀ b2 ∈ col, b2 ≠ ['.'] →
      col.count b2 ≤ col.count b ∧ (col.count b2 = col.count b → firstIndex b col ≤ firstIndex b2 col)

/-- A sample alignment against the mask `xx.x`: in column 0 the characters `A` and `C`
occur once each, `A` first. -/
def sampleMajority : SeedAlignment :=
  { headers := [("RF".toList, "xx.x".toList)],
    alignments := [{ seqid := "s1".toList, alignment := "AC.G".toList },
                   { seqid := "s2".toList, alignment := "CC.T".toList },
                   { seqid := "s3".toList, alignment := ".AaT".toList }] }

/-- The score of candidate `alphabet_r[j]` as the specification words it: the sum, over
the observed characters `b` of the column, of `count[b] * matrix[j][b]`. -/
def specScore (t : Tally) (j : Nat) : Int :=
  (t.map (fun p => (p.2 : Int) * (matrixAt j (alphabet_h p.1)).getD 0)).sum

/-- The tally of the only column of rows of width 1. -/
def singleColumnTally (aligns : List Row) : Tally :=
  (aligns.map (fun row => row.alignment)).foldl Tally.incr []

/-- The four unambiguous nucleotides, as candidates. -/
def acgt : List Str := [['A'], ['C'], ['G'], ['T']]

/-- A sample column: the character `Z` twice.  Every candidate but the gap scores -6. -/
def sampleColumn : Tally := [(['Z'], 2)]

/-- A column of 400000000 characters `Z`: every candidate scores below -1000000000. -/
def hugeColumn : Tally := [(['Z'], 400000000)]

/-- A sample alignment of width 1. -/
def sampleWidthOne : SeedAlignment :=
  { alignments := [{ seqid := "s1".toList, alignment := "C".toList },
                   { seqid := "s2".toList, alignment := "T".toList },
                   { seqid := "s3".toList, alignment := "C".toList }] }

/-- The residues of a row as the specification words them: the row with every `.` and
`-` removed, uppercased. -/
def rowResidues (alignment : Str) : Str :=
  (alignment.filter (fun c => c ≠ '.' ∧ c ≠ '-')).map upperChar

/-- The residues of an A2M string: the string with every `-` removed, uppercased. -/
def a2mResidues (a2m_seq : Str) : Str :=
  (a2m_seq.filter (fun c => c ≠ '-')).map upperChar

/-- The number of ASCII letters of a string. -/
def letterCount (s : Str) : Nat := (s.filter (fun c => decide (c ∈ asciiLetters))).length

/-- A sample alignment whose mask is shorter than its rows, with both gap glyphs and
both letter cases in the rows. -/
def sampleResidues : SeedAlignment :=
  { headers := [("RF".toList, "x.x".toList)],
    alignments := [{ seqid := "s1".toList, alignment := "a-C.gT".toList },
                   { seqid := "s2".toList, alignment := ".-..-.".toList },
                   { seqid := "s3".toList, alignment := "Nn.-yR".toList, stop := some 0 },
                   { seqid := "s4".toList, alignment := "ACGTAC".toList, stop := some 40 }] }

/-- The bases `A`, `C`, `G`, `T` and the gap `.`. -/
def baseOrGap : List Char := "ACGT.".toList

/-- A sample single row with gaps inside and every kind of neighbouring pair that the
dinucleotide pass treats apart (`CA`, `TG`, `TA`, `TC`, `TT`, `AA`, `GA`, `CG`). -/
def sampleSingleRow : SeedAlignment :=
  { alignments := [{ seqid := "s1".toList, alignment := "CA.TG..TATCTTAAGACG".toList }] }

/-! ## Theorems: `parseStockholm` -/

theorem getHeader_setKey (h : List (Str × Str)) (tag value key : Str) :
    getHeader (setKey h tag value) key = if tag = key then some value else getHeader h key := by
  induction h with
  | nil => simp [setKey, getHeader]
  | cons p h ih =>
    obtain ⟨k, v⟩ := p
    by_cases hk : k = tag
    · subst hk
      by_cases hkey : k = key <;> simp [setKey, getHeader, hkey]
    · by_cases hkey : k = key
      · subst hkey
        have : ¬ tag = k := fun e => hk e.symm
        simp [setKey, getHeader, hk, this]
      · simp [setKey, getHeader, hk, hkey, ih]

theorem getHeader_setHeader_RF (h : List (Str × Str)) (tag value : Str) :
    getHeader (setHeader h tag value) "RF".toList =
      if tag = "RF".toList then some value else getHeader h "RF".toList := by
  unfold setHeader
  by_cases hp : tag = "__proto__".toList
  · subst hp
    have : ¬ "__proto__".toList = "RF".toList := by decide
    simp [this]
  · rw [if_neg hp, getHeader_setKey]

theorem dropLit_cons_ne (c d : Char) (lit s : Str) (h : c ≠ d) :
    dropLit (c :: lit) (d :: s) = none := by
  simp [dropLit, List.isPrefixOf, h]

theorem dropLit_nil_right (c : Char) (lit : Str) : dropLit (c :: lit) [] = none := by
  simp [dropLit, List.isPrefixOf]

theorem dropLit_cons_eq (c : Char) (lit s : Str) :
    dropLit (c :: lit) (c :: s) = dropLit lit s := by
  simp [dropLit, List.isPrefixOf]

/-- An end-marker line reaches the last test of the dispatch: none of the
earlier expressions matches it. -/
theorem endMarker_dispatch (line : Str) (h : isEndMarker line = true) :
    isBlank line = false ∧ matchVersion line = none ∧ matchGF line = none ∧
      matchGCRF line = none ∧ matchSeqLine line = none := by
  unfold isEndMarker at h
  split at h
  case h_2 => exact absurd h (by simp)
  case h_1 rest =>
    have hrest : rest.all isJsSpace = true := h
    have hs : isJsSpace '/' = false := by decide
    refine ⟨?_, ?_, ?_, ?_, ?_⟩
    · simp [isBlank, hs]
    · simp [matchVersion, dropLit, List.isPrefixOf, bind, Option.bind]
    · simp [matchGF, dropLit, List.isPrefixOf, bind, Option.bind]
    · simp [matchGCRF, dropLit, List.isPrefixOf, bind, Option.bind]
    · have htw : rest.takeWhile (fun c => !isJsSpace c) = [] := by
        cases rest with
        | nil => rfl
        | cons c cs =>
          have : isJsSpace c = true := by
            simp only [List.all_cons, Bool.and_eq_true] at hrest
            exact hrest.1
          simp [List.takeWhile, this]
      have hdw : rest.dropWhile (fun c => !isJsSpace c) = rest := by
        cases rest with
        | nil => rfl
        | cons c cs =>
          have : isJsSpace c = true := by
            simp only [List.all_cons, Bool.and_eq_true] at hrest
            exact hrest.1
          simp [List.dropWhile, this]
      have hall : rest.dropWhile isJsSpace = [] := by
        rw [List.dropWhile_eq_nil_iff]
        intro c hc
        exact (List.all_eq_true.mp hrest) c hc
      have htok : token ('/' :: '/' :: rest) = some (['/', '/'], rest) := by
        simp [token, List.takeWhile, List.dropWhile, hs, htw, hdw]
      simp only [matchSeqLine, List.dropWhile, hs, htok, bind, Option.bind]
      cases rest with
      | nil => simp [spaces1]
      | cons c cs =>
        have hc : isJsSpace c = true := by
          simp only [List.all_cons, Bool.and_eq_true] at hrest
          exact hrest.1
        simp [spaces1, hc, hall]

theorem dropLit_eq_some {lit s r : Str} (h : dropLit lit s = some r) : s = lit ++ r := by
  unfold dropLit at h
  split at h
  · rename_i hp
    have hpre : lit <+: s := List.isPrefixOf_iff_prefix.mp hp
    obtain ⟨t, rfl⟩ := hpre
    simp at h
    rw [h]
  · exact absurd h (by simp)

theorem matchGF_shape {line : Str} {x : Str × Str} (h : matchGF line = some x) :
    ∃ r, line = '#' :: '=' :: 'G' :: 'F' :: r := by
  unfold matchGF at h
  cases hd : dropLit ['#', '=', 'G', 'F'] line with
  | none => simp [hd, bind, Option.bind] at h
  | some r => exact ⟨r, by simpa using dropLit_eq_some hd⟩

theorem matchGCRF_shape {line : Str} {x : Str} (h : matchGCRF line = some x) :
    ∃ r, line = '#' :: '=' :: 'G' :: 'C' :: r := by
  unfold matchGCRF at h
  cases hd : dropLit ['#', '=', 'G', 'C'] line with
  | none => simp [hd, bind, Option.bind] at h
  | some r => exact ⟨r, by simpa using dropLit_eq_some hd⟩

theorem spaces1_shape {s r : Str} (h : spaces1 s = some r) :
    ∃ c t, s = c :: t ∧ isJsSpace c = true := by
  cases s with
  | nil => simp [spaces1] at h
  | cons c t =>
    by_cases hc : isJsSpace c = true
    · exact ⟨c, t, rfl, hc⟩
    · simp [spaces1, hc] at h

theorem matchVersion_shape {line : Str} {x : Str} (h : matchVersion line = some x) :
    ∃ c r, line = '#' :: c :: r ∧ isJsSpace c = true := by
  unfold matchVersion at h
  cases hd : dropLit ['#'] line with
  | none => simp [hd, bind, Option.bind] at h
  | some r =>
    cases hs : spaces1 r with
    | none => simp [hd, hs, bind, Option.bind] at h
    | some r2 =>
      obtain ⟨c, t, rfl, hc⟩ := spaces1_shape hs
      exact ⟨c, t, by simpa using dropLit_eq_some hd, hc⟩

theorem rfValue_none_of_blank {line : Str} (h : isBlank line = true) : rfValue line = none := by
  have h1 : matchGF line = none := by
    cases hm : matchGF line with
    | none => rfl
    | some x =>
      obtain ⟨r, rfl⟩ := matchGF_shape hm
      simp [isBlank, isJsSpace] at h
  have h2 : matchGCRF line = none := by
    cases hm : matchGCRF line with
    | none => rfl
    | some x =>
      obtain ⟨r, rfl⟩ := matchGCRF_shape hm
      simp [isBlank, isJsSpace] at h
  simp [rfValue, h1, h2]

theorem rfValue_none_of_version {line v : Str} (h : matchVersion line = some v) :
    rfValue line = none := by
  obtain ⟨c, r, rfl, hc⟩ := matchVersion_shape h
  have hne : c ≠ '=' := by
    intro e
    subst e
    exact absurd hc (by decide)
  have h1 : matchGF ('#' :: c :: r) = none := by
    cases hm : matchGF ('#' :: c :: r) with
    | none => rfl
    | some x =>
      obtain ⟨r2, e⟩ := matchGF_shape hm
      simp at e
      exact absurd e.1 hne
  have h2 : matchGCRF ('#' :: c :: r) = none := by
    cases hm : matchGCRF ('#' :: c :: r) with
    | none => rfl
    | some x =>
      obtain ⟨r2, e⟩ := matchGCRF_shape hm
      simp at e
      exact absurd e.1 hne
  simp [rfValue, h1, h2]

theorem matchGCRF_none_of_GF {line : Str} {x : Str × Str} (h : matchGF line = some x) :
    matchGCRF line = none := by
  obtain ⟨r, rfl⟩ := matchGF_shape h
  cases hm : matchGCRF ('#' :: '=' :: 'G' :: 'F' :: r) with
  | none => rfl
  | some y =>
    obtain ⟨r2, e⟩ := matchGCRF_shape hm
    simp at e

theorem not_endMarker_of_ne (line : Str)
    (h : isBlank line = true ∨ matchVersion line ≠ none ∨ matchGF line ≠ none ∨
      matchGCRF line ≠ none ∨ matchSeqLine line ≠ none) : isEndMarker line = false := by
  cases he : isEndMarker line with
  | false => rfl
  | true =>
    obtain ⟨h1, h2, h3, h4, h5⟩ := endMarker_dispatch line he
    rcases h with h | h | h | h | h
    · rw [h1] at h; exact absurd h (by simp)
    · exact absurd h2 h
    · exact absurd h3 h
    · exact absurd h4 h
    · exact absurd h5 h

/-- The value of the last line that carries one, over a list of lines, starting from `init`. -/
theorem lastValue_cons (f : Str → Option Str) (line : Str) (rest : List Str) (init : Option Str) :
    (((line :: rest).filterMap f).getLast?).or init =
      ((rest.filterMap f).getLast?).or ((f line).or init) := by
  cases hf : f line with
  | none => simp [List.filterMap_cons, hf]
  | some v =>
    simp only [List.filterMap_cons, hf, List.getLast?_cons]
    cases (rest.filterMap f).getLast? <;> simp

/-- What `parseLines` leaves in `headers.RF`: the value of the last RF line before
the first end marker, or what was there before. -/
theorem parseLines_RF (lines : List Str) (o : SeedAlignment) :
    getHeader (parseLines lines o).headers "RF".toList =
      (((lines.takeWhile (fun line => !isEndMarker line)).filterMap rfValue).getLast?).or
        (getHeader o.headers "RF".toList) := by
  induction lines generalizing o with
  | nil => simp [parseLines]
  | cons line rest ih =>
    by_cases hb : isBlank line = true
    · have hne := not_endMarker_of_ne line (Or.inl hb)
      rw [List.takeWhile_cons, hne]
      simp only [Bool.not_false, if_true]
      rw [lastValue_cons, rfValue_none_of_blank hb]
      simp only [parseLines, hb, if_true]
      rw [ih]
      simp
    · cases hv : matchVersion line with
      | some v =>
        have hne := not_endMarker_of_ne line (Or.inr (Or.inl (by simp [hv])))
        rw [List.takeWhile_cons, hne]
        simp only [Bool.not_false, if_true]
        rw [lastValue_cons, rfValue_none_of_version hv]
        simp only [parseLines, hb, hv, Bool.false_eq_true, if_false]
        rw [ih]
        simp
      | none =>
        cases hg : matchGF line with
        | some x =>
          obtain ⟨tag, value⟩ := x
          have hne := not_endMarker_of_ne line (Or.inr (Or.inr (Or.inl (by simp [hg]))))
          rw [List.takeWhile_cons, hne]
          simp only [Bool.not_false, if_true]
          rw [lastValue_cons]
          simp only [parseLines, hb, hv, hg, Bool.false_eq_true, if_false]
          rw [ih, getHeader_setHeader_RF]
          have hrf : rfValue line = if tag = "RF".toList then some value else none := by
            simp only [rfValue, hg, matchGCRF_none_of_GF hg]
          rw [hrf]
          by_cases ht : tag = "RF".toList
          · rw [if_pos ht, if_pos ht]; rfl
          · rw [if_neg ht, if_neg ht]; rfl
        | none =>
          cases hc : matchGCRF line with
          | some value =>
            have hne := not_endMarker_of_ne line
              (Or.inr (Or.inr (Or.inr (Or.inl (by simp [hc])))))
            rw [List.takeWhile_cons, hne]
            simp only [Bool.not_false, if_true]
            rw [lastValue_cons]
            simp only [parseLines, hb, hv, hg, hc, Bool.false_eq_true, if_false]
            rw [ih, getHeader_setHeader_RF]
            have hrf : rfValue line = some value := by simp only [rfValue, hg, hc]
            rw [hrf]
            simp
          | none =>
            have hrf : rfValue line = none := by simp only [rfValue, hg, hc]
            cases hs : matchSeqLine line with
            | some x =>
              obtain ⟨id, aln⟩ := x
              have hne := not_endMarker_of_ne line
                (Or.inr (Or.inr (Or.inr (Or.inr (by simp [hs])))))
              rw [List.takeWhile_cons, hne]
              simp only [Bool.not_false, if_true]
              rw [lastValue_cons, hrf]
              simp only [parseLines, hb, hv, hg, hc, hs, Bool.false_eq_true, if_false]
              rw [ih]
              simp
            | none =>
              by_cases he : isEndMarker line = true
              · rw [List.takeWhile_cons, he]
                simp [parseLines, hb, hv, hg, hc, hs, he]
              · have hne : isEndMarker line = false := by simpa using he
                rw [List.takeWhile_cons, hne]
                simp only [Bool.not_false, if_true]
                rw [lastValue_cons, hrf]
                simp only [parseLines, hb, hv, hg, hc, hs, hne, Bool.false_eq_true, if_false]
                rw [ih]
                simp

/-- C1: on a fresh object, `parseStockholm` throws the missing-RF message when no line
before the first end marker is a `#=GF RF <value>` or `#=GC RF <value>` line, and
otherwise it returns the object with `headers.RF` equal to the value of the last
such line. -/
theorem parseStockholm_RF (text : Str) :
    ((∀ line ∈ linesBeforeEnd text, rfValue line = none) →
        parseStockholm fresh (some text) = .error .missingRF) ∧
    (∀ v, ((linesBeforeEnd text).filterMap rfValue).getLast? = some v →
        ∃ obj, parseStockholm fresh (some text) = .ok (some obj) ∧
          getHeader obj.headers "RF".toList = some v) := by
  have key := parseLines_RF (splitLines text) fresh
  have hfresh : getHeader fresh.headers "RF".toList = none := rfl
  rw [hfresh] at key
  constructor
  · intro hnone
    have hnil : (linesBeforeEnd text).filterMap rfValue = [] := by
      rw [List.filterMap_eq_nil_iff]
      exact hnone
    unfold linesBeforeEnd at hnil
    rw [hnil] at key
    simp only [parseStockholm]
    rw [if_pos (by simpa using key)]
  · intro v hv
    unfold linesBeforeEnd at hv
    rw [hv] at key
    refine ⟨parseLines (splitLines text) fresh, ?_, by simpa using key⟩
    simp only [parseStockholm]
    rw [if_neg]
    rw [key]
    simp

/-- C1, on two texts: one without an RF line before `//`, one with two. -/
theorem parseStockholm_RF_witness :
    parseStockholm fresh (some "# STOCKHOLM 1.0\ns1 AC\n//\n#=GC RF xx".toList) = .error .missingRF ∧
    ∃ obj, parseStockholm fresh (some "#=GF RF x.\n#=GC RF xx\ns1 AC\n//".toList) = .ok (some obj) ∧
      getHeader obj.headers "RF".toList = some "xx".toList :=
  ⟨(parseStockholm_RF _).1 (by decide), (parseStockholm_RF _).2 _ (by decide)⟩

/-! ## Theorems: `generateConsensusFromAlignment2` on small inputs -/

/-- C3: with an empty row list `generateConsensusFromAlignment2` does not return a
consensus: reading `aligns[0].alignment` throws a `TypeError`. -/
theorem generateConsensus_empty (self : SeedAlignment) (h : self.alignments = []) :
    generateConsensusFromAlignment2 self = .error .typeError := by
  simp [generateConsensusFromAlignment2, columnConsensus, h, tallyRows, scoreColumns]

/-- C3 on the object that `new DfamSeedAlignment()` returns. -/
theorem generateConsensus_empty_witness :
    generateConsensusFromAlignment2 fresh = .error .typeError :=
  generateConsensus_empty fresh rfl

/-- C8: for the three rows `CA`, `CA`, `TG` (every observed dinucleotide is `CA` or
`TG`) the column loop alone chooses `CA`, and the dinucleotide pass turns the
pair into `CG`. -/
theorem cpg_correction_example :
    ∃ self : SeedAlignment,
      self.alignments.map (fun row => row.alignment) = ["CA".toList, "CA".toList, "TG".toList] ∧
      (∀ row ∈ self.alignments, row.alignment = "CA".toList ∨ row.alignment = "TG".toList) ∧
      columnConsensus self = .ok "CA".toList ∧
      generateConsensusFromAlignment2 self = .ok "CG".toList :=
  ⟨{ alignments := [{ seqid := "s1".toList, alignment := "CA".toList },
                    { seqid := "s2".toList, alignment := "CA".toList },
                    { seqid := "s3".toList, alignment := "TG".toList }] },
    by decide, by decide, by decide, by decide⟩

/-! ## Theorems: `toAlignmentSummary`, identifier decoding -/

/-- C9, the code at `chr1:9-10`: the two captured groups are compared as strings, so
`9 <= 10` is false and the row is reported as reverse with `seqStart` `10` and
`seqEnd` `9`. -/
theorem summary_orientation_9_10 :
    toAlignmentSummary
        { headers := [("RF".toList, "xxxx".toList)],
          alignments := [{ seqid := "chr1:9-10".toList, alignment := "ACGT".toList }] } =
      .ok { qualityBlockLen := 10, length := 4,
            alignments := [{ seqID := "chr1".toList, conStart := 1, aligned := 4, scores := [],
                             orient := ['R'], divergence := "0.0".toList,
                             seqStart := .str "10".toList, seqEnd := .str "9".toList }],
            num_alignments := 1 } := by
  decide

/-- C10: the record of a row named `human:hg38:chr1:100-200`, `chr1:200-100` or
`chr1_50_80_R` carries the documented name, coordinates and orientation, whatever
its alignment string and the consensus; a row named `ref:chr1:1-10` gives no
record; and on a four-row alignment with these names the summary holds exactly
the three records. -/
theorem summary_documented_ids :
    (∀ consensus aln r,
      summarizeRow consensus { seqid := "human:hg38:chr1:100-200".toList, alignment := aln }
          = .ok (some r) →
        r.seqID = "chr1".toList ∧ r.seqStart = .str "100".toList ∧
          r.seqEnd = .str "200".toList ∧ r.orient = ['F']) ∧
    (∀ consensus aln r,
      summarizeRow consensus { seqid := "chr1:200-100".toList, alignment := aln } = .ok (some r) →
        r.seqID = "chr1".toList ∧ r.seqStart = .str "100".toList ∧
          r.seqEnd = .str "200".toList ∧ r.orient = ['R']) ∧
    (∀ consensus aln r,
      summarizeRow consensus { seqid := "chr1_50_80_R".toList, alignment := aln } = .ok (some r) →
        r.seqID = "chr1".toList ∧ r.seqStart = .str "50".toList ∧
          r.seqEnd = .str "80".toList ∧ r.orient = ['R']) ∧
    (∀ consensus aln,
      summarizeRow consensus { seqid := "ref:chr1:1-10".toList, alignment := aln } = .ok none) ∧
    (toAlignmentSummary
        { headers := [("RF".toList, "xxxx".toList)],
          alignments := [{ seqid := "human:hg38:chr1:100-200".toList, alignment := "ACGT".toList },
                         { seqid := "chr1:200-100".toList, alignment := "ACGT".toList },
                         { seqid := "chr1_50_80_R".toList, alignment := "ACGT".toList },
                         { seqid := "ref:chr1:1-10".toList, alignment := "ACGT".toList }] }).map
        (fun d => d.alignments.map (fun r => (r.seqID, r.seqStart, r.seqEnd, r.orient))) =
      .ok [("chr1".toList, .str "100".toList, .str "200".toList, ['F']),
           ("chr1".toList, .str "100".toList, .str "200".toList, ['R']),
           ("chr1".toList, .str "50".toList, .str "80".toList, ['R'])] := by
  have key : ∀ (consensus : Str) (id aln : Str) (r : SummaryRecord),
      summarizeRow consensus { seqid := id, alignment := aln } = .ok (some r) →
        (r.seqID, r.seqStart, r.seqEnd, r.orient) = decodeId id := by
    intro consensus id aln r h
    unfold summarizeRow at h
    simp only at h
    split at h
    · exact absurd h (by simp)
    · split at h
      · simp only [Except.ok.injEq, Option.some.injEq] at h
        rw [← h]
      · exact absurd h (by simp)
  refine ⟨?_, ?_, ?_, ?_, by decide⟩
  · intro consensus aln r h
    have := key consensus _ aln r h
    rw [show decodeId "human:hg38:chr1:100-200".toList =
      ("chr1".toList, .str "100".toList, .str "200".toList, ['F']) from by decide] at this
    simp only [Prod.mk.injEq] at this
    exact this
  · intro consensus aln r h
    have := key consensus _ aln r h
    rw [show decodeId "chr1:200-100".toList =
      ("chr1".toList, .str "100".toList, .str "200".toList, ['R']) from by decide] at this
    simp only [Prod.mk.injEq] at this
    exact this
  · intro consensus aln r h
    have := key consensus _ aln r h
    rw [show decodeId "chr1_50_80_R".toList =
      ("chr1".toList, .str "50".toList, .str "80".toList, ['R']) from by decide] at this
    simp only [Prod.mk.injEq] at this
    exact this
  · intro consensus aln
    unfold summarizeRow
    simp only
    rw [if_pos (by decide)]

/-- C10 on the row `human:hg38:chr1:100-200` with alignment `ACGT` and consensus `ACGT`. -/
theorem summary_documented_ids_witness :
    ∃ r, summarizeRow "ACGT".toList
        { seqid := "human:hg38:chr1:100-200".toList, alignment := "ACGT".toList } = .ok (some r) ∧
      r.seqID = "chr1".toList ∧ r.seqStart = .str "100".toList ∧
        r.seqEnd = .str "200".toList ∧ r.orient = ['F'] :=
  ⟨{ seqID := "chr1".toList, conStart := 1, aligned := 4, scores := [], orient := ['F'],
     divergence := "0.0".toList, seqStart := .str "100".toList, seqEnd := .str "200".toList },
    by decide, summary_documented_ids.1 "ACGT".toList "ACGT".toList _ (by decide)⟩

/-! ## Theorems: `toA2M` -/

/-- C6, the code on the parsed text `#=GC RF xx`, `s1 AA`, `s2 A`: the two A2M strings
hold two and one characters of `{A-Z, -}`, and `toA2M` returns both records. -/
theorem toA2M_inconsistent_rows :
    ∃ obj, parseStockholm fresh (some "#=GC RF xx\ns1 AA\ns2 A\n//".toList) = .ok (some obj) ∧
      (toA2M obj).map (fun recs => recs.map (fun r => (r.a2m_seq, (r.a2m_seq.filter isUpperOrDash).length)))
        = .ok [("AA".toList, 2), ("A".toList, 1)] :=
  ⟨{ headers := [("RF".toList, "xx".toList)],
     alignments := [{ seqid := "s1".toList, alignment := "AA".toList },
                    { seqid := "s2".toList, alignment := "A".toList }] },
    by decide, by decide⟩

theorem charAt_append_cons (pre : Str) (c : Char) (rest : Str) :
    charAt (pre ++ c :: rest) pre.length = [c] := by
  have h1 : max pre.length (pre.length + 1) = pre.length + 1 := by omega
  have h2 : min pre.length (pre.length + 1) = pre.length := by omega
  unfold charAt substring
  rw [h1, h2]
  induction pre with
  | nil => simp
  | cons a pre ih => simpa using ih

theorem charAt_eq_head (RF : Str) (j : Nat) : charAt RF j = (RF.drop j).head?.toList := by
  unfold charAt substring
  have h1 : max j (j + 1) = j + 1 := by omega
  have h2 : min j (j + 1) = j := by omega
  rw [h1, h2]
  induction RF generalizing j with
  | nil => simp
  | cons a RF ih =>
    cases j with
    | zero => simp
    | succ j => simpa using ih j

theorem charAt_dot_iff (RF : Str) (j : Nat) :
    charAt RF j = ['.'] ↔ (RF.drop j).head? = some '.' := by
  rw [charAt_eq_head]
  cases (RF.drop j).head? <;> simp

/-- The column pass, started at column `pre.length` on a string whose columns before
that are done, rewrites the remaining columns one by one. -/
theorem a2mStep_foldl (RF : Str) (rest : Str) :
    ∀ (pre : Str) (rfPos : Nat) (ms me : Int),
      ((List.range' pre.length rest.length).foldl (a2mStep RF)
          (⟨pre ++ rest, rfPos, ms, me⟩ : A2MState)).a2m_seq =
        pre ++ a2mCells (RF.drop pre.length) rest := by
  induction rest with
  | nil => intro pre rfPos ms me; simp [a2mCells]
  | cons c rest ih =>
    intro pre rfPos ms me
    have hlen : (pre ++ [a2mOut (RF.drop pre.length).head? c]).length = pre.length + 1 := by simp
    have htail : (RF.drop pre.length).tail = RF.drop (pre.length + 1) := by
      simp [List.tail_drop]
    have hnext : ∀ (x : Char) (rfPos : Nat) (ms me : Int),
        x = a2mOut (RF.drop pre.length).head? c →
        ((List.range' (pre.length + 1) rest.length).foldl (a2mStep RF)
          (⟨pre ++ x :: rest, rfPos, ms, me⟩ : A2MState)).a2m_seq =
        pre ++ a2mCells (RF.drop pre.length) (c :: rest) := by
      intro x rfPos ms me hx
      have := ih (pre ++ [x]) rfPos ms me
      simp only [List.length_append, List.length_singleton, List.append_assoc,
        List.singleton_append] at this
      rw [this, a2mCells, htail, hx]
    simp only [List.length_cons, List.range'_succ, List.foldl_cons]
    have hbase : charAt (pre ++ c :: rest) pre.length = [c] := charAt_append_cons pre c rest
    have htake : (pre ++ c :: rest).take pre.length = pre := by simp
    have hdrop : (pre ++ c :: rest).drop (pre.length + 1) = rest := by simp
    by_cases hrf : (RF.drop pre.length).head? = some '.'
    · have hrf2 : charAt RF pre.length = ['.'] := (charAt_dot_iff RF pre.length).mpr hrf
      by_cases hc : c = '.'
      · subst hc
        have hstep : a2mStep RF (⟨pre ++ '.' :: rest, rfPos, ms, me⟩ : A2MState) pre.length =
            (⟨pre ++ '.' :: rest, rfPos, ms, me⟩ : A2MState) := by
          simp [a2mStep, hbase, hrf2]
        rw [hstep]
        exact hnext '.' rfPos ms me (by unfold a2mOut; rw [if_pos hrf]; simp)
      · have hstep : a2mStep RF (⟨pre ++ c :: rest, rfPos, ms, me⟩ : A2MState) pre.length =
            (⟨pre ++ lowerChar c :: rest, rfPos, ms, me⟩ : A2MState) := by
          simp [a2mStep, hbase, hrf2, hc, htake, hdrop]
        rw [hstep]
        exact hnext (lowerChar c) rfPos ms me (by unfold a2mOut; rw [if_pos hrf]; simp [hc])
    · have hrf2 : ¬ charAt RF pre.length = ['.'] := fun h => hrf ((charAt_dot_iff RF pre.length).mp h)
      by_cases hc : c = '.'
      · subst hc
        have hstep : a2mStep RF (⟨pre ++ '.' :: rest, rfPos, ms, me⟩ : A2MState) pre.length =
            (⟨pre ++ '-' :: rest, rfPos + 1, ms, me⟩ : A2MState) := by
          simp [a2mStep, hbase, hrf2, htake, hdrop]
        rw [hstep]
        exact hnext '-' (rfPos + 1) ms me (by unfold a2mOut; rw [if_neg hrf]; simp)
      · by_cases hms : ms < 0
        · have hstep : a2mStep RF (⟨pre ++ c :: rest, rfPos, ms, me⟩ : A2MState) pre.length =
              (⟨pre ++ c :: rest, rfPos + 1, ((rfPos + 1 : Nat) : Int), ((rfPos + 1 : Nat) : Int)⟩ : A2MState) := by
            simp [a2mStep, hbase, hrf2, hc, hms]
          rw [hstep]
          exact hnext c (rfPos + 1) _ _ (by unfold a2mOut; rw [if_neg hrf]; simp [hc])
        · have hstep : a2mStep RF (⟨pre ++ c :: rest, rfPos, ms, me⟩ : A2MState) pre.length =
              (⟨pre ++ c :: rest, rfPos + 1, ms, ((rfPos + 1 : Nat) : Int)⟩ : A2MState) := by
            simp [a2mStep, hbase, hrf2, hc, hms]
          rw [hstep]
          exact hnext c (rfPos + 1) _ _ (by unfold a2mOut; rw [if_neg hrf]; simp [hc])

theorem a2mColumns_seq (RF s : Str) : (a2mColumns RF s).a2m_seq = a2mCells RF s := by
  have := a2mStep_foldl RF s [] 0 (-1) (-1)
  simpa [a2mColumns, List.range_eq_range'] using this

set_option maxRecDepth 8000 in
theorem a2m_insert_column : ∀ c ∈ asciiLetters ++ ['.', '-'],
    ([a2mOut (some '.') (if upperChar c = '-' then '.' else upperChar c)].filter (fun x => x ≠ '.') =
        a2mCell '.' c) ∧
      (a2mCell '.' c).filter isUpperOrDash = [] := by
  decide

set_option maxRecDepth 8000 in
theorem a2m_match_column : ∀ c ∈ asciiLetters ++ ['.', '-'],
    ([if (if upperChar c = '-' then '.' else upperChar c) = '.' then '-'
        else (if upperChar c = '-' then '.' else upperChar c)].filter (fun x => x ≠ '.') =
        (if c = '.' ∨ c = '-' then ['-'] else [upperChar c])) ∧
      ((if c = '.' ∨ c = '-' then ['-'] else [upperChar c]).filter isUpperOrDash).length = 1 := by
  decide

theorem a2mNormalize_cons (c : Char) (cs : Str) :
    a2mNormalize (c :: cs) =
      (if upperChar c = '-' then '.' else upperChar c) :: a2mNormalize cs := by
  simp [a2mNormalize]

/-- Column by column, the string left by the code, with its `.` removed, is the
string of the specification. -/
theorem a2mCells_filter (row : Str) :
    ∀ RF : Str, row.length = RF.length → IsA2MRowText row →
      (a2mCells RF (a2mNormalize row)).filter (fun c => c ≠ '.') = a2mColumnwise RF row := by
  induction row with
  | nil => intro RF _ _; simp [a2mNormalize, a2mCells, a2mColumnwise]
  | cons c cs ih =>
    intro RF hlen hrow
    cases RF with
    | nil => simp at hlen
    | cons rf rfs =>
      have hc : c ∈ asciiLetters ++ ['.', '-'] := hrow c (List.mem_cons_self c cs)
      have hcs : IsA2MRowText cs := fun x hx => hrow x (List.mem_cons_of_mem c hx)
      have hl : cs.length = rfs.length := by simpa using hlen
      have ih2 := ih rfs hl hcs
      rw [a2mNormalize_cons, a2mCells]
      simp only [List.head?_cons, List.tail_cons]
      have hsplit : ∀ (x : Char) (l : Str),
          (x :: l).filter (fun c => c ≠ '.') =
            [x].filter (fun c => c ≠ '.') ++ l.filter (fun c => c ≠ '.') := by
        intro x l
        rw [← List.filter_append]
        rfl
      rw [hsplit, ih2]
      have hspec : a2mColumnwise (rf :: rfs) (c :: cs) = a2mCell rf c ++ a2mColumnwise rfs cs := by
        simp [a2mColumnwise]
      rw [hspec]
      congr 1
      by_cases hrf : rf = '.'
      · subst hrf
        exact (a2m_insert_column c hc).1
      · have h1 : ¬ (some rf = some '.') := by simpa using hrf
        unfold a2mOut a2mCell
        rw [if_neg h1, if_neg hrf]
        exact (a2m_match_column c hc).1

/-- The characters of `{A-Z, -}` in the specification's string are as many as the
mask has match columns. -/
theorem a2mColumnwise_count (row : Str) :
    ∀ RF : Str, row.length = RF.length → IsA2MRowText row →
      ((a2mColumnwise RF row).filter isUpperOrDash).length =
        (RF.filter (fun c => c ≠ '.')).length := by
  induction row with
  | nil =>
    intro RF hlen _
    cases RF with
    | nil => simp [a2mColumnwise]
    | cons rf rfs => simp at hlen
  | cons c cs ih =>
    intro RF hlen hrow
    cases RF with
    | nil => simp at hlen
    | cons rf rfs =>
      have hc : c ∈ asciiLetters ++ ['.', '-'] := hrow c (List.mem_cons_self c cs)
      have hcs : IsA2MRowText cs := fun x hx => hrow x (List.mem_cons_of_mem c hx)
      have hl : cs.length = rfs.length := by simpa using hlen
      have ih2 := ih rfs hl hcs
      have hspec : a2mColumnwise (rf :: rfs) (c :: cs) = a2mCell rf c ++ a2mColumnwise rfs cs := by
        simp [a2mColumnwise]
      rw [hspec, List.filter_append, List.length_append, ih2]
      by_cases hrf : rf = '.'
      · subst hrf
        rw [(a2m_insert_column c hc).2]
        simp
      · have hcell : a2mCell rf c = if c = '.' ∨ c = '-' then ['-'] else [upperChar c] := by
          unfold a2mCell
          rw [if_neg hrf]
        rw [hcell, (a2m_match_column c hc).2]
        simp [hrf]
        omega

theorem a2mRow_ok (RF : Str) (row : Row) :
    ∃ r, a2mRow RF (-1) row = .ok r ∧
      r.a2m_seq = (a2mCells RF (a2mNormalize row.alignment)).filter (fun c => c ≠ '.') := by
  unfold a2mRow
  simp only
  rw [if_neg (by omega)]
  exact ⟨_, rfl, by simp [a2mColumns_seq]⟩

theorem a2mRows_ok (RF : Str) (rows : List Row) :
    ∀ acc : List A2MRecord, ∃ recs, a2mRows RF (-1) rows acc = .ok (acc ++ recs) ∧
      recs.map (fun r => r.a2m_seq) =
        rows.map (fun row => (a2mCells RF (a2mNormalize row.alignment)).filter (fun c => c ≠ '.')) := by
  induction rows with
  | nil => intro acc; exact ⟨[], by simp [a2mRows], rfl⟩
  | cons row rows ih =>
    intro acc
    obtain ⟨r, hr, hseq⟩ := a2mRow_ok RF row
    obtain ⟨recs, hrecs, hmap⟩ := ih (acc ++ [r])
    refine ⟨r :: recs, ?_, ?_⟩
    · simp only [a2mRows, hr]
      rw [hrecs]
      simp
    · simp [hseq, hmap]

/-- With a stored mask, `toA2M` returns one record per row, and the A2M string of a
row is what the column pass leaves of it, with the `.` removed. -/
theorem toA2M_ok (self : SeedAlignment) (RF : Str)
    (hRF : getHeader self.headers "RF".toList = some RF) :
    ∃ recs, toA2M self = .ok recs ∧
      recs.map (fun r => r.a2m_seq) =
        self.alignments.map
          (fun row => (a2mCells RF (a2mNormalize row.alignment)).filter (fun c => c ≠ '.')) := by
  obtain ⟨recs, hrecs, hmap⟩ := a2mRows_ok RF self.alignments []
  refine ⟨recs, ?_, hmap⟩
  unfold toA2M
  rw [hRF]
  simpa using hrecs

/-- C5: when every row has the length of `headers.RF` and is over ASCII letters, `.`
and `-`, `toA2M` returns one record per row, and in every record the characters of
`{A-Z, -}` in `a2m_seq` are as many as `RF` has characters other than `.`. -/
theorem toA2M_match_columns (self : SeedAlignment) (RF : Str)
    (hRF : getHeader self.headers "RF".toList = some RF)
    (hrows : ∀ row ∈ self.alignments,
      row.alignment.length = RF.length ∧ IsA2MRowText row.alignment) :
    ∃ recs, toA2M self = .ok recs ∧ recs.length = self.alignments.length ∧
      ∀ r ∈ recs, (r.a2m_seq.filter isUpperOrDash).length =
        (RF.filter (fun c => c ≠ '.')).length := by
  obtain ⟨recs, hok, hmap⟩ := toA2M_ok self RF hRF
  refine ⟨recs, hok, ?_, ?_⟩
  · have := congrArg List.length hmap
    simpa using this
  · intro r hr
    have hmem : r.a2m_seq ∈ recs.map (fun r => r.a2m_seq) := List.mem_map_of_mem _ hr
    rw [hmap] at hmem
    obtain ⟨row, hrow, heq⟩ := List.mem_map.mp hmem
    obtain ⟨hlen, htext⟩ := hrows row hrow
    rw [← heq, a2mCells_filter row.alignment RF hlen htext]
    exact a2mColumnwise_count row.alignment RF hlen htext

/-- C5 on the documented alignment: four rows against the mask `xxx.xxx....xxxxxxx`,
each with 13 characters of `{A-Z, -}`. -/
theorem toA2M_match_columns_witness :
    ∃ recs,
      toA2M { headers := [("RF".toList, "xxx.xxx....xxxxxxx".toList)],
              alignments := [{ seqid := "seq1".toList, alignment := "AAA.CCTAGTGCGGGATC".toList },
                             { seqid := "seq2".toList, alignment := ".....CT....CG.TATC".toList },
                             { seqid := "seq3".toList, alignment := "..A.C......CGGGATC".toList },
                             { seqid := "seq4".toList, alignment := "AAAACCT....CG.....".toList }] }
        = .ok recs ∧ recs.length = 4 ∧
      ∀ r ∈ recs, (r.a2m_seq.filter isUpperOrDash).length = 13 :=
  toA2M_match_columns _ "xxx.xxx....xxxxxxx".toList (by decide) (by decide)

/-- C7: for rows of the length of the mask, over ASCII letters, `.` and `-`, the
`a2m_seq` that `toA2M` produces for a row is the left-to-right concatenation of the
column rule `a2mCell` (lowercased base or nothing on an insert column, `-` or the
uppercased base on a match column); and the four rows of the documented example
yield the four documented A2M strings. -/
theorem toA2M_columnwise :
    (∀ (self : SeedAlignment) (RF : Str),
      getHeader self.headers "RF".toList = some RF →
      (∀ row ∈ self.alignments,
        row.alignment.length = RF.length ∧ IsA2MRowText row.alignment) →
      ∃ recs, toA2M self = .ok recs ∧
        recs.map (fun r => r.a2m_seq) =
          self.alignments.map (fun row => a2mColumnwise RF row.alignment)) ∧
    (toA2M { headers := [("RF".toList, "xxx.xxx....xxxxxxx".toList)],
             alignments := [{ seqid := "seq1".toList, alignment := "AAA.CCTAGTGCGGGATC".toList },
                            { seqid := "seq2".toList, alignment := ".....CT....CG.TATC".toList },
                            { seqid := "seq3".toList, alignment := "..A.C......CGGGATC".toList },
                            { seqid := "seq4".toList, alignment := "AAAACCT....CG.....".toList }] }).map
        (fun recs => recs.map (fun r => r.a2m_seq)) =
      .ok ["AAACCTagtgCGGGATC".toList, "----CTCG-TATC".toList, "--AC--CGGGATC".toList,
           "AAAaCCTCG-----".toList] := by
  refine ⟨?_, by decide⟩
  intro self RF hRF hrows
  obtain ⟨recs, hok, hmap⟩ := toA2M_ok self RF hRF
  refine ⟨recs, hok, ?_⟩
  rw [hmap]
  apply List.map_congr_left
  intro row hrow
  obtain ⟨hlen, htext⟩ := hrows row hrow
  exact a2mCells_filter row.alignment RF hlen htext

/-- C7 on a row with lowercase input and both gap glyphs: `ac-.Gt` against `x.xx.x`. -/
theorem toA2M_columnwise_witness :
    ∃ recs,
      toA2M { headers := [("RF".toList, "x.xx.x".toList)],
              alignments := [{ seqid := "s".toList, alignment := "ac-.Gt".toList }] } = .ok recs ∧
      recs.map (fun r => r.a2m_seq) =
        [{ seqid := "s".toList, alignment := "ac-.Gt".toList : Row }].map
          (fun row => a2mColumnwise "x.xx.x".toList row.alignment) :=
  toA2M_columnwise.1 _ "x.xx.x".toList (by decide) (by decide)

/-! ## Theorems: `toConsensus` -/

theorem charAt_length_one (s : Str) (j : Nat) (h : j < s.length) : (charAt s j).length = 1 := by
  rw [charAt_eq_head]
  have : (s.drop j).head? = some s[j] := by
    rw [List.drop_eq_getElem_cons h]
    rfl
  rw [this]
  rfl

theorem Tally.incr_ne_nil (t : Tally) (key : Str) : t.incr key ≠ [] := by
  cases t with
  | nil => simp [Tally.incr]
  | cons p t =>
    obtain ⟨k, n⟩ := p
    by_cases h : k = key <;> simp [Tally.incr, h]

theorem Tally.incr_ok (t : Tally) (key : Str) (ht : TallyOK t) (hk : key.length = 1) :
    TallyOK (t.incr key) := by
  induction t with
  | nil =>
    intro p hp
    simp [Tally.incr] at hp
    subst hp
    exact ⟨Nat.le_refl 1, hk⟩
  | cons q t ih =>
    obtain ⟨k, n⟩ := q
    have hq : 1 ≤ n ∧ k.length = 1 := ht (k, n) (List.mem_cons_self _ _)
    have ht2 : TallyOK t := fun p hp => ht p (List.mem_cons_of_mem _ hp)
    by_cases h : k = key
    · intro p hp
      simp only [Tally.incr, h, if_true, List.mem_cons] at hp
      rcases hp with hp | hp
      · subst hp
        exact ⟨by omega, hk⟩
      · exact ht2 p hp
    · intro p hp
      simp only [Tally.incr, h, if_false, List.mem_cons] at hp
      rcases hp with hp | hp
      · subst hp
        exact hq
      · exact ih ht2 p hp

theorem stepTally_ok (t : Tally) (aBase : Str) (ht : TallyOK t) (hb : aBase.length = 1) :
    TallyOK (stepTally t aBase) := by
  unfold stepTally
  split
  · exact Tally.incr_ok t aBase ht hb
  · exact ht

theorem stepTally_ne_nil (t : Tally) (aBase : Str) :
    stepTally t aBase ≠ [] ↔ (t ≠ [] ∨ aBase ≠ ['.']) := by
  unfold stepTally
  by_cases h : aBase = ['.']
  · simp [h]
  · simp [h, Tally.incr_ne_nil]

theorem Tally.get_some_ok (t : Tally) (key : Str) (n : Nat) (ht : TallyOK t)
    (h : t.get key = some n) : 1 ≤ n ∧ key.length = 1 := by
  induction t with
  | nil => simp [Tally.get] at h
  | cons q t ih =>
    obtain ⟨k, m⟩ := q
    have hq : 1 ≤ m ∧ k.length = 1 := ht (k, m) (List.mem_cons_self _ _)
    have ht2 : TallyOK t := fun p hp => ht p (List.mem_cons_of_mem _ hp)
    by_cases hk : k = key
    · simp only [Tally.get, hk, if_true, Option.some.injEq] at h
      subst h
      subst hk
      exact hq
    · simp only [Tally.get, hk, if_false] at h
      exact ih ht2 h

theorem Tally.get_of_mem (t : Tally) (p : Str × Nat) (hp : p ∈ t) : ∃ n, t.get p.1 = some n := by
  induction t with
  | nil => simp at hp
  | cons q t ih =>
    obtain ⟨k, m⟩ := q
    by_cases hk : k = p.1
    · exact ⟨m, by simp [Tally.get, hk]⟩
    · have hp2 : p ∈ t := by
        rcases List.mem_cons.mp hp with h | h
        · subst h
          exact absurd rfl hk
        · exact h
      obtain ⟨n, hn⟩ := ih hp2
      exact ⟨n, by simp [Tally.get, hk, hn]⟩

/-- Every key listed by `Object.keys` has a positive count, and a tally that is not
empty lists at least one key. -/
theorem objectKeys_ok (t : Tally) (ht : TallyOK t) :
    (∀ k ∈ objectKeys t, ∃ n, 1 ≤ n ∧ k.length = 1 ∧ t.get k = some n) ∧
      (t ≠ [] → objectKeys t ≠ []) := by
  constructor
  · intro k hk
    unfold objectKeys at hk
    rcases List.mem_append.mp hk with h | h
    · have h2 := (List.mem_filter.mp h).2
      cases hg : t.get k with
      | none => simp [hg] at h2
      | some n =>
        obtain ⟨h1, hl⟩ := Tally.get_some_ok t k n ht hg
        exact ⟨n, h1, hl, rfl⟩
    · have h2 := (List.mem_filter.mp h).1
      obtain ⟨p, hp, rfl⟩ := List.mem_map.mp h2
      obtain ⟨n, hn⟩ := Tally.get_of_mem t p hp
      obtain ⟨h1, hl⟩ := Tally.get_some_ok t p.1 n ht hn
      exact ⟨n, h1, hl, hn⟩
  · intro hne
    cases t with
    | nil => exact absurd rfl hne
    | cons p t =>
      obtain ⟨k, n⟩ := p
      have hk : k.length = 1 := (ht (k, n) (List.mem_cons_self _ _)).2
      have hget : Tally.get ((k, n) :: t) k = some n := by simp [Tally.get]
      intro hnil
      unfold objectKeys at hnil
      obtain ⟨h1, h2⟩ := List.append_eq_nil.mp hnil
      by_cases hd : (k.length = 1 && k.all isDigit) = true
      · -- a one-digit key is listed among the integer-like keys
        match k, hk with
        | [d], _ =>
          have hdig : isDigit d = true := by simpa using hd
          have hmem : [d] ∈ "0123456789".toList.map (fun d => [d]) := by
            have hd1 : '0' ≤ d ∧ d ≤ '9' := by simpa [isDigit] using hdig
            have : d ∈ "0123456789".toList := by
              obtain ⟨a, b⟩ := hd1
              have ha : 48 ≤ d.toNat := a
              have hb : d.toNat ≤ 57 := b
              have hval : d = Char.ofNat d.toNat := by simp
              rw [hval]
              have : ∀ m, 48 ≤ m → m ≤ 57 → Char.ofNat m ∈ "0123456789".toList := by
                intro m h48 h57
                interval_cases m <;> decide
              exact this d.toNat ha hb
            exact List.mem_map_of_mem _ this
          have : [d] ∈ ("0123456789".toList.map (fun d => [d])).filter
              (fun k => (Tally.get (([d], n) :: t) k).isSome) :=
            List.mem_filter.mpr ⟨hmem, by simp [hget]⟩
          rw [h1] at this
          simp at this
      · have : k ∈ ((((k, n) :: t).map Prod.fst).filter
            (fun k => !(k.length = 1 && k.all isDigit))) :=
          List.mem_filter.mpr ⟨by simp, by
            show (!(decide (k.length = 1) && k.all isDigit)) = true
            rw [Bool.eq_false_iff.mpr hd]
            rfl⟩
        rw [h2] at this
        simp at this

/-- The callback of `toConsensus` on a key with a positive count leaves a
one-character `highBase`, from the initial state or from such a state. -/
theorem majorityPick_step (t : Tally) (k : Str) (st : Nat × Str)
    (hk : ∃ n, 1 ≤ n ∧ k.length = 1 ∧ t.get k = some n)
    (hst : st.1 = 0 ∧ st.2 = [] ∨ 1 ≤ st.1 ∧ st.2.length = 1) :
    1 ≤ (majorityPick t st k).1 ∧ (majorityPick t st k).2.length = 1 := by
  obtain ⟨n, hn, hl, hget⟩ := hk
  unfold majorityPick
  rw [hget]
  by_cases hgt : n > st.1
  · simp only [hgt, if_true]
    exact ⟨hn, hl⟩
  · simp only [hgt, if_false]
    rcases hst with h | h
    · omega
    · exact h

theorem majorityPick_foldl (t : Tally) (ks : List Str)
    (hks : ∀ k ∈ ks, ∃ n, 1 ≤ n ∧ k.length = 1 ∧ t.get k = some n) :
    ∀ st : Nat × Str, 1 ≤ st.1 ∧ st.2.length = 1 →
      1 ≤ (ks.foldl (majorityPick t) st).1 ∧ (ks.foldl (majorityPick t) st).2.length = 1 := by
  induction ks with
  | nil => intro st hst; exact hst
  | cons k ks ih =>
    intro st hst
    rw [List.foldl_cons]
    exact ih (fun x hx => hks x (List.mem_cons_of_mem _ hx)) _
      (majorityPick_step t k st (hks k (List.mem_cons_self _ _)) (Or.inr hst))

theorem majorityPick_length (t : Tally) (ht : TallyOK t) :
    ((objectKeys t).foldl (majorityPick t) (0, [])).2.length = if t = [] then 0 else 1 := by
  obtain ⟨h1, h2⟩ := objectKeys_ok t ht
  by_cases hne : t = []
  · subst hne
    rfl
  · rw [if_neg hne]
    cases hk : objectKeys t with
    | nil => exact absurd hk (h2 hne)
    | cons k ks =>
      rw [hk] at h1
      rw [List.foldl_cons]
      exact (majorityPick_foldl t ks (fun x hx => h1 x (List.mem_cons_of_mem _ hx)) _
        (majorityPick_step t k (0, []) (h1 k (List.mem_cons_self _ _)) (Or.inl ⟨rfl, rfl⟩))).2

theorem majorityTallyStep_apply (alignment : Str) (cd : ColData) (k j : Nat) :
    majorityTallyStep alignment cd k j =
      if j = k then some (stepTally ((cd k).getD []) (charAt alignment k)) else cd j := by
  unfold majorityTallyStep stepTally
  by_cases hb : charAt alignment k = ['.']
  · by_cases hj : j = k <;> simp [hb, ColData.touch, hj]
  · by_cases hj : j = k <;> simp [hb, ColData.touch, ColData.incr, hj]

/-- The inner loop of `toConsensus` over the columns of one row touches the columns
of the row once each. -/
theorem majorityTallyStep_foldl (alignment : Str) (cd : ColData) (j : Nat) :
    ∀ k, ((List.range k).foldl (majorityTallyStep alignment) cd) j =
      if j < k then some (stepTally ((cd j).getD []) (charAt alignment j)) else cd j := by
  intro k
  induction k with
  | zero => simp
  | succ k ih =>
    rw [List.range_succ, List.foldl_append, List.foldl_cons, List.foldl_nil,
      majorityTallyStep_apply]
    by_cases hj : j = k
    · subst hj
      rw [ih]
      simp
    · rw [if_neg hj, ih]
      by_cases hlt : j < k
      · have : j < k + 1 := by omega
        simp [hlt, this]
      · have : ¬ j < k + 1 := by omega
        simp [hlt, this]

/-- Column `j` of `colData` after the rows `rows`, started from `cd`, when `j` is a
column of every row. -/
theorem majorityTally_column (j : Nat) (rows : List Row)
    (hrows : ∀ row ∈ rows, j < row.alignment.length) :
    ∀ cd : ColData, (∀ t, cd j = some t → TallyOK t) → (rows ≠ [] ∨ (cd j).isSome) →
      ∃ t, (rows.foldl
          (fun cd row =>
            (List.range row.alignment.length).foldl (majorityTallyStep row.alignment) cd) cd) j
          = some t ∧ TallyOK t ∧
        (t ≠ [] ↔ ((cd j).getD [] ≠ [] ∨ ∃ row ∈ rows, charAt row.alignment j ≠ ['.'])) := by
  induction rows with
  | nil =>
    intro cd hcd hsome
    rcases hsome with h | h
    · exact absurd rfl h
    · cases hc : cd j with
      | none => simp [hc] at h
      | some t => exact ⟨t, by simp [hc], hcd t hc, by simp⟩
  | cons row rows ih =>
    intro cd hcd _
    have hj : j < row.alignment.length := hrows row (List.mem_cons_self _ _)
    have hrows2 : ∀ r ∈ rows, j < r.alignment.length :=
      fun r hr => hrows r (List.mem_cons_of_mem _ hr)
    have hold : TallyOK ((cd j).getD []) := by
      cases hc : cd j with
      | none => intro p hp; simp at hp
      | some t => simpa using hcd t hc
    have hcol : ((List.range row.alignment.length).foldl (majorityTallyStep row.alignment) cd) j =
        some (stepTally ((cd j).getD []) (charAt row.alignment j)) := by
      rw [majorityTallyStep_foldl, if_pos hj]
    have hok : TallyOK (stepTally ((cd j).getD []) (charAt row.alignment j)) :=
      stepTally_ok _ _ hold (charAt_length_one _ _ hj)
    rw [List.foldl_cons]
    obtain ⟨t, ht, htok, hiff⟩ := ih hrows2
      ((List.range row.alignment.length).foldl (majorityTallyStep row.alignment) cd)
      (by intro t ht; rw [hcol] at ht; simp only [Option.some.injEq] at ht; rw [← ht]; exact hok)
      (Or.inr (by rw [hcol]; rfl))
    refine ⟨t, ht, htok, ?_⟩
    rw [hiff, hcol]
    simp only [Option.getD_some, stepTally_ne_nil, List.mem_cons, exists_eq_or_imp]
    tauto

/-- The loop of `toConsensus` over positions of `RF` that are columns of every row:
it does not throw, and it appends one character for every position marked `x` at
which some row has a character other than `.`. -/
theorem majorityLoop_length (RF : Str) (rows : List Row) (hne : rows ≠ [])
    (l : List Nat) (hl : ∀ j ∈ l, ∀ row ∈ rows, j < row.alignment.length) :
    ∀ consensus : Str, ∃ s, majorityLoop RF (majorityTally rows) l consensus = .ok s ∧
      s.length = consensus.length +
        (l.filter (fun j => decide (charAt RF j = ['x']) &&
          rows.any (fun row => decide (charAt row.alignment j ≠ ['.'])))).length := by
  induction l with
  | nil => intro consensus; exact ⟨consensus, rfl, by simp⟩
  | cons j l ih =>
    intro consensus
    have hl2 : ∀ k ∈ l, ∀ row ∈ rows, k < row.alignment.length :=
      fun k hk => hl k (List.mem_cons_of_mem _ hk)
    obtain ⟨t, ht, htok, hiff⟩ := majorityTally_column j rows (hl j (List.mem_cons_self _ _))
      ColData.empty (by intro t h; simp [ColData.empty] at h) (Or.inl hne)
    have hiff2 : t ≠ [] ↔ ∃ row ∈ rows, charAt row.alignment j ≠ ['.'] := by
      rw [hiff]
      simp [ColData.empty]
    have hany : rows.any (fun row => decide (charAt row.alignment j ≠ ['.'])) = decide (t ≠ []) := by
      by_cases h : t = []
      · have : ¬ ∃ row ∈ rows, charAt row.alignment j ≠ ['.'] := fun hex => (hiff2.mpr hex) h
        simp only [h, ne_eq, not_true_eq_false, decide_False]
        rw [Bool.eq_false_iff]
        intro hany
        exact this (by simpa using hany)
      · have hex := hiff2.mp h
        simp only [ne_eq, h, not_false_eq_true, decide_True]
        simpa using hex
    by_cases hx : charAt RF j = ['x']
    · have hstep : majorityStep RF (majorityTally rows) consensus j =
          .ok (consensus ++ ((objectKeys t).foldl (majorityPick t) (0, [])).2) := by
        unfold majorityStep
        rw [if_pos hx]
        unfold majorityTally
        rw [ht]
      obtain ⟨s, hs, hlen⟩ := ih hl2 (consensus ++ ((objectKeys t).foldl (majorityPick t) (0, [])).2)
      refine ⟨s, by simp only [majorityLoop, hstep, hs], ?_⟩
      rw [hlen, List.length_append, majorityPick_length t htok, List.filter_cons, hany]
      by_cases h : t = []
      · simp [h, hx]
      · simp [h, hx]
        omega
    · have hstep : majorityStep RF (majorityTally rows) consensus j = .ok consensus := by
        unfold majorityStep
        rw [if_neg hx]
      obtain ⟨s, hs, hlen⟩ := ih hl2 consensus
      refine ⟨s, by simp only [majorityLoop, hstep, hs], ?_⟩
      rw [hlen, List.filter_cons]
      simp [hx]

/-- C4 as stated fails: with `RF = x` and the single row `.` (one row, of the length
of `RF`, over the alphabet and `.`) `toConsensus` returns the empty string, while
`RF` has one `x`. -/
theorem toConsensus_gap_column :
    toConsensus { headers := [("RF".toList, "x".toList)],
                  alignments := [{ seqid := "s1".toList, alignment := ".".toList }] } = .ok [] ∧
      ("x".toList.filter (fun c => c = 'x')).length = 1 ∧
      ".".toList.length = "x".toList.length ∧ (∀ c ∈ ".".toList, isAlnChar c = true) := by
  decide

/-- C4, amended: when there is at least one row and every row has the length of
`headers.RF` and is over the alignment alphabet and `.`, `toConsensus` returns a
string whose length is the number of columns that `RF` marks `x` and in which at
least one row has a character other than `.`. -/
theorem toConsensus_length (self : SeedAlignment) (RF : Str)
    (hRF : getHeader self.headers "RF".toList = some RF)
    (hne : self.alignments ≠ [])
    (hrows : ∀ row ∈ self.alignments,
      row.alignment.length = RF.length ∧ ∀ c ∈ row.alignment, isAlnChar c = true) :
    ∃ s, toConsensus self = .ok s ∧
      s.length = (occupiedMatchColumns RF self.alignments).length := by
  obtain ⟨s, hs, hlen⟩ := majorityLoop_length RF self.alignments hne (List.range RF.length)
    (by
      intro j hj row hrow
      rw [(hrows row hrow).1]
      exact List.mem_range.mp hj) []
  refine ⟨s, ?_, ?_⟩
  · unfold toConsensus
    rw [hRF]
    exact hs
  · rw [hlen]
    simp [occupiedMatchColumns]

/-- C4, amended, on three rows against `RF = xx.x`: column 1 holds only gaps and
column 2 is not a match column, so the consensus has two characters. -/
theorem toConsensus_length_witness :
    ∃ s, toConsensus { headers := [("RF".toList, "xx.x".toList)],
                       alignments := [{ seqid := "s1".toList, alignment := "A.CT".toList },
                                      { seqid := "s2".toList, alignment := "A..G".toList },
                                      { seqid := "s3".toList, alignment := "C..G".toList }] } = .ok s ∧
      s.length = 2 :=
  toConsensus_length _ "xx.x".toList (by decide) (by decide) (by decide)

/-! ## Theorems: `generateConsensusFromAlignment2`, length of the result -/

theorem Tally.total_incr (t : Tally) (key : Str) : (t.incr key).total = t.total + 1 := by
  induction t with
  | nil => simp [Tally.incr, Tally.total]
  | cons p t ih =>
    obtain ⟨k, n⟩ := p
    by_cases h : k = key
    · simp [Tally.incr, Tally.total, h]
      omega
    · simp only [Tally.incr, h, if_false]
      simp only [Tally.total, List.map_cons, List.sum_cons] at ih ⊢
      omega

theorem Tally.keys_incr (t : Tally) (key : Str) :
    ∀ k, k ∈ (t.incr key).map Prod.fst ↔ (k ∈ t.map Prod.fst ∨ k = key) := by
  induction t with
  | nil => intro k; simp [Tally.incr]
  | cons p t ih =>
    obtain ⟨k0, n⟩ := p
    intro k
    by_cases h : k0 = key
    · subst h
      simp only [Tally.incr, if_true, List.map_cons, List.mem_cons]
      tauto
    · simp only [Tally.incr, h, if_false, List.map_cons, List.mem_cons, ih k]
      tauto

theorem Tally.incr_A (t : Tally) (key : Str) (ht : TallyA t) (hk : key ∈ alphabet_r) :
    TallyA (t.incr key) := by
  constructor
  · have hnd := ht.1
    clear ht
    induction t with
    | nil => simp [Tally.incr]
    | cons p t ih =>
      obtain ⟨k0, n⟩ := p
      have hnd2 : (t.map Prod.fst).Nodup := (List.nodup_cons.mp hnd).2
      have hnot : k0 ∉ t.map Prod.fst := (List.nodup_cons.mp hnd).1
      by_cases h : k0 = key
      · simpa [Tally.incr, h] using hnd
      · simp only [Tally.incr, h, if_false, List.map_cons, List.nodup_cons]
        refine ⟨?_, ih hnd2⟩
        intro hmem
        rcases (Tally.keys_incr t key k0).mp hmem with h1 | h1
        · exact hnot h1
        · exact h h1
  · intro k hk2
    rcases (Tally.keys_incr t key k).mp hk2 with h | h
    · exact ht.2 k h
    · rw [h]; exact hk

theorem Tally.get_eq_none (t : Tally) (key : Str) (h : key ∉ t.map Prod.fst) :
    t.get key = none := by
  induction t with
  | nil => rfl
  | cons p t ih =>
    obtain ⟨k, n⟩ := p
    have h1 : ¬ k = key := fun e => h (by simp [e])
    have h2 : key ∉ t.map Prod.fst := fun e => h (by simp [e])
    simp [Tally.get, h1, ih h2]

/-- With keys from the matrix alphabet, `Object.keys` lists the keys in insertion
order: none of them is integer-like. -/
theorem objectKeys_alpha (t : Tally) (ht : ∀ k ∈ t.map Prod.fst, k ∈ alphabet_r) :
    objectKeys t = t.map Prod.fst := by
  unfold objectKeys
  have h1 : ("0123456789".toList.map (fun d => [d])).filter (fun k => (t.get k).isSome) = [] := by
    rw [List.filter_eq_nil_iff]
    intro k hk
    have hnot : k ∉ alphabet_r := by
      revert k
      decide
    have : t.get k = none := Tally.get_eq_none t k (fun hm => hnot (ht k hm))
    simp [this]
  have h2 : (t.map Prod.fst).filter (fun k => !(k.length = 1 && k.all isDigit)) = t.map Prod.fst := by
    rw [List.filter_eq_self]
    intro k hk
    have hall : ∀ k ∈ alphabet_r, (!(decide (k.length = 1) && k.all isDigit)) = true := by
      decide
    exact hall k (ht k hk)
  rw [h1, h2]
  rfl

theorem Tally.get_sum (t : Tally) (hnd : (t.map Prod.fst).Nodup) :
    ((t.map Prod.fst).map (fun k => (t.get k).getD 0)).sum = t.total := by
  induction t with
  | nil => rfl
  | cons p t ih =>
    obtain ⟨k, n⟩ := p
    have hnd2 : (t.map Prod.fst).Nodup := (List.nodup_cons.mp hnd).2
    have hnot : k ∉ t.map Prod.fst := (List.nodup_cons.mp hnd).1
    have htail : (t.map Prod.fst).map (fun x => (Tally.get ((k, n) :: t) x).getD 0) =
        (t.map Prod.fst).map (fun x => (Tally.get t x).getD 0) := by
      apply List.map_congr_left
      intro x hx
      have : ¬ k = x := fun e => hnot (e ▸ hx)
      simp [Tally.get, this]
    simp only [List.map_cons, List.sum_cons, Tally.total]
    rw [htail, ih hnd2]
    simp [Tally.get, Tally.total]

theorem matrix_row0_bound : ∀ k ∈ alphabet_r, ∃ m, matrixAt 0 (alphabet_h k) = some m ∧ -17 ≤ m := by
  decide

/-- The score of candidate `A` over keys of the matrix alphabet is a number, at least
`-17` times the counts read. -/
theorem scoreStep_foldl_bound (t : Tally) (ks : List Str)
    (hks : ∀ k ∈ ks, k ∈ alphabet_r ∧ ∃ n, t.get k = some n) :
    ∀ s : Int, ∃ s2, ks.foldl (scoreStep t 0) (some s) = some s2 ∧
      s - 17 * ((ks.map (fun k => (t.get k).getD 0)).sum : Nat) ≤ s2 := by
  induction ks with
  | nil => intro s; exact ⟨s, rfl, by simp⟩
  | cons k ks ih =>
    intro s
    obtain ⟨hk, n, hn⟩ := hks k (List.mem_cons_self _ _)
    obtain ⟨m, hm, hbound⟩ := matrix_row0_bound k hk
    have hstep : scoreStep t 0 (some s) k = some (s + (n : Int) * m) := by
      simp [scoreStep, hn, hm]
    obtain ⟨s2, hs2, hle⟩ := ih (fun x hx => hks x (List.mem_cons_of_mem _ hx)) (s + (n : Int) * m)
    refine ⟨s2, by rw [List.foldl_cons, hstep, hs2], ?_⟩
    simp only [List.map_cons, List.sum_cons, hn, Option.getD_some]
    have h1 : -17 * (n : Int) ≤ (n : Int) * m := by nlinarith
    rw [Nat.cast_add]
    linarith

theorem candidateScore_A (t : Tally) (ht : TallyA t) :
    ∃ s, candidateScore t 0 = some s ∧ -17 * (t.total : Int) ≤ s := by
  unfold candidateScore
  rw [objectKeys_alpha t ht.2]
  obtain ⟨s2, hs2, hle⟩ := scoreStep_foldl_bound t (t.map Prod.fst)
    (by
      intro k hk
      refine ⟨ht.2 k hk, ?_⟩
      obtain ⟨p, hp, rfl⟩ := List.mem_map.mp hk
      exact Tally.get_of_mem t p hp) 0
  refine ⟨s2, hs2, ?_⟩
  rw [Tally.get_sum t ht.1] at hle
  linarith

theorem alphabet_r_getD : ∀ j, j < 14 → alphabet_r.getD j [] ∈ alphabet_r := by
  decide

theorem pickStep_some (t : Tally) (st : Int × Option Str) (j : Nat) (hj : j < 14)
    (hst : ∃ b, st.2 = some b ∧ b ∈ alphabet_r) :
    ∃ b, (pickStep t st j).2 = some b ∧ b ∈ alphabet_r := by
  have hcons := alphabet_r_getD j hj
  unfold pickStep
  simp only
  cases candidateScore t j with
  | none => exact hst
  | some score =>
    simp only
    split
    · exact ⟨_, rfl, hcons⟩
    · split
      · exact ⟨_, rfl, hcons⟩
      · exact hst

theorem pickStep_foldl_some (t : Tally) (l : List Nat) (hl : ∀ j ∈ l, j < 14) :
    ∀ st : Int × Option Str, (∃ b, st.2 = some b ∧ b ∈ alphabet_r) →
      ∃ b, (l.foldl (pickStep t) st).2 = some b ∧ b ∈ alphabet_r := by
  induction l with
  | nil => intro st hst; exact hst
  | cons j l ih =>
    intro st hst
    rw [List.foldl_cons]
    exact ih (fun x hx => hl x (List.mem_cons_of_mem _ hx)) _
      (pickStep_some t st j (hl j (List.mem_cons_self _ _)) hst)

/-- For a column whose keys are matrix symbols and whose counts sum to less than
`10^9 / 17`, the loop over the candidates leaves `highBase` defined, whatever it
was before. -/
theorem pickColumn_some (t : Tally) (ht : TallyA t) (hsmall : 17 * t.total < 1000000000)
    (highBase : Option Str) :
    ∃ b, (pickColumn t highBase).2 = some b ∧ b ∈ alphabet_r := by
  obtain ⟨s, hs, hle⟩ := candidateScore_A t ht
  have hgt : s > -1000000000 := by
    have : (17 : Int) * (t.total : Int) < 1000000000 := by exact_mod_cast hsmall
    linarith
  have hrange : List.range alphabet_r.length = 0 :: List.range' 1 13 := by decide
  unfold pickColumn
  rw [hrange, List.foldl_cons]
  apply pickStep_foldl_some
  · intro j hj
    have := List.mem_range'.mp hj
    omega
  · have hne : ¬ s = -1000000000 := by omega
    refine ⟨alphabet_r.getD 0 [], ?_, alphabet_r_getD 0 (by omega)⟩
    unfold pickStep
    simp only [hs]
    rw [if_neg (fun h => hne h.1), if_pos hgt]

theorem charAt_eq_getElem (s : Str) (j : Nat) (h : j < s.length) : charAt s j = [s[j]] := by
  rw [charAt_eq_head, List.drop_eq_getElem_cons h]
  rfl

theorem dropWhile_dot_ne_nil (s : Str) (h : ∃ c ∈ s, c ≠ '.') :
    s.dropWhile (fun c => c = '.') ≠ [] := by
  intro hnil
  rw [List.dropWhile_eq_nil_iff] at hnil
  obtain ⟨c, hc, hne⟩ := h
  have := hnil c hc
  simp at this
  exact hne this

/-- A row with a character other than `.` matches both trimming expressions, and its
last such character is a column of the row. -/
theorem span_of_base (s : Str) (h : ∃ c ∈ s, c ≠ '.') :
    ∃ a d, startMatch s = some a ∧ endMatch s = some d ∧ 1 ≤ s.length := by
  have h1 := dropWhile_dot_ne_nil s h
  have h2 : s.reverse.dropWhile (fun c => c = '.') ≠ [] := by
    apply dropWhile_dot_ne_nil
    obtain ⟨c, hc, hne⟩ := h
    exact ⟨c, List.mem_reverse.mpr hc, hne⟩
  have hlen : 1 ≤ s.length := by
    obtain ⟨c, hc, _⟩ := h
    cases s with
    | nil => simp at hc
    | cons a s => simp
  refine ⟨(s.takeWhile (fun c => c = '.')).length,
    (s.reverse.takeWhile (fun c => c = '.')).length, ?_, ?_, hlen⟩
  · unfold startMatch
    cases hd : s.dropWhile (fun c => c = '.') with
    | nil => exact absurd hd h1
    | cons x xs => rfl
  · unfold endMatch
    cases hd : s.reverse.dropWhile (fun c => c = '.') with
    | nil => exact absurd hd h2
    | cons x xs => rfl

/-- The tally loop of one row over the columns `a, ..., a + n - 1` increments each of
them once. -/
theorem tallySpan_apply (alignment : Str) (j : Nat) :
    ∀ (n a : Nat) (cd : ColData),
      ((List.range' a n).foldl (fun cd j => cd.incr j (charAt alignment j)) cd) j =
        if a ≤ j ∧ j < a + n then some (((cd j).getD []).incr (charAt alignment j)) else cd j := by
  intro n
  induction n with
  | zero =>
    intro a cd
    have : ¬ (a ≤ j ∧ j < a + 0) := by omega
    rw [if_neg this]
    rfl
  | succ n ih =>
    intro a cd
    rw [List.range'_succ, List.foldl_cons, ih]
    by_cases hja : j = a
    · subst hja
      have h1 : ¬ (j + 1 ≤ j ∧ j < j + 1 + n) := by omega
      have h2 : j ≤ j ∧ j < j + (n + 1) := by omega
      rw [if_neg h1, if_pos h2]
      simp [ColData.incr]
    · have hcd : (cd.incr a (charAt alignment a)) j = cd j := by simp [ColData.incr, hja]
      rw [hcd]
      by_cases h1 : a + 1 ≤ j ∧ j < a + 1 + n
      · have h2 : a ≤ j ∧ j < a + (n + 1) := by omega
        rw [if_pos h1, if_pos h2]
      · have h2 : ¬ (a ≤ j ∧ j < a + (n + 1)) := by omega
        rw [if_neg h1, if_neg h2]

/-- The effect of `tallyRow` on every column, for a row with a base. -/
theorem tallyRow_apply (cd : ColData) (row : Row) (h : ∃ c ∈ row.alignment, c ≠ '.') :
    ∃ cd1, tallyRow cd row = .ok cd1 ∧
      ∀ j, cd1 j = if covers row j = true
        then some (((cd j).getD []).incr (charAt row.alignment j)) else cd j := by
  obtain ⟨a, d, ha, hd, _⟩ := span_of_base row.alignment h
  refine ⟨_, by simp only [tallyRow, ha, hd]; rfl, ?_⟩
  intro j
  simp only [span]
  rw [tallySpan_apply]
  have hcov : covers row j = true ↔
      (a ≤ j ∧ j < a + (row.alignment.length - d - 1 + 1 - a)) := by
    simp only [covers, ha, hd, Bool.and_eq_true, decide_eq_true_eq]
    omega
  by_cases hc : covers row j = true
  · rw [if_pos hc, if_pos (hcov.mp hc)]
  · rw [if_neg hc, if_neg (fun h => hc (hcov.mpr h))]

theorem covers_lt (row : Row) (j : Nat) (h : ∃ c ∈ row.alignment, c ≠ '.')
    (hc : covers row j = true) : j < row.alignment.length := by
  obtain ⟨a, d, ha, hd, hlen⟩ := span_of_base row.alignment h
  simp only [covers, ha, hd, Bool.and_eq_true, decide_eq_true_eq] at hc
  omega

/-- The tally loop over rows with a base and over the matrix alphabet does not throw;
it keeps the tallies well formed, adds at most one to the counts of a column per
row, and fills exactly the columns that some row covers. -/
theorem tallyRows_ok (rows : List Row)
    (hrows : ∀ row ∈ rows,
      (∃ c ∈ row.alignment, c ≠ '.') ∧ ∀ c ∈ row.alignment, [c] ∈ alphabet_r) :
    ∀ (cd : ColData) (N : Nat), ColOK cd N →
      ∃ cd2, tallyRows rows cd = .ok cd2 ∧ ColOK cd2 (N + rows.length) ∧
        ∀ j, (cd2 j).isSome = ((cd j).isSome || rows.any (fun row => covers row j)) := by
  induction rows with
  | nil =>
    intro cd N hcd
    exact ⟨cd, rfl, by simpa using hcd, by simp⟩
  | cons row rows ih =>
    intro cd N hcd
    obtain ⟨hbase, halpha⟩ := hrows row (List.mem_cons_self _ _)
    obtain ⟨cd1, hcd1, happ⟩ := tallyRow_apply cd row hbase
    have hok1 : ColOK cd1 (N + 1) := by
      intro j t ht
      rw [happ j] at ht
      by_cases hc : covers row j = true
      · rw [if_pos hc] at ht
        simp only [Option.some.injEq] at ht
        have hj := covers_lt row j hbase hc
        have hkey : charAt row.alignment j ∈ alphabet_r := by
          rw [charAt_eq_getElem _ _ hj]
          exact halpha _ (List.getElem_mem hj)
        have hold : TallyA ((cd j).getD []) ∧ ((cd j).getD []).total ≤ N := by
          cases hcj : cd j with
          | none => exact ⟨⟨by simp, by simp⟩, by simp [Tally.total]⟩
          | some t0 => simpa using hcd j t0 hcj
        rw [← ht]
        exact ⟨Tally.incr_A _ _ hold.1 hkey, by rw [Tally.total_incr]; omega⟩
      · rw [if_neg hc] at ht
        obtain ⟨h1, h2⟩ := hcd j t ht
        exact ⟨h1, by omega⟩
    obtain ⟨cd2, hcd2, hok2, hsome⟩ :=
      ih (fun r hr => hrows r (List.mem_cons_of_mem _ hr)) cd1 (N + 1) hok1
    refine ⟨cd2, by simp only [tallyRows, hcd1, hcd2], ?_, ?_⟩
    · have : N + (row :: rows).length = N + 1 + rows.length := by simp; omega
      rw [this]
      exact hok2
    · intro j
      rw [hsome j, happ j, List.any_cons]
      by_cases hc : covers row j = true
      · simp [hc]
      · simp [hc]

theorem alphabet_r_symbol : ∀ b ∈ alphabet_r, b.length = 1 ∧ ∀ c ∈ b, [c] ∈ alphabet_r := by
  decide

/-- The column loop over columns whose tallies are well formed and small: every
column with data appends one matrix symbol. -/
theorem columnStep_foldl (cd : ColData) (N : Nat) (hcd : ColOK cd N)
    (hN : 17 * N < 1000000000) (l : List Nat) :
    ∀ st : Str × Option Str, (∀ c ∈ st.1, [c] ∈ alphabet_r) →
      (∀ c ∈ (l.foldl (columnStep cd) st).1, [c] ∈ alphabet_r) ∧
        (l.foldl (columnStep cd) st).1.length =
          st.1.length + (l.filter (fun j => (cd j).isSome)).length := by
  induction l with
  | nil => intro st hst; exact ⟨hst, by simp⟩
  | cons i l ih =>
    intro st hst
    rw [List.foldl_cons]
    cases hci : cd i with
    | none =>
      have hstep : columnStep cd st i = st := by simp [columnStep, hci]
      rw [hstep, List.filter_cons]
      simpa [hci] using ih st hst
    | some t =>
      obtain ⟨hA, htot⟩ := hcd i t hci
      obtain ⟨b, hb, hbmem⟩ := pickColumn_some t hA (by omega) st.2
      obtain ⟨hblen, hbchars⟩ := alphabet_r_symbol b hbmem
      have hstep : columnStep cd st i = (st.1 ++ b, some b) := by
        simp [columnStep, hci, hb, appendBase]
      have hst2 : ∀ c ∈ (st.1 ++ b, some b).1, [c] ∈ alphabet_r := by
        intro c hc
        rcases List.mem_append.mp hc with h | h
        · exact hst c h
        · exact hbchars c h
      obtain ⟨h1, h2⟩ := ih (st.1 ++ b, some b) hst2
      rw [hstep, List.filter_cons]
      refine ⟨h1, ?_⟩
      rw [h2]
      simp [hci, hblen]
      omega

theorem diExec_spec (consensus : Str) (lastIndex l r : Nat)
    (h : diExec consensus lastIndex = some (l, r)) :
    lastIndex ≤ l ∧ l < consensus.length ∧ l < r ∧ r ≤ consensus.length := by
  unfold diExec at h
  simp only at h
  split at h
  · rename_i hlt
    simp only [Option.some.injEq, Prod.mk.injEq] at h
    obtain ⟨h1, h2⟩ := h
    have hle : ((consensus.drop (l + 1)).takeWhile (fun c => c = '.')).length ≤
        consensus.length - (l + 1) := by
      have := (List.takeWhile_prefix (l := consensus.drop (l + 1)) (fun c => decide (c = '.'))).length_le
      simpa using this
    rw [h1] at hlt h2
    refine ⟨by omega, hlt, by omega, by omega⟩
  · exact absurd h (by simp)

theorem substring_zero (s : Str) (l : Nat) : substring s 0 l = s.take l := by
  simp [substring]

theorem substring_to_end (s : Str) (l : Nat) (h : l ≤ s.length) :
    substring s l s.length = s.drop l := by
  unfold substring
  rw [Nat.max_eq_right h, Nat.min_eq_left h, List.take_length]

theorem overwriteCG_spec (consensus : Str) (l r : Nat) (hl : l < consensus.length)
    (hr : r < consensus.length) (hc : ∀ c ∈ consensus, [c] ∈ alphabet_r) :
    (overwriteCG consensus l r).length = consensus.length ∧
      ∀ c ∈ overwriteCG consensus l r, [c] ∈ alphabet_r := by
  have hC : ['C'] ∈ alphabet_r := by decide
  have hG : ['G'] ∈ alphabet_r := by decide
  have key : ∀ (s : Str) (i : Nat) (x : Char), i < s.length → [x] ∈ alphabet_r →
      (∀ c ∈ s, [c] ∈ alphabet_r) →
      (substring s 0 i ++ [x] ++ substring s (i + 1) s.length).length = s.length ∧
        ∀ c ∈ substring s 0 i ++ [x] ++ substring s (i + 1) s.length, [c] ∈ alphabet_r := by
    intro s i x hi hx hs
    rw [substring_zero, substring_to_end s (i + 1) (by omega)]
    constructor
    · simp
      omega
    · intro c hmem
      simp only [List.mem_append, List.mem_singleton] at hmem
      rcases hmem with (h | h) | h
      · exact hs c (List.mem_of_mem_take h)
      · rw [h]; exact hx
      · exact hs c (List.mem_of_mem_drop h)
  obtain ⟨h1, h2⟩ := key consensus l 'C' hl hC hc
  obtain ⟨h3, h4⟩ := key _ r 'G' (by rw [h1]; exact hr) hG h2
  unfold overwriteCG
  simp only
  exact ⟨by rw [h3, h1], h4⟩

theorem alphabet_h_some (key : Str) (h : key ∈ alphabet_r) : ∃ k, alphabet_h key = some k := by
  unfold alphabet_h
  rw [if_pos h]
  exact ⟨_, rfl⟩

theorem pairScores_ok (consLeft consRight : Str) (lftIdx rgtIdx : Nat)
    (hl : consLeft ∈ alphabet_r) (hr : consRight ∈ alphabet_r) (rows : List Row) :
    ∀ st, ∃ st2, pairScores consLeft consRight lftIdx rgtIdx rows st = .ok st2 := by
  obtain ⟨cl, hcl⟩ := alphabet_h_some consLeft hl
  obtain ⟨cr, hcr⟩ := alphabet_h_some consRight hr
  induction rows with
  | nil => intro st; exact ⟨st, rfl⟩
  | cons row rows ih =>
    intro st
    have hstep : ∃ st1, pairStep consLeft consRight lftIdx rgtIdx st row = .ok st1 := by
      unfold pairStep
      simp only [hcl, hcr]
      split
      · exact ⟨_, rfl⟩
      · exact ⟨_, rfl⟩
    obtain ⟨st1, hst1⟩ := hstep
    obtain ⟨st2, hst2⟩ := ih st1
    exact ⟨st2, by simp only [pairScores, hst1, hst2]⟩

theorem charAt_ne_nil (s : Str) (j : Nat) (h : charAt s j ≠ []) : j < s.length := by
  by_contra hge
  apply h
  rw [charAt_eq_head, List.drop_eq_nil_of_le (by omega)]
  rfl

/-- The dinucleotide pass on a consensus of matrix symbols ends within its fuel
without throwing, and keeps the length. -/
theorem cpgLoop_ok (aligns : List Row) :
    ∀ (fuel : Nat) (consensus : Str) (lastIndex : Nat),
      (∀ c ∈ consensus, [c] ∈ alphabet_r) → lastIndex ≤ consensus.length →
      consensus.length + 1 ≤ fuel + lastIndex →
      ∃ s, cpgLoop aligns fuel consensus lastIndex = some (.ok s) ∧
        s.length = consensus.length := by
  intro fuel
  induction fuel with
  | zero => intro consensus lastIndex _ h1 h2; omega
  | succ fuel ih =>
    intro consensus lastIndex hc h1 h2
    unfold cpgLoop
    cases hd : diExec consensus lastIndex with
    | none => exact ⟨consensus, rfl, rfl⟩
    | some p =>
      obtain ⟨l, r⟩ := p
      obtain ⟨e1, e2, e3, e4⟩ := diExec_spec consensus lastIndex l r hd
      simp only
      by_cases hright : charAt consensus r = []
      · rw [if_neg (by simpa using hright)]
        exact ih consensus r hc e4 (by omega)
      · rw [if_pos hright]
        have hr : r < consensus.length := charAt_ne_nil consensus r hright
        have hL : charAt consensus l ∈ alphabet_r := by
          rw [charAt_eq_getElem _ _ e2]
          exact hc _ (List.getElem_mem e2)
        have hR : charAt consensus r ∈ alphabet_r := by
          rw [charAt_eq_getElem _ _ hr]
          exact hc _ (List.getElem_mem hr)
        obtain ⟨st2, hst2⟩ := pairScores_ok _ _ l r hL hR aligns (some 0, some 0)
        rw [hst2]
        obtain ⟨cg, dn⟩ := st2
        simp only
        by_cases hgt : jsGt cg dn = true
        · rw [if_pos hgt]
          obtain ⟨hlen, hchars⟩ := overwriteCG_spec consensus l r e2 hr hc
          obtain ⟨s, hs, hsl⟩ := ih (overwriteCG consensus l r) r hchars (by omega) (by omega)
          exact ⟨s, hs, by rw [hsl, hlen]⟩
        · rw [if_neg hgt]
          exact ih consensus r hc e4 (by omega)

theorem cpgPass_ok (aligns : List Row) (consensus : Str)
    (hc : ∀ c ∈ consensus, [c] ∈ alphabet_r) :
    ∃ s, cpgPass aligns consensus = .ok s ∧ s.length = consensus.length := by
  obtain ⟨s, hs, hlen⟩ := cpgLoop_ok aligns (consensus.length + 1) consensus 0 hc
    (by omega) (by omega)
  exact ⟨s, by simp [cpgPass, hs], hlen⟩

theorem overwriteCG_length (consensus : Str) (l r : Nat) (hl : l < consensus.length)
    (hr : r < consensus.length) : (overwriteCG consensus l r).length = consensus.length := by
  have key : ∀ (s : Str) (i : Nat) (x : Char), i < s.length →
      (substring s 0 i ++ [x] ++ substring s (i + 1) s.length).length = s.length := by
    intro s i x hi
    rw [substring_zero, substring_to_end s (i + 1) (by omega)]
    simp
    omega
  have h1 := key consensus l 'C' hl
  have h3 := key _ r 'G' (by rw [h1]; exact hr)
  unfold overwriteCG
  simp only
  rw [h3, h1]

/-- The `while` loop of the dinucleotide pass always ends within
`consensus.length + 1` iterations, whatever the rows and the consensus: the fuel
of `cpgPass` never runs out. -/
theorem cpgLoop_fuel (aligns : List Row) :
    ∀ (fuel : Nat) (consensus : Str) (lastIndex : Nat),
      lastIndex ≤ consensus.length → consensus.length + 1 ≤ fuel + lastIndex →
      (cpgLoop aligns fuel consensus lastIndex).isSome = true := by
  intro fuel
  induction fuel with
  | zero => intro consensus lastIndex h1 h2; omega
  | succ fuel ih =>
    intro consensus lastIndex h1 h2
    unfold cpgLoop
    cases hd : diExec consensus lastIndex with
    | none => rfl
    | some p =>
      obtain ⟨l, r⟩ := p
      obtain ⟨e1, e2, e3, e4⟩ := diExec_spec consensus lastIndex l r hd
      simp only
      by_cases hright : charAt consensus r = []
      · rw [if_neg (by simpa using hright)]
        exact ih consensus r e4 (by omega)
      · rw [if_pos hright]
        have hr : r < consensus.length := charAt_ne_nil consensus r hright
        cases pairScores (charAt consensus l) (charAt consensus r) l r aligns (some 0, some 0) with
        | error e => rfl
        | ok st2 =>
          obtain ⟨cg, dn⟩ := st2
          simp only
          by_cases hgt : jsGt cg dn = true
          · rw [if_pos hgt]
            have hlen := overwriteCG_length consensus l r e2 hr
            exact ih (overwriteCG consensus l r) r (by omega) (by omega)
          · rw [if_neg hgt]
            exact ih consensus r e4 (by omega)

/-- The dinucleotide pass is the result of its loop: the default of `cpgPass` is
never used. -/
theorem cpgPass_eq (aligns : List Row) (consensus : Str) :
    cpgLoop aligns (consensus.length + 1) consensus 0 = some (cpgPass aligns consensus) := by
  have h := cpgLoop_fuel aligns (consensus.length + 1) consensus 0 (by omega) (by omega)
  unfold cpgPass
  cases hc : cpgLoop aligns (consensus.length + 1) consensus 0 with
  | none => rw [hc] at h; exact absurd h (by simp)
  | some r => rfl

/-- A row without any base makes `generateConsensusFromAlignment2` throw: the two
trimming matches are `null`. -/
theorem generateConsensus_gap_row :
    generateConsensusFromAlignment2
        { alignments := [{ seqid := "s1".toList, alignment := "AC".toList },
                         { seqid := "s2".toList, alignment := "..".toList }] } = .error .typeError := by
  decide

/-- A lowercase row (the parser accepts it) is outside the matrix alphabet: every
score is `NaN`, no candidate is chosen, and the column loop appends the text
`undefined`; the dinucleotide pass then throws on it. -/
theorem generateConsensus_lowercase :
    columnConsensus { alignments := [{ seqid := "s1".toList, alignment := "a".toList }] }
        = .ok "undefined".toList ∧
      generateConsensusFromAlignment2
        { alignments := [{ seqid := "s1".toList, alignment := "a".toList }] } = .error .typeError := by
  decide

/-- C2 as stated fails: the single row `A.` has length 2, and
`generateConsensusFromAlignment2` returns the one-character string `A`: column 1
lies outside the span of every row, `colData[1]` is a hole, and the column loop
appends nothing for it. -/
theorem generateConsensus_uncovered_column :
    generateConsensusFromAlignment2
        { alignments := [{ seqid := "s1".toList, alignment := "A.".toList }] } = .ok "A".toList ∧
      "A.".toList.length = 2 ∧ "A".toList.length = 1 := by
  decide

/-- C2, amended: for at least one and fewer than `10^9 / 17` rows, all of length `w`,
each with a character other than `.` and over the 14 symbols of the matrix,
`generateConsensusFromAlignment2` returns a string with one symbol for every column
that lies in the span (first to last character other than `.`) of at least one
row; its length is `w` when every column is covered. -/
theorem generateConsensus_length (self : SeedAlignment) (w : Nat)
    (hne : self.alignments ≠ [])
    (hsmall : 17 * self.alignments.length < 1000000000)
    (hrows : ∀ row ∈ self.alignments,
      row.alignment.length = w ∧ (∃ c ∈ row.alignment, c ≠ '.') ∧
        ∀ c ∈ row.alignment, [c] ∈ alphabet_r) :
    ∃ s, generateConsensusFromAlignment2 self = .ok s ∧
      s.length = (coveredColumns self.alignments).length ∧
      ((∀ j, j < w → self.alignments.any (fun row => covers row j) = true) → s.length = w) := by
  obtain ⟨cd2, hcd2, hok2, hsome⟩ := tallyRows_ok self.alignments
    (fun row hrow => (hrows row hrow).2) ColData.empty 0
    (by intro j t h; simp [ColData.empty] at h)
  have hsome2 : ∀ j, (cd2 j).isSome = self.alignments.any (fun row => covers row j) := by
    intro j
    rw [hsome j]
    simp [ColData.empty]
  cases hal : self.alignments with
  | nil => exact absurd hal hne
  | cons row0 rest =>
    have hw : row0.alignment.length = w := by
      have := (hrows row0 (by rw [hal]; exact List.mem_cons_self _ _)).1
      exact this
    obtain ⟨hchars, hlen⟩ := columnStep_foldl cd2 (0 + self.alignments.length) hok2
      (by omega) (List.range row0.alignment.length) ([], none) (by intro c hc; simp at hc)
    obtain ⟨s, hs, hsl⟩ := cpgPass_ok self.alignments _ hchars
    have hfilter : (List.range row0.alignment.length).filter (fun j => (cd2 j).isSome) =
        coveredColumns self.alignments := by
      rw [hal]
      simp only [coveredColumns]
      apply List.filter_congr
      intro j _
      rw [hsome2 j, hal]
    have hslen : s.length = (coveredColumns self.alignments).length := by
      rw [hsl, hlen, hfilter]
      simp
    refine ⟨s, ?_, by rw [← hal]; exact hslen, ?_⟩
    · unfold generateConsensusFromAlignment2 columnConsensus
      rw [hcd2]
      simp only [hal, scoreColumns]
      rw [← hal]
      exact hs
    · intro hall
      rw [hslen, ← hfilter]
      have : (List.range row0.alignment.length).filter (fun j => (cd2 j).isSome) =
          List.range row0.alignment.length := by
        rw [List.filter_eq_self]
        intro j hj
        rw [hsome2 j, hal]
        exact hall j (by rw [← hw]; exact List.mem_range.mp hj)
      rw [this, List.length_range, hw]

/-- C2, amended, on three rows of length 4: the spans are columns 0-1, 1-1 and 3-3, so
column 2 is not covered and the consensus has three symbols. -/
theorem generateConsensus_length_witness :
    ∃ s, generateConsensusFromAlignment2
        { alignments := [{ seqid := "s1".toList, alignment := "AC..".toList },
                         { seqid := "s2".toList, alignment := ".C..".toList },
                         { seqid := "s3".toList, alignment := "...T".toList }] } = .ok s ∧
      s.length = 3 ∧
      ((∀ j, j < 4 →
          [{ seqid := "s1".toList, alignment := "AC..".toList },
           { seqid := "s2".toList, alignment := ".C..".toList },
           ({ seqid := "s3".toList, alignment := "...T".toList } : Row)].any
            (fun row => covers row j) = true) → s.length = 4) :=
  generateConsensus_length _ 4 (by decide) (by decide) (by decide)

/-! ## Theorems: `toAlignmentSummary`, records and windows -/

theorem summarizeRow_ref (consensus : Str) (row : Row) (h : isRefRow row = true) :
    summarizeRow consensus row = .ok none := by
  have h2 : "ref:".toList.isPrefixOf row.seqid = true := h
  unfold summarizeRow
  simp only
  rw [if_pos h2]

theorem summarizeRow_not_ref (consensus : Str) (row : Row) (h : isRefRow row = false) :
    summarizeRow consensus row ≠ .ok none := by
  unfold summarizeRow
  simp only
  have h2 : ¬ ("ref:".toList.isPrefixOf row.seqid = true) := by
    intro e
    unfold isRefRow at h
    rw [e] at h
    exact absurd h (by simp)
  rw [if_neg h2]
  split <;> simp

/-- The records collected by the loop over the rows are, in order, the records of the
rows that are not `ref:` rows. -/
theorem summarizeRows_forall2 (consensus : Str) (rows : List Row) :
    ∀ acc recs, summarizeRows consensus rows acc = .ok recs →
      ∃ new, recs = acc ++ new ∧
        List.Forall₂ (fun row r => summarizeRow consensus row = .ok (some r))
          (rows.filter (fun row => !isRefRow row)) new := by
  induction rows with
  | nil =>
    intro acc recs h
    simp only [summarizeRows, Except.ok.injEq] at h
    exact ⟨[], by simp [h], by simp⟩
  | cons row rows ih =>
    intro acc recs h
    unfold summarizeRows at h
    cases hr : summarizeRow consensus row with
    | error e => rw [hr] at h; exact absurd h (by simp)
    | ok o =>
      rw [hr] at h
      cases o with
      | none =>
        simp only at h
        have href : isRefRow row = true := by
          cases hb : isRefRow row with
          | true => rfl
          | false => exact absurd hr (summarizeRow_not_ref consensus row hb)
        obtain ⟨new, hnew, hall⟩ := ih acc recs h
        refine ⟨new, hnew, ?_⟩
        rw [List.filter_cons]
        simpa [href] using hall
      | some r =>
        simp only at h
        have href : isRefRow row = false := by
          cases hb : isRefRow row with
          | false => rfl
          | true =>
            rw [summarizeRow_ref consensus row hb] at hr
            exact absurd hr (by simp)
        obtain ⟨new, hnew, hall⟩ := ih (acc ++ [r]) recs h
        refine ⟨r :: new, by simp [hnew], ?_⟩
        rw [List.filter_cons]
        simp only [href, Bool.not_false, if_true]
        exact List.Forall₂.cons hr hall

/-- A summary that is returned holds the consensus-based records of the rows that
are not `ref:` rows. -/
theorem toAlignmentSummary_records (self : SeedAlignment) (d : SummaryData)
    (h : toAlignmentSummary self = .ok d) :
    ∃ consensus, generateConsensusFromAlignment2 self = .ok consensus ∧
      List.Forall₂ (fun row r => summarizeRow consensus row = .ok (some r))
        (self.alignments.filter (fun row => !isRefRow row)) d.alignments ∧
      d.num_alignments = d.alignments.length := by
  unfold toAlignmentSummary at h
  cases hg : generateConsensusFromAlignment2 self with
  | error e => rw [hg] at h; exact absurd h (by simp)
  | ok consensus =>
    rw [hg] at h
    simp only at h
    cases hs : summarizeRows consensus self.alignments [] with
    | error e => rw [hs] at h; exact absurd h (by simp)
    | ok recs =>
      rw [hs] at h
      simp only [Except.ok.injEq] at h
      obtain ⟨new, hnew, hall⟩ := summarizeRows_forall2 consensus self.alignments [] recs hs
      simp only [List.nil_append] at hnew
      subst hnew
      subst h
      exact ⟨consensus, rfl, hall, rfl⟩

/-- C11: when `toAlignmentSummary` returns, its records are, one to one and in row
order, the records of exactly the rows whose `seqid` does not begin with `ref:`,
and `num_alignments` is the number of those rows. -/
theorem summary_records_of_non_ref_rows (self : SeedAlignment) (d : SummaryData)
    (h : toAlignmentSummary self = .ok d) :
    (∃ consensus, generateConsensusFromAlignment2 self = .ok consensus ∧
      List.Forall₂ (fun row r => summarizeRow consensus row = .ok (some r))
        (self.alignments.filter (fun row => !isRefRow row)) d.alignments) ∧
    d.alignments.length = (self.alignments.filter (fun row => !isRefRow row)).length ∧
    d.num_alignments = (self.alignments.filter (fun row => !isRefRow row)).length := by
  obtain ⟨consensus, hg, hall, hnum⟩ := toAlignmentSummary_records self d h
  have hlen := hall.length_eq
  exact ⟨⟨consensus, hg, hall⟩, hlen.symm, by rw [hnum, hlen]⟩

/-- C11 on `sampleWithRef`, three rows the second of which is a `ref:` row: two
records. -/
theorem summary_records_of_non_ref_rows_witness :
    toAlignmentSummary sampleWithRef = .ok sampleWithRefSummary ∧
      sampleWithRefSummary.alignments.length = 2 ∧ sampleWithRefSummary.num_alignments = 2 :=
  ⟨by decide,
    (summary_records_of_non_ref_rows sampleWithRef sampleWithRefSummary (by decide)).2⟩

/-- One column of the scan either leaves the aligned count and the scores alone, or
counts one aligned column, closing a window exactly when the count reaches a
multiple of the window size. -/
theorem scanStep_effect (consensus alignment : Str) (alignStart : Nat) (st : ScanState) (j : Nat) :
    ((scanStep consensus alignment alignStart 10 st j).scores = st.scores ∧
        (scanStep consensus alignment alignStart 10 st j).aligned = st.aligned) ∨
      ((scanStep consensus alignment alignStart 10 st j).aligned = st.aligned + 1 ∧
        (st.aligned + 1) % 10 ≠ 0 ∧
        (scanStep consensus alignment alignStart 10 st j).scores = st.scores) ∨
      ((scanStep consensus alignment alignStart 10 st j).aligned = st.aligned + 1 ∧
        (st.aligned + 1) % 10 = 0 ∧
        ∃ x, (scanStep consensus alignment alignStart 10 st j).scores = st.scores ++ [x]) := by
  unfold scanStep
  by_cases hlt : j < alignStart
  · simp only [hlt, if_true]
    left
    split_ifs <;> exact ⟨rfl, rfl⟩
  · by_cases hc : charAt consensus j = ['.']
    · simp only [hlt, hc, if_false, if_true, ne_eq, not_true_eq_false]
      left
      split_ifs <;> exact ⟨rfl, rfl⟩
    · by_cases hw : (st.aligned + 1) % 10 = 0
      · right; right
        simp only [hlt, hc, if_false, if_true, ne_eq, not_false_eq_true]
        split_ifs <;> exact ⟨rfl, hw, _, rfl⟩
      · right; left
        simp only [hlt, hc, if_false, if_true, ne_eq, not_false_eq_true]
        split_ifs <;> exact ⟨rfl, hw, rfl⟩

theorem scanStep_windows (consensus alignment : Str) (alignStart : Nat) (st : ScanState) (j : Nat)
    (h : st.scores.length = st.aligned / 10) :
    (scanStep consensus alignment alignStart 10 st j).scores.length =
      (scanStep consensus alignment alignStart 10 st j).aligned / 10 := by
  rcases scanStep_effect consensus alignment alignStart st j with ⟨h1, h2⟩ | ⟨h1, h2, h3⟩ |
    ⟨h1, h2, x, h3⟩
  · rw [h1, h2]; exact h
  · rw [h1, h3, h]; omega
  · rw [h1, h3, List.length_append, h]
    simp only [List.length_singleton]
    omega

/-- During the scan of a row the number of closed windows is the number of aligned
columns divided by the window size. -/
theorem scanStep_foldl_windows (consensus alignment : Str) (alignStart : Nat) (l : List Nat) :
    ∀ st : ScanState, st.scores.length = st.aligned / 10 →
      (l.foldl (scanStep consensus alignment alignStart 10) st).scores.length =
        (l.foldl (scanStep consensus alignment alignStart 10) st).aligned / 10 := by
  induction l with
  | nil => intro st h; exact h
  | cons j l ih =>
    intro st h
    rw [List.foldl_cons]
    exact ih _ (scanStep_windows consensus alignment alignStart st j h)

theorem summarizeRow_windows (consensus : Str) (row : Row) (r : SummaryRecord)
    (h : summarizeRow consensus row = .ok (some r)) :
    r.aligned / 10 ≤ r.scores.length ∧ r.scores.length ≤ r.aligned / 10 + 1 := by
  unfold summarizeRow at h
  simp only at h
  split at h
  · exact absurd h (by simp)
  · split at h
    · rename_i alignStart dots _ _
      simp only [Except.ok.injEq, Option.some.injEq] at h
      have key := scanStep_foldl_windows consensus row.alignment alignStart
        (List.range (row.alignment.length - dots - 1 + 1)) {} rfl
      rw [← h]
      simp only
      split_ifs
      · rw [List.length_append, key]
        simp
      · rw [key]
        omega
    · exact absurd h (by simp)

/-- C12: in every record that `toAlignmentSummary` returns, the number `n` of window
scores and the aligned length `a` satisfy `a / 10 ≤ n ≤ a / 10 + 1`, so that `10 n` and
`a` differ by at most the window size 10. -/
theorem summary_window_count (self : SeedAlignment) (d : SummaryData)
    (h : toAlignmentSummary self = .ok d) :
    ∀ r ∈ d.alignments,
      r.aligned / 10 ≤ r.scores.length ∧ r.scores.length ≤ r.aligned / 10 + 1 ∧
        r.scores.length * 10 ≤ r.aligned + 10 ∧ r.aligned ≤ r.scores.length * 10 + 10 := by
  obtain ⟨consensus, _, hall, _⟩ := toAlignmentSummary_records self d h
  intro r hr
  have hex : ∃ row, summarizeRow consensus row = .ok (some r) := by
    have gen : ∀ (rows : List Row) (recs : List SummaryRecord),
        List.Forall₂ (fun row r => summarizeRow consensus row = .ok (some r)) rows recs →
        r ∈ recs → ∃ row, summarizeRow consensus row = .ok (some r) := by
      intro rows recs hf
      induction hf with
      | nil => intro hmem; simp at hmem
      | cons hhead _ ih =>
        intro hmem
        rcases List.mem_cons.mp hmem with e | e
        · subst e
          exact ⟨_, hhead⟩
        · exact ih e
    exact gen _ _ hall hr
  obtain ⟨row, hrow⟩ := hex
  obtain ⟨h1, h2⟩ := summarizeRow_windows consensus row r hrow
  refine ⟨h1, h2, ?_, ?_⟩ <;> omega

/-- C12 on `sampleWindows`: the three records have 1, 2 and 0 window scores for 12, 12
and 9 aligned columns. -/
theorem summary_window_count_witness :
    toAlignmentSummary sampleWindows = .ok sampleWindowsSummary ∧
      ∀ r ∈ sampleWindowsSummary.alignments,
        r.aligned / 10 ≤ r.scores.length ∧ r.scores.length ≤ r.aligned / 10 + 1 ∧
          r.scores.length * 10 ≤ r.aligned + 10 ∧ r.aligned ≤ r.scores.length * 10 + 10 :=
  ⟨by decide, summary_window_count sampleWindows sampleWindowsSummary (by decide)⟩

/-- C16, the code on the parsed text `#=GC RF xx`, `s1 AA`, `s2 Aa`: the consensus is
`AA` as for the rows `AA`, `AA`, and the row `Aa` gets the window score 9 (its `a`
is tallied as a mismatch against `A`), where the row `AA` gets no score. -/
theorem summary_case_sensitive :
    parseStockholm fresh (some "#=GC RF xx\ns1 AA\ns2 Aa\n//".toList) =
        .ok (some { headers := [("RF".toList, "xx".toList)],
                    alignments := [{ seqid := "s1".toList, alignment := "AA".toList },
                                   { seqid := "s2".toList, alignment := "Aa".toList }] }) ∧
      generateConsensusFromAlignment2
        { headers := [("RF".toList, "xx".toList)],
          alignments := [{ seqid := "s1".toList, alignment := "AA".toList },
                         { seqid := "s2".toList, alignment := "Aa".toList }] } = .ok "AA".toList ∧
      generateConsensusFromAlignment2
        { headers := [("RF".toList, "xx".toList)],
          alignments := [{ seqid := "s1".toList, alignment := "AA".toList },
                         { seqid := "s2".toList, alignment := "AA".toList }] } = .ok "AA".toList ∧
      (toAlignmentSummary
        { headers := [("RF".toList, "xx".toList)],
          alignments := [{ seqid := "s1".toList, alignment := "AA".toList },
                         { seqid := "s2".toList, alignment := "Aa".toList }] }).map
          (fun d => d.alignments.map (fun r => r.scores)) = .ok [[], [9]] ∧
      (toAlignmentSummary
        { headers := [("RF".toList, "xx".toList)],
          alignments := [{ seqid := "s1".toList, alignment := "AA".toList },
                         { seqid := "s2".toList, alignment := "AA".toList }] }).map
          (fun d => d.alignments.map (fun r => r.scores)) = .ok [[], []] ∧
      (summarizeRow "A".toList { seqid := "s".toList, alignment := "a".toList }).map
          (fun o => o.map (fun r => r.scores)) = .ok (some [9]) ∧
      (summarizeRow "A".toList { seqid := "s".toList, alignment := "A".toList }).map
          (fun o => o.map (fun r => r.scores)) = .ok (some []) := by
  decide

/-- C17, the code on parsed rows in lower case: for the text `#=GC RF x........`,
`s1 a........` the result is the text `undefined`, whose `e`, `f` and `i` are no
symbols of the alignment alphabet; for the single row `a` the call throws. -/
theorem generateConsensus_outside_alphabet :
    parseStockholm fresh (some "#=GC RF x........\ns1 a........\n//".toList) =
        .ok (some { headers := [("RF".toList, "x........".toList)],
                    alignments := [{ seqid := "s1".toList, alignment := "a........".toList }] }) ∧
      generateConsensusFromAlignment2
        { headers := [("RF".toList, "x........".toList)],
          alignments := [{ seqid := "s1".toList, alignment := "a........".toList }] }
        = .ok "undefined".toList ∧
      isAlnChar 'e' = false ∧ isAlnChar 'f' = false ∧ isAlnChar 'i' = false ∧
      parseStockholm fresh (some "#=GC RF x\ns1 a\n//".toList) =
        .ok (some { headers := [("RF".toList, "x".toList)],
                    alignments := [{ seqid := "s1".toList, alignment := "a".toList }] }) ∧
      generateConsensusFromAlignment2
        { headers := [("RF".toList, "x".toList)],
          alignments := [{ seqid := "s1".toList, alignment := "a".toList }] }
        = .error .typeError := by
  decide

/-! ## Theorems: `parseStockholm`, end marker and rows -/

theorem splitLinesAux_nl (rest cur : Str) :
    splitLinesAux ('\n' :: rest) cur = cur.reverse :: splitLinesAux rest [] := by
  simp [splitLinesAux]

theorem splitLinesAux_crnl (rest cur : Str) :
    splitLinesAux ('\r' :: '\n' :: rest) cur = cur.reverse :: splitLinesAux rest [] := by
  simp [splitLinesAux]

/-- The lines of a text that ends in `//` directly after a line break (or is `//`),
and of the same text continued by a line break and more text. -/
theorem splitLinesAux_end_marker (J : Str) (P cur : Str) :
    (P = [] ∧ cur = [] ∨ P.getLast? = some '\n') →
      ∃ init, splitLinesAux (P ++ ['/', '/']) cur = init ++ [['/', '/']] ∧
        splitLinesAux (P ++ ('/' :: '/' :: '\n' :: J)) cur =
          init ++ [['/', '/']] ++ splitLinesAux J [] := by
  induction P, cur using splitLinesAux.induct with
  | case1 cur =>
    intro h
    rcases h with ⟨_, hc⟩ | h
    · subst hc
      exact ⟨[], by simp [splitLinesAux], by simp [splitLinesAux]⟩
    · simp at h
  | case2 rest cur ih =>
    intro h
    have h2 : rest = [] ∧ ([] : Str) = [] ∨ rest.getLast? = some '\n' := by
      rcases h with ⟨h, _⟩ | h
      · simp at h
      · cases rest with
        | nil => exact Or.inl ⟨rfl, rfl⟩
        | cons a r =>
          right
          simpa using h
    obtain ⟨init, h3, h4⟩ := ih h2
    refine ⟨cur.reverse :: init, ?_, ?_⟩
    · rw [List.cons_append, List.cons_append, splitLinesAux_crnl, h3]
      rfl
    · rw [List.cons_append, List.cons_append, splitLinesAux_crnl, h4]
      rfl
  | case3 rest cur ih =>
    intro h
    have h2 : rest = [] ∧ ([] : Str) = [] ∨ rest.getLast? = some '\n' := by
      rcases h with ⟨h, _⟩ | h
      · simp at h
      · cases rest with
        | nil => exact Or.inl ⟨rfl, rfl⟩
        | cons a r =>
          right
          simpa using h
    obtain ⟨init, h3, h4⟩ := ih h2
    refine ⟨cur.reverse :: init, ?_, ?_⟩
    · rw [List.cons_append, splitLinesAux_nl, h3]
      rfl
    · rw [List.cons_append, splitLinesAux_nl, h4]
      rfl
  | case4 c rest cur hcr hnl ih =>
    intro h
    have hne : rest ≠ [] := by
      intro e
      subst e
      rcases h with ⟨h, _⟩ | h
      · simp at h
      · simp at h
        exact hnl h
    have h2 : rest = [] ∧ c :: cur = [] ∨ rest.getLast? = some '\n' := by
      right
      rcases h with ⟨h, _⟩ | h
      · simp at h
      · cases rest with
        | nil => exact absurd rfl hne
        | cons a r => simpa using h
    obtain ⟨init, h3, h4⟩ := ih h2
    have step : ∀ X : Str, splitLinesAux (c :: rest ++ X) cur = splitLinesAux (rest ++ X) (c :: cur) := by
      intro X
      cases rest with
      | nil => exact absurd rfl hne
      | cons a r =>
        rw [List.cons_append, List.cons_append, splitLinesAux]
        · intro r1 hc ha
          simp only [List.cons.injEq] at ha
          exact hcr r hc (by rw [ha.1])
        · exact hnl
    exact ⟨init, by rw [step, h3], by rw [step, h4]⟩

theorem joinLines_cons (l : Str) (ls : List Str) (h : ls ≠ []) :
    joinLines (l :: ls) = l ++ '\n' :: joinLines ls := by
  cases ls with
  | nil => exact absurd rfl h
  | cons a r => rfl

theorem joinLines_append (L1 L : List Str) (h : L ≠ []) :
    joinLines (L1 ++ L) = L1.flatMap (fun l => l ++ ['\n']) ++ joinLines L := by
  induction L1 with
  | nil => simp
  | cons l L1 ih =>
    rw [List.cons_append, joinLines_cons l (L1 ++ L) (by simp [h]), ih]
    simp

theorem flatMap_newline_last (L1 : List Str) :
    L1.flatMap (fun l => l ++ ['\n']) = [] ∨
      (L1.flatMap (fun l => l ++ ['\n'])).getLast? = some '\n' := by
  induction L1 using List.reverseRecOn with
  | nil => left; rfl
  | append_singleton L l _ =>
    right
    simp [List.flatMap_append, List.getLast?_append]


theorem parseLines_end (line : Str) (rest : List Str) (o : SeedAlignment)
    (h : isEndMarker line = true) : parseLines (line :: rest) o = o := by
  obtain ⟨h1, h2, h3, h4, h5⟩ := endMarker_dispatch line h
  simp only [parseLines, h1, h2, h3, h4, h5, h, Bool.false_eq_true, if_false, if_true]

theorem matchSeqLine_blank (line : Str) (h : isBlank line = true) : matchSeqLine line = none := by
  have hd : line.dropWhile isJsSpace = [] := by
    rw [List.dropWhile_eq_nil_iff]
    intro c hc
    exact (List.all_eq_true.mp h) c hc
  simp [matchSeqLine, hd, token, bind, Option.bind]

/-- A line that is not an end marker changes the object in a way that does not depend
on the lines after it, and adds the row it stands for, if any. -/
theorem parseLines_step (line : Str) (o : SeedAlignment) (h : isEndMarker line = false) :
    ∃ o2, (∀ rest, parseLines (line :: rest) o = parseLines rest o2) ∧
      o2.alignments = o.alignments ++ (rowOfLine line).toList := by
  by_cases hb : isBlank line = true
  · refine ⟨o, ?_, ?_⟩
    · intro rest
      simp only [parseLines, hb, if_true]
    · have : rowOfLine line = none := by
        unfold rowOfLine
        rw [matchSeqLine_blank line hb]
        split <;> rfl
      simp [this]
  · cases hv : matchVersion line with
    | some v =>
      refine ⟨{ o with version := some v }, ?_, ?_⟩
      · intro rest
        simp only [parseLines, hb, hv, Bool.false_eq_true, if_false]
      · have : rowOfLine line = none := by simp [rowOfLine, hv]
        simp [this]
    | none =>
      cases hg : matchGF line with
      | some x =>
        obtain ⟨tag, value⟩ := x
        refine ⟨{ o with headers := setHeader o.headers tag value }, ?_, ?_⟩
        · intro rest
          simp only [parseLines, hb, hv, hg, Bool.false_eq_true, if_false]
        · have : rowOfLine line = none := by simp [rowOfLine, hg]
          simp [this]
      | none =>
        cases hc : matchGCRF line with
        | some value =>
          refine ⟨{ o with headers := setHeader o.headers "RF".toList value }, ?_, ?_⟩
          · intro rest
            simp only [parseLines, hb, hv, hg, hc, Bool.false_eq_true, if_false]
          · have : rowOfLine line = none := by simp [rowOfLine, hc]
            simp [this]
        | none =>
          cases hs : matchSeqLine line with
          | some x =>
            obtain ⟨id, aln⟩ := x
            refine ⟨{ o with alignments := o.alignments ++ [{ seqid := id, alignment := aln }] },
              ?_, ?_⟩
            · intro rest
              simp only [parseLines, hb, hv, hg, hc, hs, Bool.false_eq_true, if_false]
            · have : rowOfLine line = some { seqid := id, alignment := aln } := by
                simp [rowOfLine, hv, hg, hc, hs]
              simp [this]
          | none =>
            refine ⟨o, ?_, ?_⟩
            · intro rest
              simp only [parseLines, hb, hv, hg, hc, hs, h, Bool.false_eq_true, if_false]
            · have : rowOfLine line = none := by simp [rowOfLine, hv, hg, hc, hs]
              simp [this]

/-- Nothing after an end-marker line is parsed. -/
theorem parseLines_after_end (e : Str) (he : isEndMarker e = true) (A B : List Str) :
    ∀ o, parseLines (A ++ e :: B) o = parseLines (A ++ [e]) o := by
  induction A with
  | nil =>
    intro o
    rw [List.nil_append, List.nil_append, parseLines_end e B o he, parseLines_end e [] o he]
  | cons a A ih =>
    intro o
    rw [List.cons_append, List.cons_append]
    cases ha : isEndMarker a with
    | true => rw [parseLines_end a _ o ha, parseLines_end a _ o ha]
    | false =>
      obtain ⟨o2, hstep, _⟩ := parseLines_step a o ha
      rw [hstep, hstep, ih]

/-- The rows after the loop: the rows held before, then one row per line before the
first end marker that stands for a row. -/
theorem parseLines_rows (lines : List Str) :
    ∀ o, (parseLines lines o).alignments =
      o.alignments ++ (lines.takeWhile (fun line => !isEndMarker line)).filterMap rowOfLine := by
  induction lines with
  | nil => intro o; simp [parseLines]
  | cons line rest ih =>
    intro o
    cases he : isEndMarker line with
    | true =>
      rw [parseLines_end line rest o he, List.takeWhile_cons]
      simp [he]
    | false =>
      obtain ⟨o2, hstep, hrows⟩ := parseLines_step line o he
      rw [hstep, ih, hrows, List.takeWhile_cons]
      simp only [he, Bool.not_false, if_true, List.filterMap_cons]
      cases rowOfLine line <;> simp

/-- C13: on a fresh object the text made of the lines `L1`, a line `//` and the lines
`L2` gives the same outcome (the same object or the same failure) as the text made
of `L1` and the line `//`. -/
theorem parseStockholm_first_record (L1 L2 : List Str) :
    parseStockholm fresh (some (joinLines (L1 ++ ["//".toList] ++ L2))) =
      parseStockholm fresh (some (joinLines (L1 ++ ["//".toList]))) := by
  cases L2 with
  | nil => simp
  | cons l2 ls =>
    have he : isEndMarker ['/', '/'] = true := by decide
    have h1 : joinLines (L1 ++ ["//".toList] ++ l2 :: ls) =
        L1.flatMap (fun l => l ++ ['\n']) ++ ('/' :: '/' :: '\n' :: joinLines (l2 :: ls)) := by
      rw [List.append_assoc, joinLines_append L1 _ (by simp)]
      rfl
    have h2 : joinLines (L1 ++ ["//".toList]) = L1.flatMap (fun l => l ++ ['\n']) ++ ['/', '/'] := by
      rw [joinLines_append L1 _ (by simp)]
      rfl
    have hP : L1.flatMap (fun l => l ++ ['\n']) = [] ∧ ([] : Str) = [] ∨
        (L1.flatMap (fun l => l ++ ['\n'])).getLast? = some '\n' := by
      rcases flatMap_newline_last L1 with h | h
      · exact Or.inl ⟨h, rfl⟩
      · exact Or.inr h
    obtain ⟨init, h3, h4⟩ := splitLinesAux_end_marker (joinLines (l2 :: ls)) _ [] hP
    have hlines : parseLines (splitLines (joinLines (L1 ++ ["//".toList] ++ l2 :: ls))) fresh =
        parseLines (splitLines (joinLines (L1 ++ ["//".toList]))) fresh := by
      rw [h1, h2]
      unfold splitLines
      rw [h3, h4, List.append_assoc]
      exact parseLines_after_end _ he init _ fresh
    simp only [parseStockholm, hlines]

theorem matchSeqLine_some (line : Str) (m : Str × Str) (h : matchSeqLine line = some m) :
    m.2 ≠ [] ∧ ∀ c ∈ m.2, isAlnChar c = true := by
  unfold matchSeqLine at h
  cases ht : token (line.dropWhile isJsSpace) with
  | none => simp [ht, bind, Option.bind] at h
  | some p =>
    obtain ⟨id, r⟩ := p
    cases hs : spaces1 r with
    | none => simp [ht, hs, bind, Option.bind] at h
    | some r2 =>
      simp only [ht, hs, bind, Option.bind] at h
      split at h
      · exact absurd h (by simp)
      · rename_i aln hne
        split at h
        · simp only [Option.some.injEq] at h
          rw [← h]
          refine ⟨fun e => hne e, ?_⟩
          intro c hc
          exact List.mem_takeWhile_imp hc
        · exact absurd h (by simp)

theorem rowOfLine_some (line : Str) (row : Row) (h : rowOfLine line = some row) :
    row.alignment ≠ [] ∧ (∀ c ∈ row.alignment, isAlnChar c = true) ∧ '-' ∉ row.alignment := by
  unfold rowOfLine at h
  split at h
  · exact absurd h (by simp)
  · cases hm : matchSeqLine line with
    | none => simp [hm] at h
    | some m =>
      simp only [hm, Option.map_some', Option.some.injEq] at h
      obtain ⟨h1, h2⟩ := matchSeqLine_some line m hm
      rw [← h]
      refine ⟨h1, h2, ?_⟩
      intro hmem
      have := h2 '-' hmem
      exact absurd this (by decide)

/-- A line made of an identifier, white space and a field that uses `-` does not have
the sequence-line shape. -/
theorem matchSeqLine_dash (id sep field : Str)
    (hid : id ≠ [] ∧ ∀ c ∈ id, isJsSpace c = false)
    (hsep : sep ≠ [] ∧ ∀ c ∈ sep, isJsSpace c = true)
    (hfield : ∀ c ∈ field, isAlnChar c = true ∨ c = '-') (hdash : '-' ∈ field) :
    matchSeqLine (id ++ sep ++ field) = none := by
  obtain ⟨hid1, hid2⟩ := hid
  obtain ⟨hsep1, hsep2⟩ := hsep
  have hfs : ∀ c ∈ field, isJsSpace c = false := by
    intro c hc
    rcases hfield c hc with h | h
    · have : ∀ x ∈ "ACGTUMRWSYKVHDBNacgtumrwsykvhdbn.".toList, isJsSpace x = false := by decide
      exact this c (by simpa [isAlnChar] using h)
    · rw [h]; decide
  cases id with
  | nil => exact absurd rfl hid1
  | cons i0 id0 =>
    cases sep with
    | nil => exact absurd rfl hsep1
    | cons s0 sep0 =>
      cases field with
      | nil => simp at hdash
      | cons f0 field0 =>
        have hi0 : isJsSpace i0 = false := hid2 i0 (List.mem_cons_self _ _)
        have hs0 : isJsSpace s0 = true := hsep2 s0 (List.mem_cons_self _ _)
        have hf0 : isJsSpace f0 = false := hfs f0 (List.mem_cons_self _ _)
        have hlead : (i0 :: id0 ++ s0 :: sep0 ++ f0 :: field0).dropWhile isJsSpace =
            i0 :: id0 ++ (s0 :: sep0 ++ f0 :: field0) := by
          simp [List.dropWhile, hi0]
        have htw : (i0 :: id0 ++ (s0 :: sep0 ++ f0 :: field0)).takeWhile (fun c => !isJsSpace c) =
            i0 :: id0 := by
          rw [List.takeWhile_append_of_pos (by intro c hc; simp [hid2 c hc])]
          simp [List.takeWhile, hs0]
        have hdw : (i0 :: id0 ++ (s0 :: sep0 ++ f0 :: field0)).dropWhile (fun c => !isJsSpace c) =
            s0 :: sep0 ++ f0 :: field0 := by
          rw [List.dropWhile_append_of_pos (by intro c hc; simp [hid2 c hc])]
          simp [List.dropWhile, hs0]
        have htok : token (i0 :: id0 ++ (s0 :: sep0 ++ f0 :: field0)) =
            some (i0 :: id0, s0 :: sep0 ++ f0 :: field0) := by
          unfold token
          rw [htw, hdw]
        have hsp : spaces1 (s0 :: sep0 ++ f0 :: field0) = some (f0 :: field0) := by
          have : (s0 :: sep0 ++ f0 :: field0).dropWhile isJsSpace = f0 :: field0 := by
            rw [List.dropWhile_append_of_pos (by intro c hc; exact hsep2 c hc)]
            simp [List.dropWhile, hf0]
          rw [List.cons_append]
          simp only [spaces1, hs0, if_true]
          rw [← List.cons_append, this]
        have hrest : ((f0 :: field0).dropWhile isAlnChar).all isJsSpace = false := by
          have hne : (f0 :: field0).dropWhile isAlnChar ≠ [] := by
            intro e
            rw [List.dropWhile_eq_nil_iff] at e
            exact absurd (e '-' hdash) (by decide)
          cases hd : (f0 :: field0).dropWhile isAlnChar with
          | nil => exact absurd hd hne
          | cons x xs =>
            have hx : x ∈ f0 :: field0 := by
              have : x ∈ (f0 :: field0).dropWhile isAlnChar := by rw [hd]; exact List.mem_cons_self _ _
              exact (List.dropWhile_sublist _).subset this
            simp [hfs x hx]
        unfold matchSeqLine
        rw [hlead, htok]
        simp only [bind, Option.bind, hsp]
        split
        · rfl
        · rw [hrest]
          rfl

/-- C14: when `parseStockholm` on a fresh object returns, `alignments` holds, in input
order and without merging, one row per line before the first end marker that has
the sequence-line shape and is not a `# STOCKHOLM`, `#=GF` or `#=GC RF` line; every
stored alignment string is non-empty, over the alignment alphabet and `.`, and
without `-`; and a line whose alignment field uses `-` stands for no row. -/
theorem parseStockholm_rows :
    (∀ (text : Str) (obj : SeedAlignment),
      parseStockholm fresh (some text) = .ok (some obj) →
        obj.alignments = (linesBeforeEnd text).filterMap rowOfLine ∧
        ∀ row ∈ obj.alignments,
          row.alignment ≠ [] ∧ (∀ c ∈ row.alignment, isAlnChar c = true) ∧
            '-' ∉ row.alignment) ∧
    (∀ id sep field : Str,
      (id ≠ [] ∧ ∀ c ∈ id, isJsSpace c = false) →
      (sep ≠ [] ∧ ∀ c ∈ sep, isJsSpace c = true) →
      (∀ c ∈ field, isAlnChar c = true ∨ c = '-') → '-' ∈ field →
        rowOfLine (id ++ sep ++ field) = none) := by
  constructor
  · intro text obj h
    unfold parseStockholm at h
    simp only at h
    split at h
    · exact absurd h (by simp)
    · simp only [Except.ok.injEq, Option.some.injEq] at h
      have hrows := parseLines_rows (splitLines text) fresh
      rw [h] at hrows
      have hfresh : fresh.alignments = [] := rfl
      rw [hfresh, List.nil_append] at hrows
      refine ⟨hrows, ?_⟩
      intro row hrow
      rw [hrows] at hrow
      obtain ⟨line, _, hline⟩ := List.mem_filterMap.mp hrow
      exact rowOfLine_some line row hline
  · intro id sep field hid hsep hfield hdash
    unfold rowOfLine
    rw [matchSeqLine_dash id sep field hid hsep hfield hdash]
    split <;> rfl

/-- C14 on a text with a duplicated identifier, a row that uses `-` and a second
record after `//`: three rows are stored. -/
theorem parseStockholm_rows_witness :
    (parseLines (splitLines
        "# STOCKHOLM 1.0\n#=GC RF xx.x\ns1 AC.T\ns1 aC.t\ns2 A--T\ns3  ..GT \n//\ns4 ACGT".toList)
        fresh).alignments =
      [{ seqid := "s1".toList, alignment := "AC.T".toList },
       { seqid := "s1".toList, alignment := "aC.t".toList },
       { seqid := "s3".toList, alignment := "..GT".toList }] ∧
    rowOfLine ("s2".toList ++ " ".toList ++ "A--T".toList) = none :=
  ⟨((parseStockholm_rows.1
      "# STOCKHOLM 1.0\n#=GC RF xx.x\ns1 AC.T\ns1 aC.t\ns2 A--T\ns3  ..GT \n//\ns4 ACGT".toList
      _ (by decide)).1).trans (by decide),
    parseStockholm_rows.2 "s2".toList " ".toList "A--T".toList (by decide) (by decide)
      (by decide) (by decide)⟩

/-! ## Theorems: window scores of `toAlignmentSummary` -/

theorem windowScore_congr (s t : ScanState) (h : SameWindows s t) :
    windowScore 10 s = windowScore 10 t := by
  obtain ⟨h1, h2, _, h4, _⟩ := h
  simp only [windowScore, h1, h2, h4]

theorem windowStep_congr (k : ColKind) (s t : ScanState) (h : SameWindows s t) :
    SameWindows (windowStep k s) (windowStep k t) := by
  obtain ⟨h1, h2, h3, h4, h5⟩ := h
  cases k
  · exact ⟨by simp [windowStep, h1], h2, h3, h4, h5⟩
  · exact ⟨h1, h2, h3, h4, h5⟩
  · simp only [windowStep, h3]
    split_ifs
    · exact ⟨rfl, rfl, rfl, rfl, by simp only [windowScore, h1, h2, h4, h5]⟩
    · exact ⟨h1, by simp [h2], rfl, h4, h5⟩
  · simp only [windowStep, h3]
    split_ifs
    · exact ⟨rfl, rfl, rfl, rfl, by simp only [windowScore, h1, h2, h4, h5]⟩
    · exact ⟨h1, h2, rfl, by simp [h4], h5⟩
  · simp only [windowStep, h3]
    split_ifs
    · exact ⟨rfl, rfl, rfl, rfl, by simp only [windowScore, h1, h2, h4, h5]⟩
    · exact ⟨h1, h2, rfl, h4, h5⟩

/-- Inside the span of the row, one column of the scan acts on the window tallies and
the scores as `windowStep` of its kind. -/
theorem scanStep_windowStep (consensus alignment : Str) (alignStart : Nat) (st : ScanState)
    (j : Nat) (hj : ¬ j < alignStart) :
    SameWindows (scanStep consensus alignment alignStart 10 st j)
      (windowStep (colKind (charAt consensus j) (charAt alignment j)) st) := by
  unfold scanStep colKind
  by_cases hc : charAt consensus j = ['.']
  · by_cases ha : charAt alignment j = ['.']
    · simp only [hj, hc, ha, if_false, if_true, ne_eq, not_true_eq_false, windowStep]
      split_ifs <;> exact ⟨rfl, rfl, rfl, rfl, rfl⟩
    · simp only [hj, hc, ha, if_false, if_true, ne_eq, not_true_eq_false, not_false_eq_true,
        windowStep]
      split_ifs <;> exact ⟨rfl, rfl, rfl, rfl, rfl⟩
  · by_cases ha : charAt alignment j = ['.']
    · simp only [hj, hc, ha, if_false, if_true, ne_eq, not_false_eq_true, windowStep]
      split_ifs <;> exact ⟨rfl, rfl, rfl, rfl, rfl⟩
    · by_cases hm : charAt consensus j = charAt alignment j
      · simp only [hj, hc, ha, hm, if_false, if_true, ne_eq, not_false_eq_true,
          not_true_eq_false, windowStep]
        split_ifs <;> exact ⟨rfl, rfl, rfl, rfl, rfl⟩
      · simp only [hj, hc, ha, hm, if_false, if_true, ne_eq, not_false_eq_true, windowStep]
        split_ifs <;> exact ⟨rfl, rfl, rfl, rfl, rfl⟩

theorem scanStep_before (consensus alignment : Str) (alignStart : Nat) (st : ScanState)
    (j : Nat) (hj : j < alignStart) :
    SameWindows (scanStep consensus alignment alignStart 10 st j) st ∧
      (scanStep consensus alignment alignStart 10 st j).conStart = st.conStart := by
  unfold scanStep
  simp only [hj, if_true]
  split_ifs <;> exact ⟨⟨rfl, rfl, rfl, rfl, rfl⟩, rfl⟩

theorem windowScore_spec (st : ScanState) (cur : List ColKind)
    (h1 : st.ins = cur.count .insertion) (h2 : st.del = cur.count .deletion)
    (h3 : st.muts = cur.count .mismatch) :
    windowScore 10 st = specWindowScore cur := by
  unfold windowScore specWindowScore
  have hi : (ColKind.insertion ∈ cur) ↔ st.ins ≠ 0 := by
    rw [h1, ← List.count_pos_iff]; omega
  by_cases hz : st.ins ≠ 0
  · have hm : ColKind.insertion ∈ cur := hi.2 hz
    simp only [hz, hm, if_true, ne_eq, not_false_eq_true, h2, h3]
    split_ifs <;> omega
  · have hm : ¬ ColKind.insertion ∈ cur := fun h => hz (hi.1 h)
    simp only [hz, hm, if_false, h2, h3]
    split_ifs <;> omega

theorem specWindowScore_bounds (w : List ColKind) :
    1 ≤ specWindowScore w ∧ specWindowScore w ≤ 10 := by
  unfold specWindowScore
  split_ifs <;> omega

theorem windowStep_foldl (ks : List ColKind) :
    ∀ (st : ScanState) (cur : List ColKind), WindowRel st cur →
      (ks.foldl (fun s k => windowStep k s) st).scores =
          st.scores ++ (splitWindows ks cur).1.map specWindowScore ∧
        WindowRel (ks.foldl (fun s k => windowStep k s) st) (splitWindows ks cur).2 := by
  induction ks with
  | nil => intro st cur h; exact ⟨by simp [splitWindows], h⟩
  | cons k ks ih =>
    intro st cur h
    obtain ⟨h1, h2, h3, h4⟩ := h
    have hlt : (cur.filter ColKind.isAligned).length < 10 := by omega
    rw [List.foldl_cons]
    cases k
    · -- insertion
      have hr : WindowRel (windowStep .insertion st) (cur ++ [.insertion]) :=
        ⟨by simp [windowStep, h1], by simp [windowStep, h2], by simp [windowStep, h3],
          by simp [windowStep, h4, ColKind.isAligned]⟩
      have := ih _ _ hr
      simpa [splitWindows, ColKind.isAligned, windowStep] using this
    · -- neutral
      have hr : WindowRel (windowStep .neutral st) (cur ++ [.neutral]) :=
        ⟨by simp [windowStep, h1], by simp [windowStep, h2], by simp [windowStep, h3],
          by simp [windowStep, h4, ColKind.isAligned]⟩
      have := ih _ _ hr
      simpa [splitWindows, ColKind.isAligned, windowStep] using this
    · -- deletion
      have hf : ((cur ++ [ColKind.deletion]).filter ColKind.isAligned).length =
          (cur.filter ColKind.isAligned).length + 1 := by
        simp [List.filter_append, ColKind.isAligned]
      by_cases hc : (st.aligned + 1) % 10 = 0
      · have h10 : ((cur ++ [ColKind.deletion]).filter ColKind.isAligned).length = 10 := by
          rw [hf]; omega
        have hw : windowScore 10 { st with aligned := st.aligned + 1, del := st.del + 1 } =
            specWindowScore (cur ++ [.deletion]) :=
          windowScore_spec _ _ (by simp [h1]) (by simp [h2]) (by simp [h3])
        have hs : windowStep .deletion st =
            { st with aligned := st.aligned + 1, ins := 0, del := 0, muts := 0,
                      scores := st.scores ++ [specWindowScore (cur ++ [.deletion])] } := by
          simp only [windowStep, hc, if_true, hw]
        have hr : WindowRel (windowStep .deletion st) [] := by
          rw [hs]; exact ⟨rfl, rfl, rfl, by simpa using hc⟩
        have := ih _ _ hr
        rw [splitWindows, if_pos ⟨rfl, h10⟩]
        refine ⟨?_, this.2⟩
        rw [this.1, hs]; simp
      · have h10 : ¬ ((cur ++ [ColKind.deletion]).filter ColKind.isAligned).length = 10 := by
          rw [hf]; omega
        have hs : windowStep .deletion st =
            { st with aligned := st.aligned + 1, del := st.del + 1 } := by
          simp only [windowStep, hc, if_false]
        have hr : WindowRel (windowStep .deletion st) (cur ++ [.deletion]) := by
          rw [hs]
          exact ⟨by simp [h1], by simp [h2], by simp [h3], by rw [hf]; simp only; omega⟩
        have := ih _ _ hr
        rw [splitWindows, if_neg (fun h => h10 h.2)]
        refine ⟨?_, this.2⟩
        rw [this.1, hs]
    · -- mismatch
      have hf : ((cur ++ [ColKind.mismatch]).filter ColKind.isAligned).length =
          (cur.filter ColKind.isAligned).length + 1 := by
        simp [List.filter_append, ColKind.isAligned]
      by_cases hc : (st.aligned + 1) % 10 = 0
      · have h10 : ((cur ++ [ColKind.mismatch]).filter ColKind.isAligned).length = 10 := by
          rw [hf]; omega
        have hw : windowScore 10 { st with aligned := st.aligned + 1, muts := st.muts + 1 } =
            specWindowScore (cur ++ [.mismatch]) :=
          windowScore_spec _ _ (by simp [h1]) (by simp [h2]) (by simp [h3])
        have hs : windowStep .mismatch st =
            { st with aligned := st.aligned + 1, ins := 0, del := 0, muts := 0,
                      scores := st.scores ++ [specWindowScore (cur ++ [.mismatch])] } := by
          simp only [windowStep, hc, if_true, hw]
        have hr : WindowRel (windowStep .mismatch st) [] := by
          rw [hs]; exact ⟨rfl, rfl, rfl, by simpa using hc⟩
        have := ih _ _ hr
        rw [splitWindows, if_pos ⟨rfl, h10⟩]
        refine ⟨?_, this.2⟩
        rw [this.1, hs]; simp
      · have h10 : ¬ ((cur ++ [ColKind.mismatch]).filter ColKind.isAligned).length = 10 := by
          rw [hf]; omega
        have hs : windowStep .mismatch st =
            { st with aligned := st.aligned + 1, muts := st.muts + 1 } := by
          simp only [windowStep, hc, if_false]
        have hr : WindowRel (windowStep .mismatch st) (cur ++ [.mismatch]) := by
          rw [hs]
          exact ⟨by simp [h1], by simp [h2], by simp [h3], by rw [hf]; simp only; omega⟩
        have := ih _ _ hr
        rw [splitWindows, if_neg (fun h => h10 h.2)]
        refine ⟨?_, this.2⟩
        rw [this.1, hs]
    · -- matched
      have hf : ((cur ++ [ColKind.matched]).filter ColKind.isAligned).length =
          (cur.filter ColKind.isAligned).length + 1 := by
        simp [List.filter_append, ColKind.isAligned]
      by_cases hc : (st.aligned + 1) % 10 = 0
      · have h10 : ((cur ++ [ColKind.matched]).filter ColKind.isAligned).length = 10 := by
          rw [hf]; omega
        have hw : windowScore 10 { st with aligned := st.aligned + 1 } =
            specWindowScore (cur ++ [.matched]) :=
          windowScore_spec _ _ (by simp [h1]) (by simp [h2]) (by simp [h3])
        have hs : windowStep .matched st =
            { st with aligned := st.aligned + 1, ins := 0, del := 0, muts := 0,
                      scores := st.scores ++ [specWindowScore (cur ++ [.matched])] } := by
          simp only [windowStep, hc, if_true, hw]
        have hr : WindowRel (windowStep .matched st) [] := by
          rw [hs]; exact ⟨rfl, rfl, rfl, by simpa using hc⟩
        have := ih _ _ hr
        rw [splitWindows, if_pos ⟨rfl, h10⟩]
        refine ⟨?_, this.2⟩
        rw [this.1, hs]; simp
      · have h10 : ¬ ((cur ++ [ColKind.matched]).filter ColKind.isAligned).length = 10 := by
          rw [hf]; omega
        have hs : windowStep .matched st = { st with aligned := st.aligned + 1 } := by
          simp only [windowStep, hc, if_false]
        have hr : WindowRel (windowStep .matched st) (cur ++ [.matched]) := by
          rw [hs]
          exact ⟨by simp [h1], by simp [h2], by simp [h3], by rw [hf]; simp only; omega⟩
        have := ih _ _ hr
        rw [splitWindows, if_neg (fun h => h10 h.2)]
        refine ⟨?_, this.2⟩
        rw [this.1, hs]

theorem scanStep_foldl_before (consensus alignment : Str) (alignStart : Nat) (l : List Nat) :
    ∀ st : ScanState, (∀ j ∈ l, j < alignStart) →
      SameWindows (l.foldl (scanStep consensus alignment alignStart 10) st) st := by
  induction l with
  | nil => intro st _; exact ⟨rfl, rfl, rfl, rfl, rfl⟩
  | cons j l ih =>
    intro st hl
    rw [List.foldl_cons]
    obtain ⟨a1, a2, a3, a4, a5⟩ := ih (scanStep consensus alignment alignStart 10 st j)
      (fun k hk => hl k (List.mem_cons_of_mem _ hk))
    obtain ⟨⟨b1, b2, b3, b4, b5⟩, _⟩ :=
      scanStep_before consensus alignment alignStart st j (hl j (List.mem_cons_self _ _))
    exact ⟨a1.trans b1, a2.trans b2, a3.trans b3, a4.trans b4, a5.trans b5⟩

theorem scanStep_foldl_span (consensus alignment : Str) (alignStart : Nat) (l : List Nat) :
    ∀ st t : ScanState, (∀ j ∈ l, ¬ j < alignStart) → SameWindows st t →
      SameWindows (l.foldl (scanStep consensus alignment alignStart 10) st)
        ((l.map (fun j => colKind (charAt consensus j) (charAt alignment j))).foldl
          (fun s k => windowStep k s) t) := by
  induction l with
  | nil => intro st t _ h; exact h
  | cons j l ih =>
    intro st t hl h
    rw [List.foldl_cons, List.map_cons, List.foldl_cons]
    refine ih _ _ (fun k hk => hl k (List.mem_cons_of_mem _ hk)) ?_
    obtain ⟨a1, a2, a3, a4, a5⟩ :=
      scanStep_windowStep consensus alignment alignStart st j (hl j (List.mem_cons_self _ _))
    obtain ⟨b1, b2, b3, b4, b5⟩ :=
      windowStep_congr (colKind (charAt consensus j) (charAt alignment j)) st t h
    exact ⟨a1.trans b1, a2.trans b2, a3.trans b3, a4.trans b4, a5.trans b5⟩

/-- The columns `0, ..., alignEnd` are the columns before `alignStart` followed by the
span of the row. -/
theorem range_split_span (alignStart alignEnd : Nat) :
    ∃ l1, List.range (alignEnd + 1) = l1 ++ span alignStart alignEnd ∧
      ∀ j ∈ l1, j < alignStart := by
  by_cases h : alignStart ≤ alignEnd + 1
  · refine ⟨List.range alignStart, ?_, fun j hj => List.mem_range.mp hj⟩
    unfold span
    obtain ⟨n, hn⟩ : ∃ n, alignEnd + 1 = alignStart + n := ⟨alignEnd + 1 - alignStart, by omega⟩
    rw [hn, Nat.add_sub_cancel_left, List.range_eq_range', List.range_eq_range']
    have := List.range'_append 0 alignStart n 1
    simp only [Nat.one_mul, Nat.zero_add] at this
    rw [this, Nat.add_comm]
  · refine ⟨List.range (alignEnd + 1), ?_, fun j hj => ?_⟩
    · unfold span
      have : alignEnd + 1 - alignStart = 0 := by omega
      rw [this]
      simp
    · have := List.mem_range.mp hj
      omega

theorem mem_span_ge (alignStart alignEnd j : Nat) (h : j ∈ span alignStart alignEnd) :
    ¬ j < alignStart := by
  unfold span at h
  rw [List.mem_range'] at h
  obtain ⟨i, _, rfl⟩ := h
  omega

/-- The scores of the record of a row are the scores of the windows of its span, by
the formula of `specWindowScore`. -/
theorem summarizeRow_scores (consensus : Str) (row : Row) (r : SummaryRecord)
    (h : summarizeRow consensus row = .ok (some r)) :
    ∃ alignStart dots, startMatch row.alignment = some alignStart ∧
      endMatch row.alignment = some dots ∧
      r.scores = specScores
        (columnKinds consensus row.alignment alignStart (row.alignment.length - dots - 1)) := by
  unfold summarizeRow at h
  simp only at h
  split at h
  · exact absurd h (by simp)
  · split at h
    · rename_i alignStart dots hs he
      refine ⟨alignStart, dots, hs, he, ?_⟩
      simp only [Except.ok.injEq, Option.some.injEq] at h
      obtain ⟨l1, hsplit, hl1⟩ := range_split_span alignStart (row.alignment.length - dots - 1)
      rw [hsplit, List.foldl_append] at h
      have hb := scanStep_foldl_before consensus row.alignment alignStart l1 {} hl1
      have hsp := scanStep_foldl_span consensus row.alignment alignStart
        (span alignStart (row.alignment.length - dots - 1)) _ {}
        (fun j hj => mem_span_ge _ _ j hj) hb
      have hw := windowStep_foldl
        (columnKinds consensus row.alignment alignStart (row.alignment.length - dots - 1))
        {} [] ⟨rfl, rfl, rfl, rfl⟩
      unfold columnKinds at hw
      generalize (span alignStart (row.alignment.length - dots - 1)).foldl
        (scanStep consensus row.alignment alignStart 10)
        (l1.foldl (scanStep consensus row.alignment alignStart 10) {}) = st at h hsp
      have hscores : r.scores =
          if st.muts ≠ 0 ∨ st.del ≠ 0 ∨ st.ins ≠ 0 then st.scores ++ [windowScore 10 st]
          else st.scores := by
        rw [← h]
        simp only [Nat.cast_ofNat]
      clear h
      unfold specScores columnKinds
      generalize (List.map (fun j => colKind (charAt consensus j) (charAt row.alignment j))
        (span alignStart (row.alignment.length - dots - 1))) = ks at hw hsp ⊢
      generalize List.foldl (fun s k => windowStep k s) ({} : ScanState) ks = t at hw hsp
      generalize splitWindows ks [] = sw at hw ⊢
      obtain ⟨hw1, w1, w2, w3, _⟩ := hw
      obtain ⟨s1, s2, _, s4, s5⟩ := hsp
      have hscore := windowScore_spec st sw.2 (s1.trans w1) (s2.trans w2) (s4.trans w3)
      have hiff : ∀ k, List.count k sw.2 ≠ 0 ↔ k ∈ sw.2 := fun k => by
        rw [← List.count_pos_iff]; omega
      have hcond : (st.muts ≠ 0 ∨ st.del ≠ 0 ∨ st.ins ≠ 0) ↔
          (ColKind.mismatch ∈ sw.2 ∨ ColKind.deletion ∈ sw.2 ∨ ColKind.insertion ∈ sw.2) := by
        rw [s4, s2, s1, w1, w2, w3, hiff, hiff, hiff]
      have hsc : st.scores = sw.1.map specWindowScore := by
        rw [s5, hw1]; rfl
      rw [hscores, hsc, hscore]
      by_cases hc : ColKind.mismatch ∈ sw.2 ∨ ColKind.deletion ∈ sw.2 ∨ ColKind.insertion ∈ sw.2
      · rw [if_pos (hcond.2 hc), if_pos hc]
      · rw [if_neg (fun h => hc (hcond.1 h)), if_neg hc, List.append_nil]
    · exact absurd h (by simp)

/-- Every record of a summary is the record of one of the rows, against the
consensus of the alignment. -/
theorem toAlignmentSummary_record_row (self : SeedAlignment) (d : SummaryData)
    (h : toAlignmentSummary self = .ok d) (r : SummaryRecord) (hr : r ∈ d.alignments) :
    ∃ consensus row, generateConsensusFromAlignment2 self = .ok consensus ∧
      row ∈ self.alignments ∧ summarizeRow consensus row = .ok (some r) := by
  obtain ⟨consensus, hg, hall, _⟩ := toAlignmentSummary_records self d h
  have gen : ∀ (rows : List Row) (recs : List SummaryRecord),
      List.Forall₂ (fun row r => summarizeRow consensus row = .ok (some r)) rows recs →
      r ∈ recs → ∃ row, row ∈ rows ∧ summarizeRow consensus row = .ok (some r) := by
    intro rows recs hf
    induction hf with
    | nil => intro hmem; simp at hmem
    | cons hhead _ ih =>
      intro hmem
      rcases List.mem_cons.mp hmem with e | e
      · subst e
        exact ⟨_, List.mem_cons_self _ _, hhead⟩
      · obtain ⟨row, h1, h2⟩ := ih e
        exact ⟨row, List.mem_cons_of_mem _ h1, h2⟩
  obtain ⟨row, h1, h2⟩ := gen _ _ hall hr
  exact ⟨consensus, row, hg, (List.mem_filter.mp h1).1, h2⟩

theorem specScores_bounds (ks : List ColKind) : ∀ s ∈ specScores ks, 1 ≤ s ∧ s ≤ 10 := by
  intro s hs
  unfold specScores at hs
  rcases List.mem_append.mp hs with h | h
  · obtain ⟨w, _, rfl⟩ := List.mem_map.mp h
    exact specWindowScore_bounds w
  · split_ifs at h
    · rw [List.mem_singleton] at h
      subst h
      exact specWindowScore_bounds _
    · simp at h

/-- C20: in every record that `toAlignmentSummary` returns, the scores are those of
the windows of the span of the row (a window is closed at every tenth aligned
column; the last, partial window is scored when it holds a mismatch, a deletion or
an insertion), each being `max(1, 10 - (mismatches + deletions) - (1 if the window
holds an insertion))` over the columns of the window, the mismatches being the
aligned columns where the row character differs from the consensus symbol; every
score is between 1 and 10. -/
theorem summary_window_scores (self : SeedAlignment) (d : SummaryData)
    (h : toAlignmentSummary self = .ok d) :
    ∀ r ∈ d.alignments,
      (∃ consensus row alignStart dots,
        generateConsensusFromAlignment2 self = .ok consensus ∧ row ∈ self.alignments ∧
        summarizeRow consensus row = .ok (some r) ∧
        startMatch row.alignment = some alignStart ∧ endMatch row.alignment = some dots ∧
        r.scores = specScores
          (columnKinds consensus row.alignment alignStart (row.alignment.length - dots - 1))) ∧
      ∀ s ∈ r.scores, 1 ≤ s ∧ s ≤ 10 := by
  intro r hr
  obtain ⟨consensus, row, hg, hrow, hsum⟩ := toAlignmentSummary_record_row self d h r hr
  obtain ⟨alignStart, dots, hs, he, hsc⟩ := summarizeRow_scores consensus row r hsum
  refine ⟨⟨consensus, row, alignStart, dots, hg, hrow, hsum, hs, he, hsc⟩, ?_⟩
  rw [hsc]
  exact specScores_bounds _

/-- C20 on `sampleWindows`, whose second row has a mismatch in its first window and
a deletion in the partial one: both windows score 9. -/
theorem summary_window_scores_witness :
    toAlignmentSummary sampleWindows = .ok sampleWindowsSummary ∧
      specScores (columnKinds "ACGTACGTACGT".toList "ACGAACGTAC.T".toList 0 11) = [9, 9] ∧
      ∀ r ∈ sampleWindowsSummary.alignments,
        (∃ consensus row alignStart dots,
          generateConsensusFromAlignment2 sampleWindows = .ok consensus ∧
          row ∈ sampleWindows.alignments ∧
          summarizeRow consensus row = .ok (some r) ∧
          startMatch row.alignment = some alignStart ∧ endMatch row.alignment = some dots ∧
          r.scores = specScores
            (columnKinds consensus row.alignment alignStart (row.alignment.length - dots - 1))) ∧
        ∀ s ∈ r.scores, 1 ≤ s ∧ s ≤ 10 :=
  ⟨by decide, by decide, summary_window_scores sampleWindows sampleWindowsSummary (by decide)⟩

/-! ## Theorems: `model_start` and `model_end` of `toA2M` -/

/-- The column pass, started at column `pre.length`, leaves in `rfPos`, `modelStart`
and `modelEnd` the values of `a2mMarks`. -/
theorem a2mStep_foldl_marks (RF : Str) (rest : Str) :
    ∀ (pre : Str) (rfPos : Nat) (ms me : Int),
      ((List.range' pre.length rest.length).foldl (a2mStep RF)
            (⟨pre ++ rest, rfPos, ms, me⟩ : A2MState)).marks =
        a2mMarks (RF.drop pre.length) rest (rfPos, ms, me) := by
  induction rest with
  | nil => intro pre rfPos ms me; simp [a2mMarks, A2MState.marks]
  | cons c rest ih =>
    intro pre rfPos ms me
    have htail : (RF.drop pre.length).tail = RF.drop (pre.length + 1) := by
      simp [List.tail_drop]
    have hnext : ∀ (x : Char) (rfPos : Nat) (ms me : Int),
        ((List.range' (pre.length + 1) rest.length).foldl (a2mStep RF)
            (⟨pre ++ x :: rest, rfPos, ms, me⟩ : A2MState)).marks =
        a2mMarks (RF.drop pre.length).tail rest (rfPos, ms, me) := by
      intro x rfPos ms me
      have := ih (pre ++ [x]) rfPos ms me
      simp only [List.length_append, List.length_singleton, List.append_assoc,
        List.singleton_append] at this
      rw [htail]
      exact this
    simp only [List.length_cons, List.range'_succ, List.foldl_cons]
    have hbase : charAt (pre ++ c :: rest) pre.length = [c] := charAt_append_cons pre c rest
    have htake : (pre ++ c :: rest).take pre.length = pre := by simp
    have hdrop : (pre ++ c :: rest).drop (pre.length + 1) = rest := by simp
    by_cases hrf : (RF.drop pre.length).head? = some '.'
    · have hrf2 : charAt RF pre.length = ['.'] := (charAt_dot_iff RF pre.length).mpr hrf
      rw [a2mMarks, if_pos hrf]
      by_cases hc : c = '.'
      · subst hc
        have hstep : a2mStep RF (⟨pre ++ '.' :: rest, rfPos, ms, me⟩ : A2MState) pre.length =
            (⟨pre ++ '.' :: rest, rfPos, ms, me⟩ : A2MState) := by
          simp [a2mStep, hbase, hrf2]
        rw [hstep]
        exact hnext '.' rfPos ms me
      · have hstep : a2mStep RF (⟨pre ++ c :: rest, rfPos, ms, me⟩ : A2MState) pre.length =
            (⟨pre ++ lowerChar c :: rest, rfPos, ms, me⟩ : A2MState) := by
          simp [a2mStep, hbase, hrf2, hc, htake, hdrop]
        rw [hstep]
        exact hnext (lowerChar c) rfPos ms me
    · have hrf2 : ¬ charAt RF pre.length = ['.'] := fun h => hrf ((charAt_dot_iff RF pre.length).mp h)
      rw [a2mMarks, if_neg hrf]
      by_cases hc : c = '.'
      · subst hc
        have hstep : a2mStep RF (⟨pre ++ '.' :: rest, rfPos, ms, me⟩ : A2MState) pre.length =
            (⟨pre ++ '-' :: rest, rfPos + 1, ms, me⟩ : A2MState) := by
          simp [a2mStep, hbase, hrf2, htake, hdrop]
        rw [hstep, if_pos rfl]
        exact hnext '-' (rfPos + 1) ms me
      · rw [if_neg hc]
        by_cases hms : ms < 0
        · have hstep : a2mStep RF (⟨pre ++ c :: rest, rfPos, ms, me⟩ : A2MState) pre.length =
              (⟨pre ++ c :: rest, rfPos + 1, ((rfPos + 1 : Nat) : Int), ((rfPos + 1 : Nat) : Int)⟩ : A2MState) := by
            simp [a2mStep, hbase, hrf2, hc, hms]
          rw [hstep, if_pos hms]
          exact hnext c (rfPos + 1) _ _
        · have hstep : a2mStep RF (⟨pre ++ c :: rest, rfPos, ms, me⟩ : A2MState) pre.length =
              (⟨pre ++ c :: rest, rfPos + 1, ms, ((rfPos + 1 : Nat) : Int)⟩ : A2MState) := by
            simp [a2mStep, hbase, hrf2, hc, hms]
          rw [hstep, if_neg hms]
          exact hnext c (rfPos + 1) _ _

theorem a2mColumns_marks (RF s : Str) :
    (a2mColumns RF s).marks = a2mMarks RF s (0, -1, -1) := by
  have := a2mStep_foldl_marks RF s [] 0 (-1) (-1)
  simpa [a2mColumns, List.range_eq_range'] using this

theorem upperChar_dot (c : Char) : upperChar c = '.' ↔ c = '.' := by
  unfold upperChar Char.toUpper
  simp only
  split_ifs with h
  · constructor
    · intro he
      exfalso
      generalize c.toNat = n at h he
      obtain ⟨h1, h2⟩ := h
      interval_cases n <;> exact absurd he (by decide)
    · intro he; subst he; exact absurd h (by decide)
  · exact Iff.rfl

theorem upperChar_dash (c : Char) : upperChar c = '-' ↔ c = '-' := by
  unfold upperChar Char.toUpper
  simp only
  split_ifs with h
  · constructor
    · intro he
      exfalso
      generalize c.toNat = n at h he
      obtain ⟨h1, h2⟩ := h
      interval_cases n <;> exact absurd he (by decide)
    · intro he; subst he; exact absurd h (by decide)
  · exact Iff.rfl

/-- The normalised character of a row is the gap `.` exactly for the two gap glyphs. -/
theorem a2mNormalize_gap (c : Char) :
    (if upperChar c = '-' then '.' else upperChar c) = '.' ↔ (c = '.' ∨ c = '-') := by
  by_cases h : upperChar c = '-'
  · rw [if_pos h]
    exact ⟨fun _ => Or.inr ((upperChar_dash c).mp h), fun _ => rfl⟩
  · rw [if_neg h, upperChar_dot]
    exact ⟨Or.inl, fun h2 => h2.elim id (fun h3 => absurd ((upperChar_dash c).mpr h3) h)⟩

theorem ranksFrom_nil (n : Nat) : ranksFrom n [] = [] := rfl

theorem ranksFrom_true (n : Nat) (bs : List Bool) :
    ranksFrom n (true :: bs) = n :: ranksFrom (n + 1) bs := by
  simp [ranksFrom, List.enumFrom]

theorem ranksFrom_false (n : Nat) (bs : List Bool) :
    ranksFrom n (false :: bs) = ranksFrom (n + 1) bs := by
  simp [ranksFrom, List.enumFrom]

theorem ranksFrom_bounds (bs : List Bool) :
    ∀ n, ∀ k ∈ ranksFrom n bs, n ≤ k ∧ k < n + bs.length := by
  induction bs with
  | nil => intro n k hk; simp [ranksFrom_nil] at hk
  | cons b bs ih =>
    intro n k hk
    cases b
    · rw [ranksFrom_false] at hk
      have := ih (n + 1) k hk
      simp only [List.length_cons]
      omega
    · rw [ranksFrom_true] at hk
      rcases List.mem_cons.mp hk with e | e
      · subst e
        simp only [List.length_cons]
        omega
      · have := ih (n + 1) k e
        simp only [List.length_cons]
        omega

theorem ranksFrom_head_le (bs : List Bool) :
    ∀ n a, (ranksFrom n bs).head? = some a → ∀ k ∈ ranksFrom n bs, a ≤ k := by
  induction bs with
  | nil => intro n a h; simp [ranksFrom_nil] at h
  | cons b bs ih =>
    intro n a h k hk
    cases b
    · rw [ranksFrom_false] at h hk
      exact ih (n + 1) a h k hk
    · have hb := (ranksFrom_bounds (true :: bs) n k hk).1
      rw [ranksFrom_true] at h
      simp only [List.head?_cons, Option.some.injEq] at h
      omega

theorem ranksFrom_eq_nil (bs : List Bool) : ∀ n, ranksFrom n bs = [] ↔ true ∉ bs := by
  induction bs with
  | nil => intro n; simp [ranksFrom_nil]
  | cons b bs ih =>
    intro n
    cases b
    · rw [ranksFrom_false, ih (n + 1)]
      simp
    · rw [ranksFrom_true]
      simp

/-- The variables left by the column pass, in terms of the ranks of the bases of the
row among the match columns. -/
theorem a2mMarks_ranks (row : Str) :
    ∀ (RF : Str) (rfPos : Nat) (ms me : Int), row.length ≤ RF.length →
      a2mMarks RF (a2mNormalize row) (rfPos, ms, me) =
        (rfPos + (matchColumnBases RF row).length,
          if ms < 0 then
            (match (ranksFrom (rfPos + 1) (matchColumnBases RF row)).head? with
              | some k => (k : Int)
              | none => ms)
          else ms,
          match (ranksFrom (rfPos + 1) (matchColumnBases RF row)).getLast? with
            | some k => (k : Int)
            | none => me) := by
  induction row with
  | nil =>
    intro RF rfPos ms me _
    simp [a2mNormalize, a2mMarks, matchColumnBases, ranksFrom_nil]
  | cons c cs ih =>
    intro RF rfPos ms me hlen
    cases RF with
    | nil => simp at hlen
    | cons rf rfs =>
      have hl : cs.length ≤ rfs.length := by simpa using hlen
      rw [a2mNormalize_cons, a2mMarks]
      simp only [List.head?_cons, List.tail_cons, Option.some.injEq]
      by_cases hrf : rf = '.'
      · have hbs : matchColumnBases (rf :: rfs) (c :: cs) = matchColumnBases rfs cs := by
          simp [matchColumnBases, hrf]
        rw [if_pos hrf, hbs]
        exact ih rfs rfPos ms me hl
      · rw [if_neg hrf]
        by_cases hgap : c = '.' ∨ c = '-'
        · have hbs : matchColumnBases (rf :: rfs) (c :: cs) = false :: matchColumnBases rfs cs := by
            unfold matchColumnBases
            rw [List.zip_cons_cons, List.filter_cons_of_pos (by simpa using hrf), List.map_cons]
            congr 1
            simp only [decide_eq_false_iff_not]
            tauto
          rw [if_pos ((a2mNormalize_gap c).mpr hgap), hbs, ranksFrom_false, ih rfs (rfPos + 1) ms me hl]
          simp only [List.length_cons]
          congr 1
          omega
        · have hbs : matchColumnBases (rf :: rfs) (c :: cs) = true :: matchColumnBases rfs cs := by
            unfold matchColumnBases
            rw [List.zip_cons_cons, List.filter_cons_of_pos (by simpa using hrf), List.map_cons]
            congr 1
            simp only [decide_eq_true_eq]
            tauto
          rw [if_neg (fun h => hgap ((a2mNormalize_gap c).mp h)), hbs, ranksFrom_true,
            ih rfs (rfPos + 1) _ _ hl]
          simp only [List.length_cons, List.head?_cons]
          refine Prod.ext (by simp only; omega) (Prod.ext ?_ ?_)
          · simp only
            by_cases hms : ms < 0
            · have : ¬ (((rfPos + 1 : Nat) : Int) < 0) := by omega
              simp only [if_pos hms, if_neg this]
            · simp only [if_neg hms]
          · simp only
            cases hlast : (ranksFrom (rfPos + 1 + 1) (matchColumnBases rfs cs)).getLast? with
            | none =>
              have : ranksFrom (rfPos + 1 + 1) (matchColumnBases rfs cs) = [] :=
                List.getLast?_eq_none_iff.mp hlast
              rw [this]
              rfl
            | some k =>
              have hne : ranksFrom (rfPos + 1 + 1) (matchColumnBases rfs cs) ≠ [] := by
                intro h0; rw [h0] at hlast; simp at hlast
              obtain ⟨x, xs, hx⟩ := List.exists_cons_of_ne_nil hne
              rw [hx] at hlast ⊢
              rw [List.getLast?_cons_cons, hlast]

/-- The `model_start` and `model_end` of the record of a row of the length of the mask,
over ASCII letters, `.` and `-` (where `toUpperCase` is the mapping of `upperChar`). -/
theorem a2mRow_model (RF : Str) (row : Row) (hlen : row.alignment.length = RF.length)
    (_htext : IsA2MRowText row.alignment) :
    ∃ r, a2mRow RF (-1) row = .ok r ∧
      r.model_start = specModelStart RF row.alignment ∧
      r.model_end = specModelEnd RF row.alignment := by
  have hm := a2mColumns_marks RF (a2mNormalize row.alignment)
  rw [a2mMarks_ranks row.alignment RF 0 (-1) (-1) (by omega)] at hm
  unfold A2MState.marks at hm
  simp only [Prod.mk.injEq] at hm
  obtain ⟨_, h2, h3⟩ := hm
  unfold a2mRow
  simp only
  rw [if_neg (by omega)]
  refine ⟨_, rfl, ?_, ?_⟩
  · simp only [h2]
    unfold specModelStart baseRanks
    simp
  · simp only [h3]
    unfold specModelEnd baseRanks
    simp

theorem a2mRows_forall2 (RF : Str) (rows : List Row) :
    ∀ acc : List A2MRecord, ∃ recs, a2mRows RF (-1) rows acc = .ok (acc ++ recs) ∧
      List.Forall₂ (fun row r => a2mRow RF (-1) row = .ok r) rows recs := by
  induction rows with
  | nil => intro acc; exact ⟨[], by simp [a2mRows], List.Forall₂.nil⟩
  | cons row rows ih =>
    intro acc
    obtain ⟨r, hr, _⟩ := a2mRow_ok RF row
    obtain ⟨recs, hrecs, hall⟩ := ih (acc ++ [r])
    refine ⟨r :: recs, ?_, List.Forall₂.cons hr hall⟩
    simp only [a2mRows, hr]
    rw [hrecs]
    simp

theorem toA2M_rows (self : SeedAlignment) (RF : Str) (hmask : IsA2MMask self RF) :
    ∃ recs, toA2M self = .ok recs ∧
      List.Forall₂ (fun row r => a2mRow RF (-1) row = .ok r) self.alignments recs := by
  obtain ⟨recs, hrecs, hall⟩ := a2mRows_forall2 RF self.alignments []
  refine ⟨recs, ?_, hall⟩
  unfold toA2M
  rcases hmask with h | ⟨h, cons, hc, rfl⟩
  · rw [h]
    simpa using hrecs
  · rw [h]
    simp only [hc]
    simpa using hrecs

theorem matchColumnBases_length (RF row : Str) (hlen : row.length = RF.length) :
    (matchColumnBases RF row).length = (RF.filter (fun c => c ≠ '.')).length := by
  unfold matchColumnBases
  rw [List.length_map]
  have h1 : (List.zip RF row).map Prod.fst = RF := List.map_fst_zip _ _ (by omega)
  have h2 : ((List.zip RF row).filter (fun p => p.1 ≠ '.')).map Prod.fst =
      ((List.zip RF row).map Prod.fst).filter (fun c => c ≠ '.') := by
    rw [List.filter_map]
    rfl
  rw [← List.length_map _ Prod.fst, h2, h1]

theorem baseRanks_eq_nil (RF row : Str) : baseRanks RF row = [] ↔ ¬ HasMatchBase RF row := by
  unfold baseRanks HasMatchBase
  rw [ranksFrom_eq_nil]
  unfold matchColumnBases
  simp only [List.mem_map, List.mem_filter, decide_eq_true_eq, not_exists, not_and]
  constructor
  · intro h p hp h1 h2 h3
    exact h p ⟨hp, h1⟩ h2 h3
  · intro h p hp hb
    exact h p hp.1 hp.2 hb

/-- The two ranks are both -1 when the row has no base in a match column, and else
lie in order between 1 and the number of match columns. -/
theorem specModel_bounds (RF row : Str) (hlen : row.length = RF.length) :
    (¬ HasMatchBase RF row → specModelStart RF row = -1 ∧ specModelEnd RF row = -1) ∧
      (HasMatchBase RF row →
        1 ≤ specModelStart RF row ∧ specModelStart RF row ≤ specModelEnd RF row ∧
          specModelEnd RF row ≤ ((RF.filter (fun c => c ≠ '.')).length : Int)) := by
  constructor
  · intro h
    have := (baseRanks_eq_nil RF row).mpr h
    unfold specModelStart specModelEnd
    rw [this]
    exact ⟨rfl, rfl⟩
  · intro h
    have hne : baseRanks RF row ≠ [] := fun h0 => (baseRanks_eq_nil RF row).mp h0 h
    obtain ⟨a, ha⟩ : ∃ a, (baseRanks RF row).head? = some a := by
      cases hl : baseRanks RF row with
      | nil => exact absurd hl hne
      | cons x xs => exact ⟨x, rfl⟩
    obtain ⟨b, hb⟩ : ∃ b, (baseRanks RF row).getLast? = some b := by
      cases hl : (baseRanks RF row).getLast? with
      | none => exact absurd (List.getLast?_eq_none_iff.mp hl) hne
      | some b => exact ⟨b, rfl⟩
    have hbmem : b ∈ baseRanks RF row := List.mem_of_getLast?_eq_some hb
    have hamem : a ∈ baseRanks RF row := List.mem_of_mem_head? ha
    have hab := ranksFrom_head_le (matchColumnBases RF row) 1 a ha b hbmem
    have ha1 := (ranksFrom_bounds (matchColumnBases RF row) 1 a hamem).1
    have hb2 := (ranksFrom_bounds (matchColumnBases RF row) 1 b hbmem).2
    rw [matchColumnBases_length RF row hlen] at hb2
    unfold specModelStart specModelEnd
    rw [ha, hb]
    simp only
    omega

/-- C18: for rows of the length of the mask `RF` that `toA2M` uses, over ASCII letters,
`.` and `-` (the rows on which `toUpperCase` is the case mapping of `upperChar`; the
parser stores no other character), `toA2M` returns one record per row, in which
`model_start` and `model_end` are the 1-based ranks, counted among the match columns
of `RF` (characters other than `.`), of the first and the last match column in
which the row has a character other than the gaps `.` and `-`; both are -1 when the
row has no such column, and otherwise `1 <= model_start <= model_end <=` the number
of match columns. -/
theorem toA2M_model_range (self : SeedAlignment) (RF : Str) (hmask : IsA2MMask self RF)
    (hrows : ∀ row ∈ self.alignments,
      row.alignment.length = RF.length ∧ IsA2MRowText row.alignment) :
    ∃ recs, toA2M self = .ok recs ∧
      List.Forall₂ (fun row r =>
        r.model_start = specModelStart RF row.alignment ∧
        r.model_end = specModelEnd RF row.alignment ∧
        (¬ HasMatchBase RF row.alignment → r.model_start = -1 ∧ r.model_end = -1) ∧
        (HasMatchBase RF row.alignment →
          1 ≤ r.model_start ∧ r.model_start ≤ r.model_end ∧
            r.model_end ≤ ((RF.filter (fun c => c ≠ '.')).length : Int)))
        self.alignments recs := by
  obtain ⟨recs, hok, hall⟩ := toA2M_rows self RF hmask
  refine ⟨recs, hok, ?_⟩
  have gen : ∀ (rows : List Row) (rs : List A2MRecord),
      List.Forall₂ (fun row r => a2mRow RF (-1) row = .ok r) rows rs →
      (∀ row ∈ rows, row.alignment.length = RF.length ∧ IsA2MRowText row.alignment) →
      List.Forall₂ (fun row r =>
        r.model_start = specModelStart RF row.alignment ∧
        r.model_end = specModelEnd RF row.alignment ∧
        (¬ HasMatchBase RF row.alignment → r.model_start = -1 ∧ r.model_end = -1) ∧
        (HasMatchBase RF row.alignment →
          1 ≤ r.model_start ∧ r.model_start ≤ r.model_end ∧
            r.model_end ≤ ((RF.filter (fun c => c ≠ '.')).length : Int))) rows rs := by
    intro rows rs hf
    induction hf with
    | nil => intro _; exact List.Forall₂.nil
    | @cons row r rows2 rs2 hhead _ ih =>
      intro hl
      obtain ⟨hrl, htext⟩ := hl row (List.mem_cons_self _ _)
      obtain ⟨r2, hr2, hs, he⟩ := a2mRow_model RF row hrl htext
      have hrr : r2 = r := by
        rw [hr2] at hhead
        exact Except.ok.inj hhead
      subst hrr
      obtain ⟨b1, b2⟩ := specModel_bounds RF row.alignment hrl
      refine List.Forall₂.cons ⟨hs, he, ?_, ?_⟩ (ih (fun x hx => hl x (List.mem_cons_of_mem _ hx)))
      · rw [hs, he]; exact b1
      · rw [hs, he]; exact b2
  exact gen _ _ hall hrows

/-- C18 on `sampleA2M`, mask `xx..xx`: the row `.Cgt-T` has its bases in the match
columns 2 and 4, the row `..ac..` in none, the row `A....-` in the first only. -/
theorem toA2M_model_range_witness :
    (toA2M sampleA2M).map (fun recs => recs.map (fun r => (r.model_start, r.model_end))) =
        .ok [(2, 4), (-1, -1), (1, 1)] ∧
      ∃ recs, toA2M sampleA2M = .ok recs ∧
        List.Forall₂ (fun row r =>
          r.model_start = specModelStart "xx..xx".toList row.alignment ∧
          r.model_end = specModelEnd "xx..xx".toList row.alignment ∧
          (¬ HasMatchBase "xx..xx".toList row.alignment →
            r.model_start = -1 ∧ r.model_end = -1) ∧
          (HasMatchBase "xx..xx".toList row.alignment →
            1 ≤ r.model_start ∧ r.model_start ≤ r.model_end ∧
              r.model_end ≤ ((("xx..xx".toList).filter (fun c => c ≠ '.')).length : Int)))
          sampleA2M.alignments recs :=
  ⟨by decide, toA2M_model_range sampleA2M "xx..xx".toList (Or.inl (by decide)) (by decide)⟩

/-! ## Theorems: the choice of `toConsensus` in a column -/

theorem Tally.get_incr (t : Tally) (x k : Str) :
    (t.incr x).get k = if k = x then some ((t.get x).getD 0 + 1) else t.get k := by
  induction t with
  | nil =>
    by_cases h : k = x
    · subst h; simp [Tally.incr, Tally.get]
    · have h2 : ¬ x = k := fun e => h e.symm
      simp [Tally.incr, Tally.get, h, h2]
  | cons p t ih =>
    obtain ⟨k0, n⟩ := p
    by_cases h0 : k0 = x
    · subst h0
      by_cases h : k = k0
      · subst h; simp [Tally.incr, Tally.get]
      · have h2 : ¬ k0 = k := fun e => h e.symm
        simp [Tally.incr, Tally.get, h, h2]
    · by_cases h : k = x
      · subst h
        simp only [Tally.incr, h0, if_false, Tally.get, ih, if_true]
      · by_cases h1 : k0 = k
        · subst h1
          simp [Tally.incr, Tally.get, h]
        · simp only [Tally.incr, h0, if_false, Tally.get, h1, ih, h]

theorem Tally.keys_incr_eq (t : Tally) (x : Str) :
    (t.incr x).map Prod.fst =
      if x ∈ t.map Prod.fst then t.map Prod.fst else t.map Prod.fst ++ [x] := by
  induction t with
  | nil => simp [Tally.incr]
  | cons p t ih =>
    obtain ⟨k0, n⟩ := p
    by_cases h0 : k0 = x
    · subst h0
      simp [Tally.incr]
    · have h1 : ¬ x = k0 := fun e => h0 e.symm
      simp only [Tally.incr, h0, if_false, List.map_cons, ih, List.mem_cons, h1, false_or]
      split_ifs <;> simp

theorem Tally.mem_keys_of_get (t : Tally) (k : Str) (n : Nat) (h : t.get k = some n) :
    k ∈ t.map Prod.fst := by
  by_contra hn
  rw [Tally.get_eq_none t k hn] at h
  exact absurd h (by simp)

theorem firstIndex_append_of_mem (a : Str) (l m : List Str) (h : a ∈ l) :
    firstIndex a (l ++ m) = firstIndex a l := by
  induction l with
  | nil => simp at h
  | cons x xs ih =>
    by_cases hx : x = a
    · simp [firstIndex, hx]
    · have : a ∈ xs := by
        rcases List.mem_cons.mp h with e | e
        · exact absurd e.symm hx
        · exact e
      simp [firstIndex, hx, ih this]

theorem firstIndex_append_of_not_mem (a : Str) (l m : List Str) (h : a ∉ l) :
    firstIndex a (l ++ m) = l.length + firstIndex a m := by
  induction l with
  | nil => simp
  | cons x xs ih =>
    have hx : ¬ x = a := fun e => h (by simp [e])
    have h2 : a ∉ xs := fun e => h (List.mem_cons_of_mem _ e)
    simp [firstIndex, hx, ih h2]
    omega

theorem firstIndex_lt_length (a : Str) (l : List Str) (h : a ∈ l) :
    firstIndex a l < l.length := by
  induction l with
  | nil => simp at h
  | cons x xs ih =>
    by_cases hx : x = a
    · simp [firstIndex, hx]
    · have : a ∈ xs := by
        rcases List.mem_cons.mp h with e | e
        · exact absurd e.symm hx
        · exact e
      simp [firstIndex, hx, ih this]

/-- The tally of a column: every non-gap character of the column is a key, with the
number of its occurrences; the keys are in the order of their first occurrence. -/
theorem stepTally_foldl (col : List Str) :
    (∀ k, (col.foldl stepTally []).get k =
        if k ≠ ['.'] ∧ k ∈ col then some (col.count k) else none) ∧
      ((col.foldl stepTally []).map Prod.fst).Pairwise
        (fun a b => firstIndex a col < firstIndex b col) ∧
      (∀ k ∈ (col.foldl stepTally []).map Prod.fst, k ∈ col ∧ k ≠ ['.']) := by
  induction col using List.reverseRecOn with
  | nil => exact ⟨fun k => by simp [Tally.get], by simp, by simp⟩
  | append_singleton col x ih =>
    obtain ⟨ha, hb, hc⟩ := ih
    rw [List.foldl_append, List.foldl_cons, List.foldl_nil]
    generalize col.foldl stepTally [] = t at ha hb hc
    have hlift : (t.map Prod.fst).Pairwise
        (fun a b => firstIndex a (col ++ [x]) < firstIndex b (col ++ [x])) := by
      refine List.Pairwise.imp_of_mem ?_ hb
      intro a b hma hmb hab
      rw [firstIndex_append_of_mem _ _ _ (hc a hma).1, firstIndex_append_of_mem _ _ _ (hc b hmb).1]
      exact hab
    by_cases hx : x = ['.']
    · have ht : stepTally t x = t := by simp [stepTally, hx]
      rw [ht]
      refine ⟨?_, hlift, fun k hk => ⟨List.mem_append_left _ (hc k hk).1, (hc k hk).2⟩⟩
      intro k
      rw [ha k]
      by_cases hk : k = ['.']
      · simp [hk]
      · have hkx : ¬ x = k := fun e => hk (e ▸ hx)
        have hkx2 : ¬ k = x := fun e => hkx e.symm
        simp [hk, hkx, hkx2, List.count_append]
    · have ht : stepTally t x = t.incr x := by simp [stepTally, hx]
      rw [ht]
      refine ⟨?_, ?_, ?_⟩
      · intro k
        rw [Tally.get_incr]
        by_cases hk : k = x
        · subst hk
          rw [if_pos rfl, ha k]
          by_cases hm : k ∈ col
          · simp [hx, hm, List.count_append]
          · simp [hx, hm, List.count_append, List.count_eq_zero_of_not_mem hm]
        · have hkx : ¬ x = k := fun e => hk e.symm
          rw [if_neg hk, ha k]
          simp [hk, hkx, List.count_append]
      · rw [Tally.keys_incr_eq]
        by_cases hm : x ∈ t.map Prod.fst
        · rw [if_pos hm]
          exact hlift
        · rw [if_neg hm]
          have hxcol : x ∉ col := by
            intro hin
            have := ha x
            rw [if_pos ⟨hx, hin⟩] at this
            exact hm (Tally.mem_keys_of_get t x _ this)
          rw [List.pairwise_append]
          refine ⟨hlift, by simp, ?_⟩
          intro a hma b hmb
          rw [List.mem_singleton] at hmb
          subst hmb
          rw [firstIndex_append_of_mem _ _ _ (hc a hma).1, firstIndex_append_of_not_mem _ _ _ hxcol]
          have := firstIndex_lt_length _ _ (hc a hma).1
          omega
      · intro k hk
        rcases (Tally.keys_incr t x k).mp hk with h | h
        · exact ⟨List.mem_append_left _ (hc k h).1, (hc k h).2⟩
        · subst h
          exact ⟨by simp, hx⟩

theorem majorityPick_eq (t : Tally) (st : Nat × Str) (k : Str) :
    majorityPick t st k = if (t.get k).getD 0 > st.1 then ((t.get k).getD 0, k) else st := by
  unfold majorityPick
  cases h : t.get k with
  | none => simp
  | some n => simp

/-- The `forEach` of `toConsensus` over a list of keys: either no key has a count above
the initial `highCount`, or the result is the first key whose count is the
largest. -/
theorem majorityPick_first_max (t : Tally) (ks : List Str) :
    ∀ st : Nat × Str,
      (ks.foldl (majorityPick t) st = st ∧ ∀ k ∈ ks, (t.get k).getD 0 ≤ st.1) ∨
      (∃ pre post, ks = pre ++ (ks.foldl (majorityPick t) st).2 :: post ∧
        (ks.foldl (majorityPick t) st).1 = (t.get (ks.foldl (majorityPick t) st).2).getD 0 ∧
        st.1 < (ks.foldl (majorityPick t) st).1 ∧
        (∀ k ∈ pre, (t.get k).getD 0 < (ks.foldl (majorityPick t) st).1) ∧
        (∀ k ∈ post, (t.get k).getD 0 ≤ (ks.foldl (majorityPick t) st).1)) := by
  induction ks with
  | nil => intro st; exact Or.inl ⟨rfl, by simp⟩
  | cons k ks ih =>
    intro st
    rw [List.foldl_cons, majorityPick_eq]
    by_cases hgt : (t.get k).getD 0 > st.1
    · rw [if_pos hgt]
      rcases ih ((t.get k).getD 0, k) with ⟨h1, h2⟩ | ⟨pre, post, h1, h2, h3, h4, h5⟩
      · right
        refine ⟨[], ks, ?_, ?_, ?_, by simp, ?_⟩
        · rw [h1]; rfl
        · rw [h1]
        · rw [h1]; exact hgt
        · rw [h1]; exact h2
      · right
        refine ⟨k :: pre, post, ?_, h2, ?_, ?_, h5⟩
        · rw [List.cons_append, ← h1]
        · simp only at h3; omega
        · intro x hx
          rcases List.mem_cons.mp hx with e | e
          · subst e; exact h3
          · exact h4 x e
    · rw [if_neg hgt]
      rcases ih st with ⟨h1, h2⟩ | ⟨pre, post, h1, h2, h3, h4, h5⟩
      · left
        refine ⟨h1, ?_⟩
        intro x hx
        rcases List.mem_cons.mp hx with e | e
        · subst e; omega
        · exact h2 x e
      · right
        refine ⟨k :: pre, post, ?_, h2, h3, ?_, h5⟩
        · rw [List.cons_append, ← h1]
        · intro x hx
          rcases List.mem_cons.mp hx with e | e
          · subst e; omega
          · exact h4 x e

/-- The choice over the tally of a column whose keys `Object.keys` lists in
insertion order: the most frequent non-gap character, the first in the column among
the most frequent ones. -/
theorem majorityPick_column (col : List Str) (hne : ∃ b ∈ col, b ≠ ['.'])
    (hkeys : objectKeys (col.foldl stepTally []) = (col.foldl stepTally []).map Prod.fst) :
    IsMajorityBase col
      ((objectKeys (col.foldl stepTally [])).foldl (majorityPick (col.foldl stepTally [])) (0, [])).2 := by
  obtain ⟨ha, hb, hc⟩ := stepTally_foldl col
  rw [hkeys]
  generalize col.foldl stepTally [] = t at ha hb hc
  have hcnt : ∀ k ∈ col, k ≠ ['.'] → (t.get k).getD 0 = col.count k ∧ k ∈ t.map Prod.fst := by
    intro k hk hd
    have := ha k
    rw [if_pos ⟨hd, hk⟩] at this
    exact ⟨by rw [this]; rfl, Tally.mem_keys_of_get t k _ this⟩
  obtain ⟨b0, hb0, hb0d⟩ := hne
  rcases majorityPick_first_max t (t.map Prod.fst) (0, []) with ⟨_, h2⟩ | ⟨pre, post, h1, h2, _, h4, h5⟩
  · exfalso
    obtain ⟨e1, e2⟩ := hcnt b0 hb0 hb0d
    have := h2 b0 e2
    rw [e1] at this
    have hpos : 0 < col.count b0 := List.count_pos_iff.mpr hb0
    simp only at this
    omega
  · generalize (t.map Prod.fst).foldl (majorityPick t) (0, []) = r at h1 h2 h4 h5
    have hrmem : r.2 ∈ t.map Prod.fst := by rw [h1]; simp
    obtain ⟨hr1, hr2⟩ := hc r.2 hrmem
    have hrc := (hcnt r.2 hr1 hr2).1
    refine ⟨hr1, hr2, ?_⟩
    intro b2 hb2 hb2d
    obtain ⟨e1, e2⟩ := hcnt b2 hb2 hb2d
    rw [h1] at e2 hb
    rw [h2, hrc] at h4 h5
    rcases List.mem_append.mp e2 with hp | hp
    · have := h4 b2 hp
      rw [e1] at this
      exact ⟨by omega, fun heq => by omega⟩
    · rcases List.mem_cons.mp hp with hp | hp
      · rw [hp]
        exact ⟨Nat.le_refl _, fun _ => Nat.le_refl _⟩
      · have := h5 b2 hp
        rw [e1] at this
        refine ⟨this, fun _ => ?_⟩
        have hpw := (List.pairwise_append.mp hb).2.1
        have := (List.pairwise_cons.mp hpw).1 b2 hp
        omega

/-- Column `j` of `colData` after the loops of `toConsensus` over the rows is the tally
of the column, when `j` is a column of every row. -/
theorem majorityTally_value (j : Nat) (rows : List Row)
    (hrows : ∀ row ∈ rows, j < row.alignment.length) :
    ∀ cd : ColData, rows ≠ [] →
      (rows.foldl
          (fun cd row =>
            (List.range row.alignment.length).foldl (majorityTallyStep row.alignment) cd) cd) j
        = some ((columnOf rows j).foldl stepTally ((cd j).getD [])) := by
  induction rows with
  | nil => intro cd h; exact absurd rfl h
  | cons row rows ih =>
    intro cd _
    have hj : j < row.alignment.length := hrows row (List.mem_cons_self _ _)
    have hrows2 : ∀ r ∈ rows, j < r.alignment.length :=
      fun r hr => hrows r (List.mem_cons_of_mem _ hr)
    have hcol : ((List.range row.alignment.length).foldl (majorityTallyStep row.alignment) cd) j =
        some (stepTally ((cd j).getD []) (charAt row.alignment j)) := by
      rw [majorityTallyStep_foldl, if_pos hj]
    rw [List.foldl_cons]
    by_cases hr : rows = []
    · subst hr
      simp only [List.foldl_nil, hcol, columnOf, List.map_cons, List.map_nil, List.foldl_cons]
    · rw [ih hrows2 _ hr, hcol]
      simp only [Option.getD_some, columnOf, List.map_cons, List.foldl_cons]

theorem majorityBase_eq (j : Nat) (rows : List Row) (hne : rows ≠ [])
    (hrows : ∀ row ∈ rows, j < row.alignment.length) :
    majorityTally rows j = some ((columnOf rows j).foldl stepTally []) ∧
    majorityBase rows j =
      ((objectKeys ((columnOf rows j).foldl stepTally [])).foldl
        (majorityPick ((columnOf rows j).foldl stepTally [])) (0, [])).2 := by
  have h := majorityTally_value j rows hrows ColData.empty hne
  have h2 : majorityTally rows j = some ((columnOf rows j).foldl stepTally []) := by
    unfold majorityTally
    rw [h]
    rfl
  refine ⟨h2, ?_⟩
  unfold majorityBase
  rw [h2]

/-- The loop of `toConsensus` over positions that are columns of every row appends,
position by position, the base of the column for a position marked `x` and
nothing else. -/
theorem majorityLoop_flatMap (RF : Str) (rows : List Row) (hne : rows ≠ [])
    (l : List Nat) (hl : ∀ j ∈ l, ∀ row ∈ rows, j < row.alignment.length) :
    ∀ consensus : Str, majorityLoop RF (majorityTally rows) l consensus =
      .ok (consensus ++
        l.flatMap (fun j => if charAt RF j = ['x'] then majorityBase rows j else [])) := by
  induction l with
  | nil => intro consensus; simp [majorityLoop]
  | cons j l ih =>
    intro consensus
    have hl2 : ∀ k ∈ l, ∀ row ∈ rows, k < row.alignment.length :=
      fun k hk => hl k (List.mem_cons_of_mem _ hk)
    obtain ⟨ht, hbase⟩ := majorityBase_eq j rows hne (hl j (List.mem_cons_self _ _))
    by_cases hx : charAt RF j = ['x']
    · have hstep : majorityStep RF (majorityTally rows) consensus j =
          .ok (consensus ++ majorityBase rows j) := by
        unfold majorityStep
        rw [if_pos hx, ht, hbase]
      simp only [majorityLoop, hstep, ih hl2, List.flatMap_cons, hx, if_true, List.append_assoc]
    · have hstep : majorityStep RF (majorityTally rows) consensus j = .ok consensus := by
        unfold majorityStep
        rw [if_neg hx]
      simp only [majorityLoop, hstep, ih hl2, List.flatMap_cons, hx, if_false, List.nil_append]

/-- With keys that are one character of the alignment alphabet, `Object.keys` lists
the keys in insertion order: none of them is integer-like. -/
theorem objectKeys_aln (t : Tally)
    (ht : ∀ k ∈ t.map Prod.fst, ∃ c, isAlnChar c = true ∧ k = [c]) :
    objectKeys t = t.map Prod.fst := by
  have hmemA : ∀ k ∈ t.map Prod.fst,
      k ∈ "ACGTUMRWSYKVHDBNacgtumrwsykvhdbn.".toList.map (fun c => [c]) := by
    intro k hk
    obtain ⟨c, hc, rfl⟩ := ht k hk
    have : c ∈ "ACGTUMRWSYKVHDBNacgtumrwsykvhdbn.".toList := by
      simpa [isAlnChar] using hc
    exact List.mem_map_of_mem _ this
  unfold objectKeys
  have h1 : ("0123456789".toList.map (fun d => [d])).filter (fun k => (t.get k).isSome) = [] := by
    rw [List.filter_eq_nil_iff]
    intro k hk
    have hnot : k ∉ "ACGTUMRWSYKVHDBNacgtumrwsykvhdbn.".toList.map (fun c => [c]) := by
      revert k
      decide
    have : t.get k = none := Tally.get_eq_none t k (fun hm => hnot (hmemA k hm))
    simp [this]
  have h2 : (t.map Prod.fst).filter (fun k => !(k.length = 1 && k.all isDigit)) = t.map Prod.fst := by
    rw [List.filter_eq_self]
    intro k hk
    have hall : ∀ k ∈ "ACGTUMRWSYKVHDBNacgtumrwsykvhdbn.".toList.map (fun c => [c]),
        (!(decide (k.length = 1) && k.all isDigit)) = true := by
      decide
    exact hall k (hmemA k hk)
  rw [h1, h2]
  rfl

/-- C15: for an alignment with at least one row, every row of the length of `headers.RF`
and over the alignment alphabet and `.`, `toConsensus` returns the concatenation, over
the positions of `RF` marked `x`, of the string `majorityBase` of the column; and
for a column marked `x` in which some row has a character other than `.`, that
string is one character, which occurs in the column, is no gap, occurs at least as
often as every non-gap character of the column and, among those occurring as often,
is the one whose first occurrence in row order is the earliest. -/
theorem toConsensus_majority (self : SeedAlignment) (RF : Str)
    (hRF : getHeader self.headers "RF".toList = some RF)
    (hne : self.alignments ≠ [])
    (hrows : ∀ row ∈ self.alignments,
      row.alignment.length = RF.length ∧ ∀ c ∈ row.alignment, isAlnChar c = true) :
    toConsensus self = .ok ((List.range RF.length).flatMap
        (fun j => if charAt RF j = ['x'] then majorityBase self.alignments j else [])) ∧
      ∀ j, j < RF.length → charAt RF j = ['x'] →
        (∃ b ∈ columnOf self.alignments j, b ≠ ['.']) →
        (∃ c, majorityBase self.alignments j = [c]) ∧
          IsMajorityBase (columnOf self.alignments j) (majorityBase self.alignments j) := by
  have hlt : ∀ j, j < RF.length → ∀ row ∈ self.alignments, j < row.alignment.length := by
    intro j hj row hrow
    rw [(hrows row hrow).1]
    exact hj
  constructor
  · unfold toConsensus
    rw [hRF]
    have := majorityLoop_flatMap RF self.alignments hne (List.range RF.length)
      (fun j hj => hlt j (List.mem_range.mp hj)) []
    simpa using this
  · intro j hj _ hbase
    obtain ⟨_, hb⟩ := majorityBase_eq j self.alignments hne (hlt j hj)
    have hcol : ∀ k ∈ columnOf self.alignments j, ∃ c, isAlnChar c = true ∧ k = [c] := by
      intro k hk
      unfold columnOf at hk
      obtain ⟨row, hrow, rfl⟩ := List.mem_map.mp hk
      have hjr := hlt j hj row hrow
      exact ⟨row.alignment[j], (hrows row hrow).2 _ (List.getElem_mem _),
        charAt_eq_getElem row.alignment j hjr⟩
    have hkeys : objectKeys ((columnOf self.alignments j).foldl stepTally []) =
        ((columnOf self.alignments j).foldl stepTally []).map Prod.fst :=
      objectKeys_aln _ (fun k hk => hcol k ((stepTally_foldl _).2.2 k hk).1)
    have hmaj := majorityPick_column (columnOf self.alignments j) hbase hkeys
    rw [← hb] at hmaj
    refine ⟨?_, hmaj⟩
    obtain ⟨c, _, hc⟩ := hcol _ hmaj.1
    exact ⟨c, hc⟩

/-- C15 on `sampleMajority`: the consensus is `ACT`; column 0 holds `A`, `C` and a gap, and
`A`, which comes first, is chosen. -/
theorem toConsensus_majority_witness :
    toConsensus sampleMajority = .ok "ACT".toList ∧
      columnOf sampleMajority.alignments 0 = [['A'], ['C'], ['.']] ∧
      majorityBase sampleMajority.alignments 0 = ['A'] ∧
      IsMajorityBase (columnOf sampleMajority.alignments 0)
        (majorityBase sampleMajority.alignments 0) :=
  ⟨by decide, by decide, by decide,
    ((toConsensus_majority sampleMajority "xx.x".toList (by decide) (by decide) (by decide)).2
      0 (by decide) (by decide) ⟨['A'], by decide, by decide⟩).2⟩

/-! ## Theorems: the choice of `generateConsensusFromAlignment2` in a column -/

theorem matrixAt_isSome :
    ∀ j, j < 14 → ∀ k ∈ alphabet_r, (matrixAt j (alphabet_h k)).isSome = true := by
  decide

theorem matrixAt_some (j : Nat) (hj : j < 14) (k : Str) (hk : k ∈ alphabet_r) :
    ∃ m, matrixAt j (alphabet_h k) = some m :=
  Option.isSome_iff_exists.mp (matrixAt_isSome j hj k hk)

theorem Tally.get_of_nodup (t : Tally) (hnd : (t.map Prod.fst).Nodup) :
    ∀ p ∈ t, t.get p.1 = some p.2 := by
  induction t with
  | nil => intro p hp; simp at hp
  | cons q t ih =>
    obtain ⟨k, n⟩ := q
    have hnd2 : (t.map Prod.fst).Nodup := (List.nodup_cons.mp hnd).2
    have hnot : k ∉ t.map Prod.fst := (List.nodup_cons.mp hnd).1
    intro p hp
    rcases List.mem_cons.mp hp with e | e
    · subst e
      simp [Tally.get]
    · have hne : ¬ k = p.1 := fun h => hnot (h ▸ List.mem_map_of_mem Prod.fst e)
      simp only [Tally.get, hne, if_false]
      exact ih hnd2 p e

/-- The `forEach` that sums a score, over keys of the matrix alphabet. -/
theorem scoreStep_foldl_sum (t : Tally) (j : Nat) (hj : j < 14) (ks : List Str)
    (hks : ∀ k ∈ ks, k ∈ alphabet_r ∧ ∃ n, t.get k = some n) :
    ∀ s : Int, ks.foldl (scoreStep t j) (some s) =
      some (s + (ks.map (fun k =>
        (((t.get k).getD 0 : Nat) : Int) * (matrixAt j (alphabet_h k)).getD 0)).sum) := by
  induction ks with
  | nil => intro s; simp
  | cons k ks ih =>
    intro s
    obtain ⟨hk, n, hn⟩ := hks k (List.mem_cons_self _ _)
    obtain ⟨m, hm⟩ := matrixAt_some j hj k hk
    have hstep : scoreStep t j (some s) k = some (s + (n : Int) * m) := by
      simp [scoreStep, hn, hm]
    rw [List.foldl_cons, hstep, ih (fun x hx => hks x (List.mem_cons_of_mem _ hx))]
    simp only [List.map_cons, List.sum_cons, hn, hm, Option.getD_some]
    congr 1
    ring

/-- The score that the code computes for a candidate is the sum of the specification. -/
theorem candidateScore_spec (t : Tally) (ht : TallyA t) (j : Nat) (hj : j < 14) :
    candidateScore t j = some (specScore t j) := by
  unfold candidateScore
  rw [objectKeys_alpha t ht.2, scoreStep_foldl_sum t j hj]
  · unfold specScore
    rw [List.map_map]
    congr 1
    rw [Int.zero_add]
    congr 1
    apply List.map_congr_left
    intro p hp
    simp only [Function.comp, Tally.get_of_nodup t ht.1 p hp, Option.getD_some]
  · intro k hk
    refine ⟨ht.2 k hk, ?_⟩
    obtain ⟨p, hp, rfl⟩ := List.mem_map.mp hk
    exact Tally.get_of_mem t p hp

/-- The loop over the candidates `0, ..., n - 1`: `maxScore` is the largest score met (or
its initial value), and `highBase` is either left alone or the candidate of the last
index that raised the maximum or tied it as one of `A`, `C`, `G`, `T`. -/
theorem pickStep_range (t : Tally)
    (hsc : ∀ j, j < 14 → candidateScore t j = some (specScore t j)) (st : Int × Option Str) :
    ∀ n, n ≤ 14 →
      st.1 ≤ ((List.range n).foldl (pickStep t) st).1 ∧
      (∀ j, j < n → specScore t j ≤ ((List.range n).foldl (pickStep t) st).1) ∧
      (((List.range n).foldl (pickStep t) st = st ∧
          ∀ j, j < n → specScore t j < st.1 ∨
            (specScore t j = st.1 ∧ isACGT (alphabet_r.getD j []) = false)) ∨
        (∃ i, i < n ∧
          (List.range n).foldl (pickStep t) st = (specScore t i, some (alphabet_r.getD i [])) ∧
          (∀ j, i < j → j < n → specScore t j < specScore t i ∨
            (specScore t j = specScore t i ∧ isACGT (alphabet_r.getD j []) = false)) ∧
          (isACGT (alphabet_r.getD i []) = true ∨
            (st.1 < specScore t i ∧ ∀ j, j < i → specScore t j < specScore t i)))) := by
  intro n
  induction n with
  | zero =>
    intro _
    refine ⟨Int.le_refl _, fun j hj => absurd hj (Nat.not_lt_zero _), Or.inl ⟨rfl, fun j hj => absurd hj (Nat.not_lt_zero _)⟩⟩
  | succ n ih =>
    intro hn
    obtain ⟨h1, h2, h3⟩ := ih (by omega)
    rw [List.range_succ, List.foldl_append, List.foldl_cons, List.foldl_nil]
    generalize (List.range n).foldl (pickStep t) st = r at h1 h2 h3
    have hstep : pickStep t r n =
        if specScore t n = r.1 ∧ isACGT (alphabet_r.getD n []) = true then
          (r.1, some (alphabet_r.getD n []))
        else if specScore t n > r.1 then (specScore t n, some (alphabet_r.getD n []))
        else r := by
      unfold pickStep
      simp only [hsc n (by omega)]
    rw [hstep]
    by_cases htie : specScore t n = r.1 ∧ isACGT (alphabet_r.getD n []) = true
    · rw [if_pos htie]
      refine ⟨h1, ?_, Or.inr ⟨n, by omega, ?_, ?_, Or.inl htie.2⟩⟩
      · intro j hj
        rcases Nat.lt_succ_iff_lt_or_eq.mp hj with h | h
        · exact h2 j h
        · subst h; exact Int.le_of_eq htie.1
      · rw [htie.1]
      · intro j h4 h5; omega
    · rw [if_neg htie]
      by_cases hgt : specScore t n > r.1
      · rw [if_pos hgt]
        refine ⟨by simp only; omega, ?_, Or.inr ⟨n, by omega, rfl, ?_, Or.inr ⟨by omega, ?_⟩⟩⟩
        · intro j hj
          rcases Nat.lt_succ_iff_lt_or_eq.mp hj with h | h
          · have := h2 j h
            simp only
            omega
          · subst h; exact Int.le_refl _
        · intro j h4 h5; omega
        · intro j hj
          have := h2 j hj
          omega
      · rw [if_neg hgt]
        have hn2 : specScore t n < r.1 ∨
            (specScore t n = r.1 ∧ isACGT (alphabet_r.getD n []) = false) := by
          by_cases he : specScore t n = r.1
          · right
            refine ⟨he, ?_⟩
            cases hb : isACGT (alphabet_r.getD n [])
            · rfl
            · exact absurd ⟨he, hb⟩ htie
          · left; omega
        refine ⟨h1, ?_, ?_⟩
        · intro j hj
          rcases Nat.lt_succ_iff_lt_or_eq.mp hj with h | h
          · exact h2 j h
          · subst h; omega
        · rcases h3 with ⟨e, h5⟩ | ⟨i, hi, e, h5, h6⟩
          · left
            refine ⟨e, ?_⟩
            intro j hj
            rcases Nat.lt_succ_iff_lt_or_eq.mp hj with h | h
            · exact h5 j h
            · subst h
              rw [e] at hn2
              exact hn2
          · right
            refine ⟨i, by omega, e, ?_, h6⟩
            intro j h7 h8
            rcases Nat.lt_succ_iff_lt_or_eq.mp h8 with h | h
            · exact h5 j h7 h
            · subst h
              rw [e] at hn2
              exact hn2

theorem isACGT_iff : ∀ j, j < 14 → (isACGT (alphabet_r.getD j []) = true ↔ alphabet_r.getD j [] ∈ acgt) := by
  decide

/-- The loop over the 14 candidates, for a column over the matrix alphabet in which
some score exceeds the initial maximum. -/
theorem pickColumn_spec (t : Tally) (highBase : Option Str) (ht : TallyA t)
    (hbig : ∃ j, j < 14 ∧ -1000000000 < specScore t j) :
    ∃ i, i < 14 ∧ pickColumn t highBase = (specScore t i, some (alphabet_r.getD i [])) ∧
      (∀ j, j < 14 → specScore t j ≤ specScore t i) ∧
      ((∃ j, j < 14 ∧ alphabet_r.getD j [] ∈ acgt ∧ specScore t j = specScore t i) →
        alphabet_r.getD i [] ∈ acgt) ∧
      ((¬ ∃ j, j < 14 ∧ alphabet_r.getD j [] ∈ acgt ∧ specScore t j = specScore t i) →
        ∀ j, j < i → specScore t j < specScore t i) := by
  have hsc : ∀ j, j < 14 → candidateScore t j = some (specScore t j) :=
    fun j hj => candidateScore_spec t ht j hj
  obtain ⟨_, h2, h3⟩ := pickStep_range t hsc (-1000000000, highBase) 14 (Nat.le_refl _)
  have hlen : alphabet_r.length = 14 := rfl
  unfold pickColumn
  rw [hlen]
  rcases h3 with ⟨_, h5⟩ | ⟨i, hi, e, h5, h6⟩
  · exfalso
    obtain ⟨j, hj, hgt⟩ := hbig
    have := h5 j hj
    simp only at this
    omega
  · rw [e] at h2
    simp only at h2
    refine ⟨i, hi, e, h2, ?_, ?_⟩
    · rintro ⟨j, hj, hja, hje⟩
      rcases h6 with h | ⟨_, h⟩
      · exact (isACGT_iff i hi).mp h
      · by_cases hji : j < i
        · have := h j hji
          omega
        · by_cases hij : i = j
          · subst hij
            exact hja
          · have := h5 j (by omega) hj
            have hja2 := (isACGT_iff j hj).mpr hja
            rcases this with h7 | ⟨_, h7⟩
            · omega
            · rw [hja2] at h7
              exact absurd h7 (by simp)
    · intro hno
      rcases h6 with h | ⟨_, h⟩
      · exact absurd ⟨i, hi, (isACGT_iff i hi).mp h, rfl⟩ hno
      · exact h

/-- A column with fewer than `10^9 / 17` characters has a score above the initial maximum:
that of the candidate `A`. -/
theorem specScore_A_big (t : Tally) (ht : TallyA t) (hsmall : 17 * t.total < 1000000000) :
    ∃ j, j < 14 ∧ -1000000000 < specScore t j := by
  obtain ⟨s, hs, hle⟩ := candidateScore_A t ht
  rw [candidateScore_spec t ht 0 (by omega)] at hs
  simp only [Option.some.injEq] at hs
  subst hs
  refine ⟨0, by omega, ?_⟩
  have : (17 : Int) * (t.total : Int) < 1000000000 := by exact_mod_cast hsmall
  linarith

theorem cpgPass_single : ∀ b ∈ alphabet_r, ∀ aligns : List Row, cpgPass aligns b = .ok b := by
  intro b hb aligns
  simp only [alphabet_r, String.toList, List.map_cons, List.map_nil, List.mem_cons,
    List.mem_singleton, List.not_mem_nil, or_false] at hb
  rcases hb with h | h | h | h | h | h | h | h | h | h | h | h | h | h <;> subst h <;> rfl

theorem singleColumnTally_foldl (rows : List Str) (hrows : ∀ a ∈ rows, a ∈ alphabet_r) :
    ∀ t : Tally, TallyA t →
      TallyA (rows.foldl Tally.incr t) ∧ (rows.foldl Tally.incr t).total = t.total + rows.length := by
  induction rows with
  | nil => intro t ht; exact ⟨ht, rfl⟩
  | cons a rows ih =>
    intro t ht
    rw [List.foldl_cons]
    obtain ⟨h1, h2⟩ := ih (fun x hx => hrows x (List.mem_cons_of_mem _ hx)) (t.incr a)
      (Tally.incr_A t a ht (hrows a (List.mem_cons_self _ _)))
    refine ⟨h1, ?_⟩
    rw [h2, Tally.total_incr, List.length_cons]
    omega

theorem tallyRow_single (cd : ColData) (row : Row) (c : Char) (hrow : row.alignment = [c])
    (hc : c ≠ '.') :
    ∃ cd1, tallyRow cd row = .ok cd1 ∧ cd1 0 = some (((cd 0).getD []).incr row.alignment) := by
  obtain ⟨cd1, h1, h2⟩ := tallyRow_apply cd row ⟨c, by rw [hrow]; simp, hc⟩
  refine ⟨cd1, h1, ?_⟩
  have hcov : covers row 0 = true := by
    unfold covers startMatch endMatch
    rw [hrow]
    simp [hc]
  have hch : charAt row.alignment 0 = row.alignment := by
    rw [hrow]
    rfl
  rw [h2 0, if_pos hcov, hch]

theorem tallyRows_single (rows : List Row)
    (hrows : ∀ row ∈ rows, ∃ c, row.alignment = [c] ∧ c ≠ '.') :
    ∀ cd : ColData, rows ≠ [] → ∃ cd2, tallyRows rows cd = .ok cd2 ∧
      cd2 0 = some ((rows.map (fun row => row.alignment)).foldl Tally.incr ((cd 0).getD [])) := by
  induction rows with
  | nil => intro cd h; exact absurd rfl h
  | cons row rows ih =>
    intro cd _
    obtain ⟨c, hrow, hc⟩ := hrows row (List.mem_cons_self _ _)
    obtain ⟨cd1, h1, h2⟩ := tallyRow_single cd row c hrow hc
    by_cases hr : rows = []
    · subst hr
      exact ⟨cd1, by simp [tallyRows, h1], by simp [h2]⟩
    · obtain ⟨cd2, h3, h4⟩ := ih (fun x hx => hrows x (List.mem_cons_of_mem _ hx)) cd1 hr
      refine ⟨cd2, by simp [tallyRows, h1, h3], ?_⟩
      rw [h4, h2]
      simp

/-- For rows of width 1, each one matrix symbol other than `.`, fewer than `10^9 / 17` of
them, the result of `generateConsensusFromAlignment2` is the symbol chosen for the
only column. -/
theorem generateConsensus_single (self : SeedAlignment) (hne : self.alignments ≠ [])
    (hsmall : 17 * self.alignments.length < 1000000000)
    (hrows : ∀ row ∈ self.alignments, row.alignment ∈ alphabet_r ∧ row.alignment ≠ ['.']) :
    TallyA (singleColumnTally self.alignments) ∧
      (∃ j, j < 14 ∧ -1000000000 < specScore (singleColumnTally self.alignments) j) ∧
      ∃ b, (pickColumn (singleColumnTally self.alignments) none).2 = some b ∧
        generateConsensusFromAlignment2 self = .ok b := by
  have hA : TallyA (singleColumnTally self.alignments) ∧
      (singleColumnTally self.alignments).total = self.alignments.length := by
    have := singleColumnTally_foldl (self.alignments.map (fun row => row.alignment))
      (by
        intro a ha
        obtain ⟨row, hrow, rfl⟩ := List.mem_map.mp ha
        exact (hrows row hrow).1) [] ⟨by simp, by simp⟩
    refine ⟨this.1, ?_⟩
    unfold singleColumnTally
    rw [this.2]
    simp [Tally.total]
  have hbig := specScore_A_big _ hA.1 (by rw [hA.2]; exact hsmall)
  refine ⟨hA.1, hbig, ?_⟩
  obtain ⟨i, hi, e, _⟩ := pickColumn_spec _ none hA.1 hbig
  have hsingle : ∀ row ∈ self.alignments, ∃ c, row.alignment = [c] ∧ c ≠ '.' := by
    intro row hrow
    obtain ⟨h1, h2⟩ := hrows row hrow
    have hl := (alphabet_r_symbol _ h1).1
    match hr : row.alignment, hl with
    | [c], _ =>
      refine ⟨c, rfl, ?_⟩
      intro hc
      rw [hr, hc] at h2
      exact h2 rfl
  obtain ⟨cd2, hcd, hcol⟩ := tallyRows_single self.alignments hsingle ColData.empty hne
  have hcol2 : cd2 0 = some (singleColumnTally self.alignments) := by
    rw [hcol]
    rfl
  refine ⟨alphabet_r.getD i [], by rw [e], ?_⟩
  cases hal : self.alignments with
  | nil => exact absurd hal hne
  | cons row0 rest =>
    obtain ⟨c, hrow0, _⟩ := hsingle row0 (by rw [hal]; exact List.mem_cons_self _ _)
    unfold generateConsensusFromAlignment2 columnConsensus
    rw [hcd]
    simp only [hal, scoreColumns, hrow0, List.length_singleton]
    rw [← hal]
    have hstep : ((List.range 1).foldl (columnStep cd2) ([], none)).1 = alphabet_r.getD i [] := by
      simp only [List.range_succ, List.range_zero, List.nil_append, List.foldl_cons,
        List.foldl_nil, columnStep, hcol2, e, appendBase, Option.getD_some]
    rw [hstep]
    exact cpgPass_single _ (alphabet_r_getD i hi) self.alignments

/-- The initial `maxScore = -1000000000` is a finite number: on a tally of 400000000
characters `Z` (more rows than an alignment in memory can have) the 14 scores are
-1200000000 (thirteen times) and -2400000000, none exceeds it, no candidate is
chosen, `highBase` stays `undefined` and the text `undefined` is appended. -/
theorem pickColumn_sentinel :
    (∀ k ∈ hugeColumn.map Prod.fst, k ∈ alphabet_r) ∧
      (List.range 14).map (candidateScore hugeColumn) =
        List.replicate 13 (some (-1200000000)) ++ [some (-2400000000)] ∧
      pickColumn hugeColumn none = (-1000000000, none) ∧
      columnStep (fun _ => some hugeColumn) ([], none) 0 = ("undefined".toList, none) := by
  decide

/-- The choice of the column loop where it is reached: for a column whose observed
characters are distinct keys of the 14-symbol matrix alphabet and in which some
candidate scores above the initial maximum -1000000000 (as it does when the column
holds fewer than `10^9 / 17` characters), the score computed for a candidate is
`specScore`, the sum over the observed `b` of `count[b] * matrix[c][b]`; the chosen
symbol attains the largest of the 14 scores; if one of `A`, `C`, `G`, `T` attains it
the chosen symbol is one of them, and otherwise it is the first candidate in matrix
order that attains it.  For at least one and fewer than `10^9 / 17` rows of width 1,
each a matrix symbol other than `.`, this symbol is the whole output of
`generateConsensusFromAlignment2`. -/
theorem pickColumn_max :
    (∀ (t : Tally) (highBase : Option Str), TallyA t →
      (∃ j, j < 14 ∧ -1000000000 < specScore t j) →
      (∀ j, j < 14 → candidateScore t j = some (specScore t j)) ∧
      ∃ i, i < 14 ∧ pickColumn t highBase = (specScore t i, some (alphabet_r.getD i [])) ∧
        (∀ j, j < 14 → specScore t j ≤ specScore t i) ∧
        ((∃ j, j < 14 ∧ alphabet_r.getD j [] ∈ acgt ∧ specScore t j = specScore t i) →
          alphabet_r.getD i [] ∈ acgt) ∧
        ((¬ ∃ j, j < 14 ∧ alphabet_r.getD j [] ∈ acgt ∧ specScore t j = specScore t i) →
          ∀ j, j < i → specScore t j < specScore t i)) ∧
    (∀ t : Tally, TallyA t → 17 * t.total < 1000000000 →
      ∃ j, j < 14 ∧ -1000000000 < specScore t j) ∧
    (∀ self : SeedAlignment, self.alignments ≠ [] →
      17 * self.alignments.length < 1000000000 →
      (∀ row ∈ self.alignments, row.alignment ∈ alphabet_r ∧ row.alignment ≠ ['.']) →
      TallyA (singleColumnTally self.alignments) ∧
        (∃ j, j < 14 ∧ -1000000000 < specScore (singleColumnTally self.alignments) j) ∧
        ∃ b, (pickColumn (singleColumnTally self.alignments) none).2 = some b ∧
          generateConsensusFromAlignment2 self = .ok b) :=
  ⟨fun t highBase ht hbig =>
      ⟨fun j hj => candidateScore_spec t ht j hj, pickColumn_spec t highBase ht hbig⟩,
    fun t ht hsmall => specScore_A_big t ht hsmall,
    fun self hne hsmall hrows => generateConsensus_single self hne hsmall hrows⟩

/-- The choice of the column loop on the column of two `Z`, where thirteen candidates
tie at -6 and `T`,
the last of `A`, `G`, `C`, `T` in matrix order, is chosen; the column of one `N` gives
`N`, the only candidate at -1; the rows `C`, `T`, `C` of width 1 give `C`. -/
theorem pickColumn_max_witness :
    pickColumn sampleColumn none = (-6, some ['T']) ∧
      pickColumn [(['N'], 1)] none = (-1, some ['N']) ∧
      generateConsensusFromAlignment2 sampleWidthOne = .ok ['C'] ∧
      ((∀ j, j < 14 → candidateScore sampleColumn j = some (specScore sampleColumn j)) ∧
        ∃ i, i < 14 ∧
          pickColumn sampleColumn none = (specScore sampleColumn i, some (alphabet_r.getD i [])) ∧
          (∀ j, j < 14 → specScore sampleColumn j ≤ specScore sampleColumn i) ∧
          ((∃ j, j < 14 ∧ alphabet_r.getD j [] ∈ acgt ∧
              specScore sampleColumn j = specScore sampleColumn i) →
            alphabet_r.getD i [] ∈ acgt) ∧
          ((¬ ∃ j, j < 14 ∧ alphabet_r.getD j [] ∈ acgt ∧
              specScore sampleColumn j = specScore sampleColumn i) →
            ∀ j, j < i → specScore sampleColumn j < specScore sampleColumn i)) ∧
      (TallyA (singleColumnTally sampleWidthOne.alignments) ∧
        (∃ j, j < 14 ∧ -1000000000 < specScore (singleColumnTally sampleWidthOne.alignments) j) ∧
        ∃ b, (pickColumn (singleColumnTally sampleWidthOne.alignments) none).2 = some b ∧
          generateConsensusFromAlignment2 sampleWidthOne = .ok b) :=
  ⟨by decide, by decide, by decide,
    pickColumn_max.1 sampleColumn none (by unfold TallyA; decide) ⟨0, by decide, by decide⟩,
    pickColumn_max.2.2 sampleWidthOne (by decide) (by decide) (by decide)⟩

/-- C19, the code on an alignment of width 1 with a row that holds no base.  For the
parsed text `#=GC RF x`, `s1 A`, `s2 .` the only column holds the observed character
`A`, whose scores are largest for the candidate `A` (9), and the rows without the
gap row give the output `A`; with the gap row `generateConsensusFromAlignment2`
throws a `TypeError` in the tally loop (`startMatch` is `null` and
`startMatch.length` is read), in either row order, so there is no output. -/
theorem generateConsensus_width_one_gap_row :
    parseStockholm fresh (some "#=GC RF x\ns1 A\ns2 .\n//".toList) =
        .ok (some { headers := [("RF".toList, "x".toList)],
                    alignments := [{ seqid := "s1".toList, alignment := "A".toList },
                                   { seqid := "s2".toList, alignment := ".".toList }] }) ∧
      generateConsensusFromAlignment2
        { headers := [("RF".toList, "x".toList)],
          alignments := [{ seqid := "s1".toList, alignment := "A".toList },
                         { seqid := "s2".toList, alignment := ".".toList }] }
        = .error .typeError ∧
      generateConsensusFromAlignment2
        { headers := [("RF".toList, "x".toList)],
          alignments := [{ seqid := "s2".toList, alignment := ".".toList },
                         { seqid := "s1".toList, alignment := "A".toList }] }
        = .error .typeError ∧
      startMatch ".".toList = none ∧
      (tallyRow ColData.empty { seqid := "s2".toList, alignment := ".".toList }).map
          (fun _ => ()) = .error .typeError ∧
      pickColumn [(['A'], 1)] none = (9, some ['A']) ∧
      generateConsensusFromAlignment2
        { headers := [("RF".toList, "x".toList)],
          alignments := [{ seqid := "s1".toList, alignment := "A".toList }] }
        = .ok "A".toList := by
  decide

/-! ## Theorems: the residues kept by `toA2M` -/

theorem a2mOut_head (h : Option Char) (base : Char) :
    a2mOut h base = if h = some '.' then a2mOut (some '.') base else a2mOut none base := by
  unfold a2mOut
  by_cases hh : h = some '.'
  · simp [hh]
  · simp [hh]

set_option maxRecDepth 8000 in
theorem a2mOut_residue : ∀ c ∈ asciiLetters ++ ['.', '-'], ∀ h ∈ [some '.', none],
    a2mResidues ([a2mOut h (if upperChar c = '-' then '.' else upperChar c)].filter
        (fun x => x ≠ '.')) = rowResidues [c] ∧
      letterCount ([a2mOut h (if upperChar c = '-' then '.' else upperChar c)].filter
        (fun x => x ≠ '.')) = (rowResidues [c]).length ∧
      ([if upperChar c = '-' then '.' else upperChar c].filter (fun x => x ≠ '.')).length =
        (rowResidues [c]).length := by
  decide

theorem a2mResidues_append (s t : Str) : a2mResidues (s ++ t) = a2mResidues s ++ a2mResidues t := by
  simp [a2mResidues]

theorem rowResidues_append (s t : Str) : rowResidues (s ++ t) = rowResidues s ++ rowResidues t := by
  simp [rowResidues]

theorem letterCount_append (s t : Str) : letterCount (s ++ t) = letterCount s + letterCount t := by
  simp [letterCount]

/-- Column by column, the string left by the column pass holds the residues of the row,
whatever the mask; its letters and the characters other than `.` of the normalised row
are as many as the residues. -/
theorem a2mCells_residues (row : Str) :
    ∀ RF : Str, IsA2MRowText row →
      a2mResidues ((a2mCells RF (a2mNormalize row)).filter (fun c => c ≠ '.')) = rowResidues row ∧
      letterCount ((a2mCells RF (a2mNormalize row)).filter (fun c => c ≠ '.')) =
        (rowResidues row).length ∧
      ((a2mNormalize row).filter (fun c => c ≠ '.')).length = (rowResidues row).length := by
  induction row with
  | nil => intro RF _; simp [a2mNormalize, a2mCells, a2mResidues, rowResidues, letterCount]
  | cons c cs ih =>
    intro RF hrow
    have hc : c ∈ asciiLetters ++ ['.', '-'] := hrow c (List.mem_cons_self c cs)
    have hcs : IsA2MRowText cs := fun x hx => hrow x (List.mem_cons_of_mem c hx)
    obtain ⟨i1, i2, i3⟩ := ih RF.tail hcs
    have hsplit : ∀ (x : Char) (l : Str),
        (x :: l).filter (fun c => c ≠ '.') =
          [x].filter (fun c => c ≠ '.') ++ l.filter (fun c => c ≠ '.') := by
      intro x l
      rw [← List.filter_append]
      rfl
    have hrowc : rowResidues (c :: cs) = rowResidues [c] ++ rowResidues cs := by
      rw [← rowResidues_append]
      rfl
    have hcell : ∃ h ∈ [some '.', none],
        a2mOut RF.head? (if upperChar c = '-' then '.' else upperChar c) =
          a2mOut h (if upperChar c = '-' then '.' else upperChar c) := by
      rw [a2mOut_head]
      by_cases hh : RF.head? = some '.'
      · exact ⟨some '.', by simp, by rw [if_pos hh]⟩
      · exact ⟨none, by simp, by rw [if_neg hh]⟩
    obtain ⟨h, hmem, hout⟩ := hcell
    obtain ⟨p1, p2, p3⟩ := a2mOut_residue c hc h hmem
    have e1 : (a2mCells RF (a2mNormalize (c :: cs))).filter (fun c => c ≠ '.') =
        [a2mOut h (if upperChar c = '-' then '.' else upperChar c)].filter (fun x => x ≠ '.') ++
          (a2mCells RF.tail (a2mNormalize cs)).filter (fun c => c ≠ '.') := by
      rw [a2mNormalize_cons, a2mCells, hout, hsplit]
    have e2 : (a2mNormalize (c :: cs)).filter (fun c => c ≠ '.') =
        [if upperChar c = '-' then '.' else upperChar c].filter (fun x => x ≠ '.') ++
          (a2mNormalize cs).filter (fun c => c ≠ '.') := by
      rw [a2mNormalize_cons, hsplit]
    refine ⟨?_, ?_, ?_⟩
    · rw [e1, a2mResidues_append, p1, i1, hrowc]
    · rw [e1, letterCount_append, p2, i2, hrowc, List.length_append]
    · rw [e2, List.length_append, p3, i3, hrowc, List.length_append]

theorem a2mRow_record (RF : Str) (row : Row) (r : A2MRecord) (h : a2mRow RF (-1) row = .ok r) :
    r.a2m_seq = (a2mCells RF (a2mNormalize row.alignment)).filter (fun c => c ≠ '.') ∧
      ((row.stop = none ∨ row.stop = some 0) →
        r.seq_end = ((a2mNormalize row.alignment).filter (fun c => c ≠ '.')).length) := by
  unfold a2mRow at h
  simp only at h
  rw [if_neg (by omega)] at h
  simp only [Except.ok.injEq] at h
  subst h
  refine ⟨by simp [a2mColumns_seq], ?_⟩
  rintro (hs | hs) <;> simp [hs]

/-- C21: for rows over ASCII letters, `.` and `-` and for the mask `RF` that `toA2M` uses
(stored or derived, of any length), `toA2M` returns one record per row in which
`a2m_seq`, with every `-` removed and uppercased, is the row with every `.` and `-`
removed, uppercased; the letters of `a2m_seq` are as many as these residues, and when
the row has no `end` (or `end` is 0) `seq_end` is the number of letters of `a2m_seq`. -/
theorem toA2M_residues (self : SeedAlignment) (RF : Str) (hmask : IsA2MMask self RF)
    (hrows : ∀ row ∈ self.alignments, IsA2MRowText row.alignment) :
    ∃ recs, toA2M self = .ok recs ∧
      List.Forall₂ (fun row r =>
        a2mResidues r.a2m_seq = rowResidues row.alignment ∧
        letterCount r.a2m_seq = (rowResidues row.alignment).length ∧
        ((row.stop = none ∨ row.stop = some 0) → r.seq_end = letterCount r.a2m_seq))
        self.alignments recs := by
  obtain ⟨recs, hok, hall⟩ := toA2M_rows self RF hmask
  refine ⟨recs, hok, ?_⟩
  have gen : ∀ (rows : List Row) (rs : List A2MRecord),
      List.Forall₂ (fun row r => a2mRow RF (-1) row = .ok r) rows rs →
      (∀ row ∈ rows, IsA2MRowText row.alignment) →
      List.Forall₂ (fun row r =>
        a2mResidues r.a2m_seq = rowResidues row.alignment ∧
        letterCount r.a2m_seq = (rowResidues row.alignment).length ∧
        ((row.stop = none ∨ row.stop = some 0) → r.seq_end = letterCount r.a2m_seq)) rows rs := by
    intro rows rs hf
    induction hf with
    | nil => intro _; exact List.Forall₂.nil
    | @cons row r rows2 rs2 hhead _ ih =>
      intro hl
      obtain ⟨hseq, hend⟩ := a2mRow_record RF row r hhead
      obtain ⟨q1, q2, q3⟩ := a2mCells_residues row.alignment RF (hl row (List.mem_cons_self _ _))
      refine List.Forall₂.cons ⟨?_, ?_, ?_⟩ (ih (fun x hx => hl x (List.mem_cons_of_mem _ hx)))
      · rw [hseq]; exact q1
      · rw [hseq]; exact q2
      · intro hs
        rw [hend hs, hseq, q2, q3]
  exact gen _ _ hall hrows

/-- C21 on `sampleResidues`, whose mask `x.x` is shorter than the rows: the residues
`ACGT`, none, `NNYR` and `ACGTAC` are kept, and the default `seq_end` is 4, 0 and 4. -/
theorem toA2M_residues_witness :
    (toA2M sampleResidues).map (fun recs => recs.map (fun r => (r.a2m_seq, r.seq_end))) =
        .ok [("AC-GT".toList, 4), ("-----".toList, 0), ("Nn--YR".toList, 4),
             ("AcGTAC".toList, 40)] ∧
      ∃ recs, toA2M sampleResidues = .ok recs ∧
        List.Forall₂ (fun row r =>
          a2mResidues r.a2m_seq = rowResidues row.alignment ∧
          letterCount r.a2m_seq = (rowResidues row.alignment).length ∧
          ((row.stop = none ∨ row.stop = some 0) → r.seq_end = letterCount r.a2m_seq))
          sampleResidues.alignments recs :=
  ⟨by decide, toA2M_residues sampleResidues "x.x".toList (Or.inl (by decide)) (by decide)⟩

/-! ## Theorems: `generateConsensusFromAlignment2` on a single row -/

/-- The character after a run of `.` taken from a string is no `.`. -/
theorem takeWhile_dot_next (l : Str) :
    (l.drop (l.takeWhile (fun c => c = '.')).length).head? ≠ some '.' := by
  induction l with
  | nil => simp
  | cons a l ih =>
    by_cases ha : a = '.'
    · simpa [List.takeWhile_cons, ha] using ih
    · simp [List.takeWhile_cons, ha]

/-- The two indices that `diRE.exec` yields point at characters other than `.` (the
right one possibly beyond the end). -/
theorem diExec_chars (consensus : Str) (lastIndex l r : Nat)
    (h : diExec consensus lastIndex = some (l, r)) :
    charAt consensus l ≠ ['.'] ∧ charAt consensus r ≠ ['.'] := by
  unfold diExec at h
  simp only at h
  split at h
  · simp only [Option.some.injEq, Prod.mk.injEq] at h
    obtain ⟨h1, h2⟩ := h
    constructor
    · intro hc
      rw [charAt_dot_iff, ← h1] at hc
      have := takeWhile_dot_next (consensus.drop lastIndex)
      rw [List.drop_drop] at this
      apply this
      rw [← hc]
    · intro hc
      rw [charAt_dot_iff, ← h2, h1] at hc
      have := takeWhile_dot_next (consensus.drop (l + 1))
      rw [List.drop_drop] at this
      apply this
      rw [← hc]
  · exact absurd h (by simp)

/-- For a pair of bases that is the only observed pair, `CGScore` does not exceed
`dnScore`. -/
theorem pairStep_same : ∀ a ∈ "ACGT".toList, ∀ b ∈ "ACGT".toList,
    (pairStep [a] [b] 0 1 (some 0, some 0) { seqid := [], alignment := [a, b] }).map
      (fun p => jsGt p.1 p.2) = .ok false := by
  decide

theorem pairScores_single (row : Row) (l r : Nat) (a b : Char)
    (ha : a ∈ "ACGT".toList) (hb : b ∈ "ACGT".toList)
    (hl : charAt row.alignment l = [a]) (hr : charAt row.alignment r = [b]) :
    (pairScores [a] [b] l r [row] (some 0, some 0)).map (fun p => jsGt p.1 p.2) = .ok false := by
  have key := pairStep_same a ha b hb
  have hstep : pairStep [a] [b] l r (some 0, some 0) row =
      pairStep [a] [b] 0 1 (some 0, some 0) { seqid := [], alignment := [a, b] } := by
    unfold pairStep
    simp only [hl, hr]
    rfl
  rw [← hstep] at key
  unfold pairScores
  cases hp : pairStep [a] [b] l r (some 0, some 0) row with
  | error e => rw [hp] at key; exact absurd key (by simp [Except.map])
  | ok st =>
    rw [hp] at key
    simpa [pairScores] using key

theorem baseOrGap_alphabet : ∀ c ∈ baseOrGap, [c] ∈ alphabet_r ∧ (c ≠ '.' → c ∈ "ACGT".toList) := by
  decide

theorem singleTally_A : ∀ c ∈ baseOrGap, TallyA [([c], 1)] ∧
    (∃ j, j < 14 ∧ -1000000000 < specScore [([c], 1)] j) := by
  intro c hc
  refine ⟨⟨by simp, ?_⟩, 13, by omega, ?_⟩
  · intro k hk
    simp only [List.map_cons, List.map_nil, List.mem_singleton] at hk
    rw [hk]
    exact (baseOrGap_alphabet c hc).1
  · revert c
    decide

/-- In a column that holds one base or one gap, once, that character alone has the
largest score. -/
theorem singleTally_argmax : ∀ c ∈ baseOrGap, ∀ i, i < 14 →
    (∀ j, j < 14 → specScore [([c], 1)] j ≤ specScore [([c], 1)] i) →
    alphabet_r.getD i [] = [c] := by
  decide

theorem pickColumn_single (c : Char) (hc : c ∈ baseOrGap) (highBase : Option Str) :
    (pickColumn [([c], 1)] highBase).2 = some [c] := by
  obtain ⟨hA, hbig⟩ := singleTally_A c hc
  obtain ⟨i, hi, e, hmax, _⟩ := pickColumn_spec [([c], 1)] highBase hA hbig
  rw [e, singleTally_argmax c hc i hi hmax]

/-- The span of a row whose first and last characters are no gaps is the whole row. -/
theorem covers_whole (row : Row) (hne : row.alignment ≠ [])
    (hfirst : row.alignment.head? ≠ some '.') (hlast : row.alignment.getLast? ≠ some '.') :
    ∀ j, covers row j = decide (j < row.alignment.length) := by
  intro j
  have hs : startMatch row.alignment = some 0 := by
    unfold startMatch
    cases hr : row.alignment with
    | nil => exact absurd hr hne
    | cons a rest =>
      have ha : a ≠ '.' := by
        intro h
        rw [hr, h] at hfirst
        exact hfirst rfl
      simp [List.dropWhile_cons, List.takeWhile_cons, ha]
  have he : endMatch row.alignment = some 0 := by
    unfold endMatch
    cases hr : row.alignment.reverse with
    | nil =>
      have : row.alignment = [] := by simpa using hr
      exact absurd this hne
    | cons a rest =>
      have ha : a ≠ '.' := by
        intro h
        have : row.alignment.getLast? = some a := by
          rw [List.getLast?_eq_head?_reverse, hr]
          rfl
        rw [this, h] at hlast
        exact hlast rfl
      simp [List.dropWhile_cons, List.takeWhile_cons, ha]
  have hlen : 1 ≤ row.alignment.length := by
    cases hr : row.alignment with
    | nil => exact absurd hr hne
    | cons a rest => simp
  simp only [covers, hs, he]
  by_cases hj : j < row.alignment.length
  · simp [hj]
    omega
  · simp [hj]
    omega

/-- The tally of a single row whose span is the whole row: every column holds its
character once. -/
theorem tallyRows_single_row (row : Row) (hne : row.alignment ≠ [])
    (hfirst : row.alignment.head? ≠ some '.') (hlast : row.alignment.getLast? ≠ some '.') :
    ∃ cd, tallyRows [row] ColData.empty = .ok cd ∧
      ∀ j, cd j = if j < row.alignment.length then some [(charAt row.alignment j, 1)] else none := by
  have hbase : ∃ c ∈ row.alignment, c ≠ '.' := by
    cases hr : row.alignment with
    | nil => exact absurd hr hne
    | cons a rest =>
      refine ⟨a, List.mem_cons_self _ _, ?_⟩
      intro h
      rw [hr, h] at hfirst
      exact hfirst rfl
  obtain ⟨cd1, h1, h2⟩ := tallyRow_apply ColData.empty row hbase
  refine ⟨cd1, by simp only [tallyRows, h1], ?_⟩
  intro j
  rw [h2 j, covers_whole row hne hfirst hlast j]
  by_cases hj : j < row.alignment.length
  · simp [hj, ColData.empty, Tally.incr]
  · simp [hj, ColData.empty]

/-- The column loop over a tally that holds in every column the character of the row
once reproduces the row. -/
theorem columnStep_single_row (alignment : Str) (cd : ColData)
    (hchars : ∀ c ∈ alignment, c ∈ baseOrGap)
    (hcd : ∀ j, cd j = if j < alignment.length then some [(charAt alignment j, 1)] else none) :
    ∀ n, n ≤ alignment.length →
      ((List.range n).foldl (columnStep cd) ([], none)).1 = alignment.take n := by
  intro n
  induction n with
  | zero => intro _; rfl
  | succ n ih =>
    intro hn
    have hlt : n < alignment.length := by omega
    rw [List.range_succ, List.foldl_append, List.foldl_cons, List.foldl_nil]
    have hc : alignment[n] ∈ baseOrGap := hchars _ (List.getElem_mem hlt)
    have hcol : cd n = some [([alignment[n]], 1)] := by
      rw [hcd n, if_pos hlt, charAt_eq_getElem _ _ hlt]
    have hstep : ∀ st : Str × Option Str,
        columnStep cd st n = (st.1 ++ [alignment[n]], some [alignment[n]]) := by
      intro st
      unfold columnStep
      simp only [hcol, appendBase, pickColumn_single _ hc, Option.getD_some]
    rw [hstep, ih (by omega), List.take_succ, List.getElem?_eq_getElem hlt]
    rfl

/-- The dinucleotide pass on a single row of bases and gaps, given as its own consensus,
never overwrites a pair. -/
theorem cpgLoop_single_row (row : Row) (hchars : ∀ c ∈ row.alignment, c ∈ baseOrGap) :
    ∀ (fuel lastIndex : Nat), lastIndex ≤ row.alignment.length →
      row.alignment.length + 1 ≤ fuel + lastIndex →
      cpgLoop [row] fuel row.alignment lastIndex = some (.ok row.alignment) := by
  intro fuel
  induction fuel with
  | zero => intro lastIndex h1 h2; omega
  | succ fuel ih =>
    intro lastIndex h1 h2
    unfold cpgLoop
    cases hd : diExec row.alignment lastIndex with
    | none => rfl
    | some p =>
      obtain ⟨l, r⟩ := p
      obtain ⟨e1, e2, e3, e4⟩ := diExec_spec row.alignment lastIndex l r hd
      obtain ⟨d1, d2⟩ := diExec_chars row.alignment lastIndex l r hd
      simp only
      by_cases hright : charAt row.alignment r = []
      · rw [if_neg (by simpa using hright)]
        exact ih r e4 (by omega)
      · rw [if_pos hright]
        have hr : r < row.alignment.length := charAt_ne_nil row.alignment r hright
        have hL : charAt row.alignment l = [row.alignment[l]] := charAt_eq_getElem _ _ e2
        have hR : charAt row.alignment r = [row.alignment[r]] := charAt_eq_getElem _ _ hr
        have ha : row.alignment[l] ∈ "ACGT".toList :=
          (baseOrGap_alphabet _ (hchars _ (List.getElem_mem e2))).2
            (fun h => d1 (by rw [hL, h]))
        have hb : row.alignment[r] ∈ "ACGT".toList :=
          (baseOrGap_alphabet _ (hchars _ (List.getElem_mem hr))).2
            (fun h => d2 (by rw [hR, h]))
        have key := pairScores_single row l r _ _ ha hb hL hR
        rw [hL, hR]
        cases hp : pairScores [row.alignment[l]] [row.alignment[r]] l r [row] (some 0, some 0) with
        | error e => rw [hp] at key; exact absurd key (by simp [Except.map])
        | ok st =>
          obtain ⟨cg, dn⟩ := st
          rw [hp] at key
          have hgt : jsGt cg dn = false := by simpa [Except.map] using key
          simp only [hgt]
          exact ih r e4 (by omega)

/-- C22: for an alignment of a single row over `A`, `C`, `G`, `T` and `.` whose first and
last characters are bases, the column loop of `generateConsensusFromAlignment2`
reproduces the row, the dinucleotide pass returns it unchanged, and so the result
is the row; at every pair of columns where the row has bases, `CGScore > dnScore` is
false. -/
theorem generateConsensus_single_row (self : SeedAlignment) (row : Row)
    (hal : self.alignments = [row])
    (hchars : ∀ c ∈ row.alignment, c ∈ baseOrGap)
    (hne : row.alignment ≠ [])
    (hfirst : row.alignment.head? ≠ some '.') (hlast : row.alignment.getLast? ≠ some '.') :
    columnConsensus self = .ok row.alignment ∧
      cpgPass self.alignments row.alignment = .ok row.alignment ∧
      generateConsensusFromAlignment2 self = .ok row.alignment ∧
      ∀ l r, l < row.alignment.length → r < row.alignment.length →
        charAt row.alignment l ≠ ['.'] → charAt row.alignment r ≠ ['.'] →
        (pairScores (charAt row.alignment l) (charAt row.alignment r) l r self.alignments
          (some 0, some 0)).map (fun p => jsGt p.1 p.2) = .ok false := by
  obtain ⟨cd, hcd, hcol⟩ := tallyRows_single_row row hne hfirst hlast
  have h1 : columnConsensus self = .ok row.alignment := by
    unfold columnConsensus
    rw [hal, hcd]
    simp only [scoreColumns]
    rw [columnStep_single_row row.alignment cd hchars hcol row.alignment.length (Nat.le_refl _),
      List.take_length]
  have h2 : cpgPass self.alignments row.alignment = .ok row.alignment := by
    unfold cpgPass
    rw [hal, cpgLoop_single_row row hchars (row.alignment.length + 1) 0 (by omega) (by omega)]
    rfl
  refine ⟨h1, h2, ?_, ?_⟩
  · unfold generateConsensusFromAlignment2
    rw [h1]
    exact h2
  · intro l r hl hr dl dr
    have hL : charAt row.alignment l = [row.alignment[l]] := charAt_eq_getElem _ _ hl
    have hR : charAt row.alignment r = [row.alignment[r]] := charAt_eq_getElem _ _ hr
    have ha : row.alignment[l] ∈ "ACGT".toList :=
      (baseOrGap_alphabet _ (hchars _ (List.getElem_mem hl))).2 (fun h => dl (by rw [hL, h]))
    have hb : row.alignment[r] ∈ "ACGT".toList :=
      (baseOrGap_alphabet _ (hchars _ (List.getElem_mem hr))).2 (fun h => dr (by rw [hR, h]))
    rw [hal, hL, hR]
    exact pairScores_single row l r _ _ ha hb hL hR

/-- C22 on `sampleSingleRow`, the row `CA.TG..TATCTTAAGACG`. -/
theorem generateConsensus_single_row_witness :
    generateConsensusFromAlignment2 sampleSingleRow = .ok "CA.TG..TATCTTAAGACG".toList ∧
      columnConsensus sampleSingleRow = .ok "CA.TG..TATCTTAAGACG".toList ∧
      cpgPass sampleSingleRow.alignments "CA.TG..TATCTTAAGACG".toList =
        .ok "CA.TG..TATCTTAAGACG".toList :=
  ⟨(generateConsensus_single_row sampleSingleRow
      { seqid := "s1".toList, alignment := "CA.TG..TATCTTAAGACG".toList }
      (by decide) (by decide) (by decide) (by decide) (by decide)).2.2.1,
    by decide, by decide⟩

/-! ## Theorems: the records of `toAlignmentSummary` and the model length -/

/-- One column of the scan: `consPos` grows by one exactly when the consensus symbol is
not `.` (the empty string beyond the end of the consensus included), and `aligned`
and `conStart` stay at most `consPos`. -/
theorem scanStep_consPos (consensus alignment : Str) (alignStart : Nat) (st : ScanState) (j : Nat) :
    (scanStep consensus alignment alignStart 10 st j).consPos =
        st.consPos + (if charAt consensus j ≠ ['.'] then 1 else 0) ∧
      (st.aligned ≤ st.consPos → st.conStart ≤ st.consPos →
        (scanStep consensus alignment alignStart 10 st j).aligned ≤
            (scanStep consensus alignment alignStart 10 st j).consPos ∧
          (scanStep consensus alignment alignStart 10 st j).conStart ≤
            (scanStep consensus alignment alignStart 10 st j).consPos) := by
  unfold scanStep
  by_cases hlt : j < alignStart
  · by_cases hc : charAt consensus j = ['.']
    · simp only [hlt, hc, if_true, if_false, ne_eq, not_true_eq_false]
      refine ⟨by omega, fun h1 h2 => ⟨h1, h2⟩⟩
    · simp only [hlt, hc, if_true, if_false, ne_eq, not_false_eq_true]
      refine ⟨by trivial, fun h1 h2 => ⟨by omega, by omega⟩⟩
  · by_cases hc : charAt consensus j = ['.']
    · simp only [hlt, hc, if_true, if_false, ne_eq, not_true_eq_false]
      split_ifs <;>
        refine ⟨by first | omega | (dsimp only; omega),
          fun h1 h2 => ⟨by first | omega | (dsimp only; omega), by first | omega | (dsimp only; omega)⟩⟩
    · simp only [hlt, hc, if_true, if_false, ne_eq, not_false_eq_true]
      split_ifs <;>
        refine ⟨by trivial,
          fun h1 h2 => ⟨by first | omega | (dsimp only; omega), by first | omega | (dsimp only; omega)⟩⟩

/-- While the scan stays inside the consensus, `consPos` is the number of consensus
symbols other than `.` met so far, and `aligned` and `conStart` are at most that. -/
theorem scanStep_foldl_consPos (consensus alignment : Str) (alignStart : Nat) :
    ∀ n, n ≤ consensus.length →
      ((List.range n).foldl (scanStep consensus alignment alignStart 10) {}).consPos =
          ((consensus.take n).filter (fun c => c ≠ '.')).length ∧
        ((List.range n).foldl (scanStep consensus alignment alignStart 10) {}).aligned ≤
          ((List.range n).foldl (scanStep consensus alignment alignStart 10) {}).consPos ∧
        ((List.range n).foldl (scanStep consensus alignment alignStart 10) {}).conStart ≤
          ((List.range n).foldl (scanStep consensus alignment alignStart 10) {}).consPos := by
  intro n
  induction n with
  | zero => intro _; exact ⟨rfl, Nat.le_refl _, Nat.le_refl _⟩
  | succ n ih =>
    intro hn
    have hlt : n < consensus.length := by omega
    obtain ⟨h1, h2, h3⟩ := ih (by omega)
    rw [List.range_succ, List.foldl_append, List.foldl_cons, List.foldl_nil]
    generalize (List.range n).foldl (scanStep consensus alignment alignStart 10) {} = st
      at h1 h2 h3
    obtain ⟨s1, s2⟩ := scanStep_consPos consensus alignment alignStart st n
    refine ⟨?_, s2 h2 h3⟩
    rw [s1, h1, List.take_succ, List.getElem?_eq_getElem hlt, List.filter_append,
      List.length_append, charAt_eq_getElem _ _ hlt]
    by_cases hc : consensus[n] = '.'
    · simp [hc]
    · simp [hc]

theorem startMatch_ne_nil (s : Str) (a : Nat) (h : startMatch s = some a) : s ≠ [] := by
  intro hs
  rw [hs] at h
  simp [startMatch] at h

/-- The record of a row that is not longer than the consensus lies inside the model:
`conStart` and `aligned` are at most the number of consensus symbols other than
`.`. -/
theorem summarizeRow_inside_model (consensus : Str) (row : Row) (r : SummaryRecord)
    (h : summarizeRow consensus row = .ok (some r))
    (hlen : row.alignment.length ≤ consensus.length) :
    r.conStart ≤ (consensus.filter (fun c => c ≠ '.')).length ∧
      r.aligned ≤ (consensus.filter (fun c => c ≠ '.')).length := by
  unfold summarizeRow at h
  simp only at h
  split at h
  · exact absurd h (by simp)
  · split at h
    · rename_i alignStart dots hs _
      have hne := startMatch_ne_nil row.alignment alignStart hs
      have hpos : 1 ≤ row.alignment.length := by
        cases hr : row.alignment with
        | nil => exact absurd hr hne
        | cons a rest => simp
      simp only [Except.ok.injEq, Option.some.injEq] at h
      obtain ⟨h1, h2, h3⟩ := scanStep_foldl_consPos consensus row.alignment alignStart
        (row.alignment.length - dots - 1 + 1) (by omega)
      have hsub : ((consensus.take (row.alignment.length - dots - 1 + 1)).filter
          (fun c => c ≠ '.')).length ≤ (consensus.filter (fun c => c ≠ '.')).length :=
        ((List.take_sublist _ _).filter _).length_le
      rw [← h]
      simp only
      omega
    · exact absurd h (by simp)

/-- When no row is longer than the consensus, every record of the summary lies inside
the model: `conStart` and `aligned` are at most `length`. -/
theorem toAlignmentSummary_inside_model (self : SeedAlignment) (d : SummaryData)
    (consensus : Str) (h : toAlignmentSummary self = .ok d)
    (hg : generateConsensusFromAlignment2 self = .ok consensus)
    (hlen : ∀ row ∈ self.alignments, row.alignment.length ≤ consensus.length) :
    ∀ r ∈ d.alignments, r.conStart ≤ d.length ∧ r.aligned ≤ d.length := by
  intro r hr
  obtain ⟨c2, row, hg2, hrow, hsum⟩ := toAlignmentSummary_record_row self d h r hr
  rw [hg] at hg2
  simp only [Except.ok.injEq] at hg2
  subst hg2
  have hd : d.length = (consensus.filter (fun c => c ≠ '.')).length := by
    unfold toAlignmentSummary at h
    rw [hg] at h
    simp only at h
    cases hs : summarizeRows consensus self.alignments [] with
    | error e => rw [hs] at h; exact absurd h (by simp)
    | ok recs =>
      rw [hs] at h
      simp only [Except.ok.injEq] at h
      rw [← h]
  rw [hd]
  exact summarizeRow_inside_model consensus row r hsum (hlen row hrow)

/-- C23, the code on rows with columns outside every span.  For the parsed text
`#=GC RF ...x.x`, `s1 ...A.A` (one row over the bases and `.`, with a base) the
consensus is `A.A`, the summary has `length` 2, and the record of the row has
`conStart` 3 and `aligned` 3: from column 3 on `consensus.substring(j, j + 1)` is the
empty string, which the test `cBase != '.'` counts as a consensus position.  For
the rows `A...` and `...T` the consensus is `AT`, `length` is 2 and the second record
has `conStart` 4. -/
theorem summary_outside_model :
    (∀ c ∈ "...A.A".toList, c ∈ baseOrGap) ∧ 'A' ∈ "...A.A".toList ∧
    parseStockholm fresh (some "#=GC RF ...x.x\ns1 ...A.A\n//".toList) =
        .ok (some { headers := [("RF".toList, "...x.x".toList)],
                    alignments := [{ seqid := "s1".toList, alignment := "...A.A".toList }] }) ∧
      generateConsensusFromAlignment2
        { headers := [("RF".toList, "...x.x".toList)],
          alignments := [{ seqid := "s1".toList, alignment := "...A.A".toList }] }
        = .ok "A.A".toList ∧
      (toAlignmentSummary
        { headers := [("RF".toList, "...x.x".toList)],
          alignments := [{ seqid := "s1".toList, alignment := "...A.A".toList }] }).map
          (fun d => (d.length, d.alignments.map (fun r => (r.conStart, r.aligned)))) =
        .ok (2, [(3, 3)]) ∧
      generateConsensusFromAlignment2
        { alignments := [{ seqid := "s1".toList, alignment := "A...".toList },
                         { seqid := "s2".toList, alignment := "...T".toList }] }
        = .ok "AT".toList ∧
      (toAlignmentSummary
        { alignments := [{ seqid := "s1".toList, alignment := "A...".toList },
                         { seqid := "s2".toList, alignment := "...T".toList }] }).map
          (fun d => (d.length, d.alignments.map (fun r => (r.conStart, r.aligned)))) =
        .ok (2, [(1, 1), (4, 1)]) := by
  decide

end Dfam
